import Mathlib

/-!
# Nitrogen: value model, environments, evaluator, lexer and compiler

A shallow embedding of `src/object/environment.go`, `src/eval/eval.go`,
`src/lexer/lexer.go`, `src/compiler/compile.go` and of `getScriptArgs` in
`cmd/nitrogen/nitrogen.go`.

Modelling conventions

* Go objects are pointers.  Integers, floats and strings are never mutated and never
  compared by pointer in the evaluator, so they are embedded as immediate values.  The
  evaluator only ever produces the three canonical objects `TRUE`, `FALSE` and `NULL`
  for booleans and null, so these are constructors.  Arrays and hashes are mutated in
  place and therefore live in a heap, addressed by a natural number.  Function and
  return-value objects carry the allocation number that gives them their identity.
* `int64` arithmetic is arithmetic on `Int` wrapped into the signed 64-bit range.
* A `float64` is embedded as its IEEE-754 bit pattern; float arithmetic and ordering are
  operations of the host.
* A Go run-time panic, and exhaustion of the recursion fuel, are `Fault`s.
* An `*Environment` is the address of its frame together with its chain of parents.  The
  stores of the frames live in the heap, so a mutation made through one environment is
  seen through every environment that shares the frame.
-/

namespace Nitrogen

/-! ## Faults -/

/-- Reasons for which a Go call does not return a value. -/
inductive Fault where
  /-- Go run-time panic: integer divide by zero. -/
  | divideByZero
  /-- Go run-time panic: method call on a nil interface value. -/
  | nilDereference
  /-- Go run-time panic: failed single-value type assertion. -/
  | typeAssertion
  /-- Go run-time panic: slice index out of range. -/
  | indexOutOfRange
  /-- The recursion fuel of the embedding ran out. -/
  | outOfFuel
  /-- A call of the Go builtin `panic` with the given message. -/
  | goPanic (message : String)
deriving DecidableEq, Repr

/-! ## Syntax trees (the node kinds that `Eval` switches on) -/

/-- AST nodes.  The kinds from `CompareExpression` to `MakeInstance` are listed by the type
switch of `compile` only; of the last seven no field is read by the code embedded here.
`Other` stands for every node kind that neither `Eval` nor `compile` lists, and for the
nil node. -/
inductive Node where
  | Program (statements : List Node)
  | ExpressionStatement (expression : Node)
  | BlockStatement (statements : List Node)
  | ReturnStatement (value : Node)
  | DefStatement (name : String) (value : Node) (const : Bool)
  | AssignStatement (left : Node) (value : Node)
  | NullLiteral
  | IntegerLiteral (value : Int)
  | StringLiteral (value : String)
  | FloatLiteral (bits : Nat)
  | Array (elements : List Node)
  | Boolean (value : Bool)
  | HashLiteral (pairs : List (Node × Node))
  | Identifier (value : String)
  | PrefixExpression (operator : String) (right : Node)
  | InfixExpression (left : Node) (operator : String) (right : Node)
  | IfExpression (condition : Node) (consequence : Node) (alternative : Option Node)
  | FunctionLiteral (parameters : List String) (body : Node)
  | CallExpression (function : Node) (arguments : List Node)
  | IndexExpression (left : Node) (index : Node)
  /-- A short-circuit comparison; `isLAnd` is the outcome of `Token.Type == token.LAnd`. -/
  | CompareExpression (left : Node) (isLAnd : Bool) (right : Node)
  | ThrowStatement
  | ForLoopStatement
  | ContinueStatement
  | BreakStatement
  | TryCatchExpression
  | ClassLiteral
  | MakeInstance
  | Other

/-! ## Values -/

/-- The kind tags returned by `Object.Type()`. -/
inductive ObjectType where
  | INTEGER_OBJ
  | FLOAT_OBJ
  | STRING_OBJ
  | BOOLEAN_OBJ
  | NULL_OBJ
  | ARRAY_OBJ
  | HASH_OBJ
  | FUNCTION_OBJ
  | BUILTIN_OBJ
  | RETURN_OBJ
  | ERROR_OBJ
deriving DecidableEq, Repr

/-- An `*Environment`: the address of the frame that holds its store, and its parent.
The parent link is fixed when the environment is made (`NewEnvironment`,
`NewEnclosedEnv`); `SetParent`, which the evaluator never calls, is not embedded. -/
inductive Environment where
  | root (frame : Nat)
  | enclosed (frame : Nat) (parent : Environment)

/-- Runtime values.  `nil` is the nil interface value. -/
inductive Object where
  | Integer (value : Int)
  | Float (bits : Nat)
  | Str (value : String)
  | Boolean (value : Bool)
  | Null
  | Array (ref : Nat)
  | Hash (ref : Nat)
  | Function (id : Nat) (parameters : List String) (body : Node) (env : Environment)
  | Builtin (name : String)
  | ReturnValue (id : Nat) (value : Object)
  | Error (message : String)
  | nil

/-- The canonical null object. -/
def NULL : Object := Object.Null

/-- The canonical true object. -/
def TRUE : Object := Object.Boolean true

/-- The canonical false object. -/
def FALSE : Object := Object.Boolean false

/-- The method `Type()`; calling it on the nil interface panics. -/
def objectType : Object → Except Fault ObjectType
  | .Integer _ => .ok .INTEGER_OBJ
  | .Float _ => .ok .FLOAT_OBJ
  | .Str _ => .ok .STRING_OBJ
  | .Boolean _ => .ok .BOOLEAN_OBJ
  | .Null => .ok .NULL_OBJ
  | .Array _ => .ok .ARRAY_OBJ
  | .Hash _ => .ok .HASH_OBJ
  | .Function _ _ _ _ => .ok .FUNCTION_OBJ
  | .Builtin _ => .ok .BUILTIN_OBJ
  | .ReturnValue _ _ => .ok .RETURN_OBJ
  | .Error _ => .ok .ERROR_OBJ
  | .nil => .error .nilDereference

/-- Go interface equality `a == b` on objects, which is pointer identity.  Immediate
values and error objects are never compared this way by the evaluator; two of them
count as distinct allocations. -/
def ptrEq : Object → Object → Bool
  | .Boolean a, .Boolean b => a == b
  | .Null, .Null => true
  | .Array a, .Array b => a == b
  | .Hash a, .Hash b => a == b
  | .Function a _ _ _, .Function b _ _ _ => a == b
  | .Builtin a, .Builtin b => a == b
  | .ReturnValue a _, .ReturnValue b _ => a == b
  | .nil, .nil => true
  | _, _ => false

/-- A slot of an environment store. -/
structure eco where
  v : Object
  readonly : Bool

/-- The store of one frame: `map[string]*eco`. -/
abbrev Store := String → Option eco

/-- The key of a hash entry. -/
structure HashKey where
  type : ObjectType
  value : Nat
deriving DecidableEq, Repr

/-- An entry of a hash: the key object and the value. -/
structure HashPair where
  key : Object
  value : Object

/-- The mutable memory reached from the evaluator. -/
structure Heap where
  /-- The store of the frame at each address. -/
  stores : Nat → Store
  /-- The `Elements` of the array at each address. -/
  arrays : Nat → List Object
  /-- The `Pairs` of the hash at each address. -/
  hashes : Nat → HashKey → Option HashPair
  /-- The next fresh address. -/
  next : Nat

/-- The parts of the program that lie outside `eval.go` and `environment.go`: the
built-in registry, the values of the kind-tag constants, the printing of AST nodes, the
string hash and float arithmetic. -/
structure Host where
  /-- Whether `getBuiltin(name)` is non-nil. -/
  isBuiltin : String → Bool
  /-- The native function of a builtin, applied to evaluated arguments. -/
  callBuiltin : String → List Object → Heap → Except Fault (Object × Heap)
  /-- The string value of a kind tag. -/
  typeName : ObjectType → String
  /-- The method `String()` of an AST node. -/
  nodeString : Node → String
  /-- The hash of a string key. -/
  hashString : String → Nat
  floatAdd : Nat → Nat → Nat
  floatSub : Nat → Nat → Nat
  floatMul : Nat → Nat → Nat
  floatDiv : Nat → Nat → Nat
  floatLt : Nat → Nat → Bool
  floatGt : Nat → Nat → Bool

/-! ## Machine arithmetic -/

/-- Wrap an integer into the range of `int64`. -/
def wrapInt64 (x : Int) : Int := (x + 2 ^ 63) % 2 ^ 64 - 2 ^ 63

/-- Whether a bit pattern (a number below `2 ^ 64`) is an IEEE-754 NaN. -/
def floatIsNaN (bits : Nat) : Bool := (bits / 2 ^ 52) % 2 ^ 11 == 2047 && bits % 2 ^ 52 != 0

/-- Whether a bit pattern is `+0.0` or `-0.0`. -/
def floatIsZero (bits : Nat) : Bool := bits % 2 ^ 63 == 0

/-- IEEE-754 equality `a == b` on bit patterns: neither side is a NaN, and the patterns
are the same or both are zeros. -/
def floatEq (a b : Nat) : Bool :=
  !floatIsNaN a && !floatIsNaN b && (a == b || (floatIsZero a && floatIsZero b))

/-- Negation of a float: the sign bit is flipped. -/
def floatNeg (bits : Nat) : Nat := if bits < 2 ^ 63 then bits + 2 ^ 63 else bits - 2 ^ 63

/-! ## Environments (`environment.go`) -/

/-- The errors returned by the environment methods. -/
inductive EnvError where
  /-- The text of the error is: constant can't not be changed. -/
  | constError
  /-- The text of the error is: symbol already defined. -/
  | errAlreadyDefined
  /-- The text of the error is: symbol not defined. -/
  | errNotDefined
deriving DecidableEq, Repr

/-- The address of the frame of an environment. -/
def Environment.frame : Environment → Nat
  | .root a => a
  | .enclosed a _ => a

/-- The method `Parent`. -/
def Environment.Parent : Environment → Option Environment
  | .root _ => none
  | .enclosed _ p => some p

/-- Write a slot into the store of the frame at address `a`. -/
def Heap.setSlot (h : Heap) (a : Nat) (name : String) (slot : eco) : Heap :=
  { h with stores := fun b => if b = a then (fun n => if n = name then some slot else h.stores a n)
                                else h.stores b }

/-- Allocate the frame of `NewEnvironment`: an empty store without parent. -/
def NewEnvironment (h : Heap) : Environment × Heap :=
  (.root h.next,
   { h with stores := fun b => if b = h.next then (fun _ => none) else h.stores b, next := h.next + 1 })

/-- Allocate the frame of `NewEnclosedEnv(outer)`. -/
def NewEnclosedEnv (h : Heap) (outer : Environment) : Environment × Heap :=
  (.enclosed h.next outer,
   { h with stores := fun b => if b = h.next then (fun _ => none) else h.stores b, next := h.next + 1 })

/-- The method `Get`: the value and the `ok` flag. -/
def Environment.Get (h : Heap) : Environment → String → Object × Bool
  | .root a, name =>
    match h.stores a name with
    | some obj => (obj.v, true)
    | none => (Object.nil, false)
  | .enclosed a p, name =>
    match h.stores a name with
    | some obj => (obj.v, true)
    | none => p.Get h name

/-- The method `GetLocal`. -/
def Environment.GetLocal (h : Heap) (e : Environment) (name : String) : Object × Bool :=
  match h.stores e.frame name with
  | some obj => (obj.v, true)
  | none => (Object.nil, false)

/-- The method `IsConst`. -/
def Environment.IsConst (h : Heap) : Environment → String → Bool
  | .root a, name =>
    match h.stores a name with
    | some obj => obj.readonly
    | none => false
  | .enclosed a p, name =>
    match h.stores a name with
    | some obj => obj.readonly
    | none => p.IsConst h name

/-- The method `IsConstLocal`. -/
def Environment.IsConstLocal (h : Heap) (e : Environment) (name : String) : Bool :=
  match h.stores e.frame name with
  | some obj => obj.readonly
  | none => false

/-- The method `Create`. -/
def Environment.Create (h : Heap) (e : Environment) (name : String) (val : Object) :
    Except EnvError Object × Heap :=
  match h.stores e.frame name with
  | some _ => (.error .errAlreadyDefined, h)
  | none => (.ok val, h.setSlot e.frame name ⟨val, false⟩)

/-- The method `CreateConst`. -/
def Environment.CreateConst (h : Heap) (e : Environment) (name : String) (val : Object) :
    Except EnvError Object × Heap :=
  match h.stores e.frame name with
  | some _ => (.error .errAlreadyDefined, h)
  | none => (.ok val, h.setSlot e.frame name ⟨val, true⟩)

/-- The method `Set`. -/
def Environment.Set (h : Heap) : Environment → String → Object → Except EnvError Object × Heap
  | .root a, name, val =>
    match h.stores a name with
    | some v => if v.readonly then (.error .constError, h) else (.ok val, h.setSlot a name ⟨val, v.readonly⟩)
    | none => (.error .errNotDefined, h)
  | .enclosed a p, name, val =>
    match h.stores a name with
    | some v => if v.readonly then (.error .constError, h) else (.ok val, h.setSlot a name ⟨val, v.readonly⟩)
    | none => p.Set h name val

/-- The method `SetLocal`. -/
def Environment.SetLocal (h : Heap) (e : Environment) (name : String) (val : Object) :
    Except EnvError Object × Heap :=
  match h.stores e.frame name with
  | some v => if v.readonly then (.error .constError, h) else (.ok val, h.setSlot e.frame name ⟨val, v.readonly⟩)
  | none => (.error .errNotDefined, h)

/-- The method `SetForce`. -/
def Environment.SetForce (h : Heap) (e : Environment) (name : String) (val : Object) (readonly : Bool) :
    Heap :=
  h.setSlot e.frame name ⟨val, readonly⟩

/-- The method `UnsetLocal`. -/
def Environment.UnsetLocal (h : Heap) (e : Environment) (name : String) : Heap :=
  { h with stores := fun b => if b = e.frame then (fun n => if n = name then none else h.stores b n)
                                else h.stores b }

/-- The method `Unset`. -/
def Environment.Unset (h : Heap) : Environment → String → Heap
  | .root a, name =>
    { h with stores := fun b => if b = a then (fun n => if n = name then none else h.stores b n)
                                else h.stores b }
  | .enclosed a p, name =>
    p.Unset { h with stores := fun b => if b = a then (fun n => if n = name then none else h.stores b n)
                                        else h.stores b } name

/-! ## Operators (`eval.go`) -/

/-- The function `newError`, applied to the formatted message. -/
def newError (message : String) : Object := Object.Error message

/-- The function `isError`. -/
def isError : Object → Bool
  | .Error _ => true
  | _ => false

/-- The function `nativeBoolToBooleanObj`. -/
def nativeBoolToBooleanObj (input : Bool) : Object :=
  if input then TRUE else FALSE

/-- Allocate a fresh identity. -/
def Heap.fresh (h : Heap) : Nat × Heap := (h.next, { h with next := h.next + 1 })

/-- Allocate an array object with the given elements. -/
def Heap.newArray (h : Heap) (elements : List Object) : Object × Heap :=
  (.Array h.next,
   { h with arrays := fun b => if b = h.next then elements else h.arrays b, next := h.next + 1 })

/-- Allocate a hash object with the given pairs. -/
def Heap.newHash (h : Heap) (pairs : HashKey → Option HashPair) : Object × Heap :=
  (.Hash h.next,
   { h with hashes := fun b => if b = h.next then pairs else h.hashes b, next := h.next + 1 })

/-- The function `isTruthy`. -/
def isTruthy (obj : Object) : Except Fault Bool :=
  -- Null or false is immediately not true
  if ptrEq obj NULL || ptrEq obj FALSE then .ok false
  -- True is immediately true
  else if ptrEq obj TRUE then .ok true
  else do
    let t ← objectType obj
    match t, obj with
    | .INTEGER_OBJ, .Integer value => .ok (decide (value ≠ 0))
    | .FLOAT_OBJ, .Float bits => .ok (!floatEq bits 0)
    | .STRING_OBJ, .Str value => .ok (decide (value ≠ ""))
    -- Assume value is false
    | _, _ => .ok false

/-- The function `evalBangOpExpression`. -/
def evalBangOpExpression (right : Object) : Except Fault Object :=
  if ptrEq right FALSE || ptrEq right NULL then .ok TRUE
  else do
    let t ← objectType right
    match t, right with
    | .INTEGER_OBJ, .Integer value => if value = 0 then .ok TRUE else .ok FALSE
    | _, _ => .ok FALSE

/-- The function `evalMinusPreOpExpression`. -/
def evalMinusPreOpExpression (host : Host) (right : Object) : Except Fault Object := do
  let t ← objectType right
  match t, right with
  | .INTEGER_OBJ, .Integer value => .ok (.Integer (wrapInt64 (-value)))
  | .FLOAT_OBJ, .Float bits => .ok (.Float (floatNeg bits))
  | _, _ => .ok (newError ("unknown operator: -" ++ host.typeName t))

/-- The function `evalPrefixExpression`. -/
def evalPrefixExpression (host : Host) (op : String) (right : Object) : Except Fault Object :=
  if op = "!" then evalBangOpExpression right
  else if op = "-" then evalMinusPreOpExpression host right
  else do
    let t ← objectType right
    .ok (newError ("unknown operator: " ++ op ++ host.typeName t))

/-- The message of the error with format `unknown operator: %s %s %s`. -/
def unknownOperator (host : Host) (lt : ObjectType) (op : String) (rt : ObjectType) : Object :=
  newError ("unknown operator: " ++ host.typeName lt ++ " " ++ op ++ " " ++ host.typeName rt)

/-- The function `evalIntegerInfixExpression`.  Go integer division truncates toward
zero and panics on a zero divisor. -/
def evalIntegerInfixExpression (host : Host) (op : String) (left right : Object) :
    Except Fault Object :=
  match left, right with
  | .Integer leftVal, .Integer rightVal =>
    if op = "+" then .ok (.Integer (wrapInt64 (leftVal + rightVal)))
    else if op = "-" then .ok (.Integer (wrapInt64 (leftVal - rightVal)))
    else if op = "*" then .ok (.Integer (wrapInt64 (leftVal * rightVal)))
    else if op = "/" then
      if rightVal = 0 then .error .divideByZero
      else .ok (.Integer (wrapInt64 (Int.tdiv leftVal rightVal)))
    else if op = "<" then .ok (nativeBoolToBooleanObj (decide (leftVal < rightVal)))
    else if op = ">" then .ok (nativeBoolToBooleanObj (decide (leftVal > rightVal)))
    else if op = "==" then .ok (nativeBoolToBooleanObj (decide (leftVal = rightVal)))
    else if op = "!=" then .ok (nativeBoolToBooleanObj (decide (leftVal ≠ rightVal)))
    else .ok (unknownOperator host .INTEGER_OBJ op .INTEGER_OBJ)
  | _, _ => .error .typeAssertion

/-- The function `evalFloatInfixExpression`. -/
def evalFloatInfixExpression (host : Host) (op : String) (left right : Object) :
    Except Fault Object :=
  match left, right with
  | .Float leftVal, .Float rightVal =>
    if op = "+" then .ok (.Float (host.floatAdd leftVal rightVal))
    else if op = "-" then .ok (.Float (host.floatSub leftVal rightVal))
    else if op = "*" then .ok (.Float (host.floatMul leftVal rightVal))
    else if op = "/" then .ok (.Float (host.floatDiv leftVal rightVal))
    else if op = "<" then .ok (nativeBoolToBooleanObj (host.floatLt leftVal rightVal))
    else if op = ">" then .ok (nativeBoolToBooleanObj (host.floatGt leftVal rightVal))
    else if op = "==" then .ok (nativeBoolToBooleanObj (floatEq leftVal rightVal))
    else if op = "!=" then .ok (nativeBoolToBooleanObj (!floatEq leftVal rightVal))
    else .ok (unknownOperator host .FLOAT_OBJ op .FLOAT_OBJ)
  | _, _ => .error .typeAssertion

/-- The function `evalStringInfixExpression`. -/
def evalStringInfixExpression (host : Host) (op : String) (left right : Object) :
    Except Fault Object :=
  match left, right with
  | .Str leftVal, .Str rightVal =>
    if op = "+" then .ok (.Str (leftVal ++ rightVal))
    else if op = "==" then .ok (nativeBoolToBooleanObj (decide (leftVal = rightVal)))
    else if op = "!=" then .ok (nativeBoolToBooleanObj (decide (leftVal ≠ rightVal)))
    else .ok (unknownOperator host .STRING_OBJ op .STRING_OBJ)
  | _, _ => .error .typeAssertion

/-- The function `evalArrayInfixExpression`. -/
def evalArrayInfixExpression (host : Host) (op : String) (left right : Object) (h : Heap) :
    Except Fault (Object × Heap) :=
  match left, right with
  | .Array leftVal, .Array rightVal =>
    if op = "+" then .ok (h.newArray (h.arrays leftVal ++ h.arrays rightVal))
    else .ok (unknownOperator host .ARRAY_OBJ op .ARRAY_OBJ, h)
  | _, _ => .error .typeAssertion

/-- The function `typesEqualTo`, on the kind tags of the two operands. -/
def typesEqualTo (t a b : ObjectType) : Bool := a = t && b = t

/-- The function `evalInfixExpression`. -/
def evalInfixExpression (host : Host) (op : String) (left right : Object) (h : Heap) :
    Except Fault (Object × Heap) := do
  let lt ← objectType left
  let rt ← objectType right
  if lt ≠ rt then
    .ok (newError ("type mismatch: " ++ host.typeName lt ++ " " ++ op ++ " " ++ host.typeName rt), h)
  else if typesEqualTo .INTEGER_OBJ lt rt then do
    let r ← evalIntegerInfixExpression host op left right
    .ok (r, h)
  else if typesEqualTo .FLOAT_OBJ lt rt then do
    let r ← evalFloatInfixExpression host op left right
    .ok (r, h)
  else if typesEqualTo .STRING_OBJ lt rt then do
    let r ← evalStringInfixExpression host op left right
    .ok (r, h)
  else if typesEqualTo .ARRAY_OBJ lt rt then evalArrayInfixExpression host op left right h
  else if op = "==" then .ok (nativeBoolToBooleanObj (ptrEq left right), h)
  else if op = "!=" then .ok (nativeBoolToBooleanObj (!ptrEq left right), h)
  else .ok (unknownOperator host lt op rt, h)

/-- Modelled from the spec: the `Hashable` interface and its `HashKey` method belong to
the object package, outside the sources at hand.  The hashable kinds are integer, float
(by bit pattern), string and boolean. -/
def hashKey (host : Host) : Object → Option HashKey
  | .Integer value => some ⟨.INTEGER_OBJ, (value % 2 ^ 64).toNat⟩
  | .Float bits => some ⟨.FLOAT_OBJ, bits⟩
  | .Str value => some ⟨.STRING_OBJ, host.hashString value⟩
  | .Boolean value => some ⟨.BOOLEAN_OBJ, if value then 1 else 0⟩
  | _ => none

/-- The function `evalArrayIndexExpression`. -/
def evalArrayIndexExpression (array index : Object) (h : Heap) : Except Fault Object :=
  match array, index with
  | .Array arrObj, .Integer idx =>
    let max : Int := (h.arrays arrObj).length
    if idx > max - 1 then .ok NULL
    else if idx < 0 then
      let idx := max + idx
      if idx < 0 then .ok NULL
      else match (h.arrays arrObj)[idx.toNat]? with
        | some x => .ok x
        | none => .error .indexOutOfRange
    else match (h.arrays arrObj)[idx.toNat]? with
      | some x => .ok x
      | none => .error .indexOutOfRange
  | _, _ => .error .typeAssertion

/-- The function `evalHashIndexExpression`. -/
def evalHashIndexExpression (host : Host) (hash index : Object) (h : Heap) : Except Fault Object :=
  match hash with
  | .Hash hashObj =>
    match hashKey host index with
    | none => do
      let t ← objectType index
      .ok (newError ("Invalid map key: " ++ host.typeName t))
    | some key =>
      match h.hashes hashObj key with
      | none => .ok NULL
      | some pair => .ok pair.value
  | _ => .error .typeAssertion

/-- The function `evalIndexExpression`. -/
def evalIndexExpression (host : Host) (left index : Object) (h : Heap) : Except Fault Object := do
  let lt ← objectType left
  if lt = .ARRAY_OBJ then do
    let it ← objectType index
    if it = .INTEGER_OBJ then evalArrayIndexExpression left index h
    else .ok (newError ("Index operator not allowed: " ++ host.typeName lt))
  else if lt = .HASH_OBJ then evalHashIndexExpression host left index h
  else .ok (newError ("Index operator not allowed: " ++ host.typeName lt))

/-- The function `unwrapReturnValue`. -/
def unwrapReturnValue : Object → Object
  | .ReturnValue _ value => value
  | obj => obj

/-- The function `objectIs`, for the five kinds a constant may have. -/
def objectIsScalar (o : Object) : Except Fault Bool := do
  let t ← objectType o
  .ok (t = .INTEGER_OBJ || t = .FLOAT_OBJ || t = .STRING_OBJ || t = .NULL_OBJ || t = .BOOLEAN_OBJ)

/-! ## The evaluator (`eval.go`)

`Eval` recurses into the syntax tree and, through `applyFunction`, into the bodies of
function values.  The functions below take the recursive `Eval` as the argument `ev`;
`Eval` itself ties the knot by recursion on its fuel. -/

/-- The type of `Eval` once the host and the fuel are fixed. -/
abbrev Evaluator := Node → Environment → Heap → Except Fault (Object × Heap)

/-- Modelled from the spec: the method `Set` that `eval.go` calls is not the method `Set`
of `environment.go`.  `eval.go` calls it to define a new name, calls it to bind the
parameters of a call in a fresh frame, drops its error with the remark that only the
error of a constant can occur, and calls `SetConst` beside it, which `environment.go`
does not have; the `Set` of `environment.go` never makes a binding.  Assignment walks
the chain and writes into the nearest binding; definition writes into the local frame
only: a name that a frame of the chain binds is written where `Environment.Set` writes
it, and a name that no frame of the chain binds gets a slot in the local frame. -/
def Environment.SetOrDefine (h : Heap) (e : Environment) (name : String) (val : Object) :
    Except EnvError Object × Heap :=
  match e.Set h name val with
  | (.error .errNotDefined, _) => (.ok val, h.setSlot e.frame name ⟨val, false⟩)
  | r => r

/-- Modelled from the spec: the method `SetConst` that `assignConstIdentValue` calls is
not among the methods of `environment.go`.  A constant definition writes a read-only slot
into the local frame, and a name is never redefined in the same frame. -/
def Environment.SetConst (h : Heap) (e : Environment) (name : String) (val : Object) :
    Except EnvError Object × Heap :=
  e.CreateConst h name val

/-- The loop of `evalProgram`; `result` is the value of the last statement. -/
def evalProgramLoop (ev : Evaluator) (env : Environment) :
    List Node → Object → Heap → Except Fault (Object × Heap)
  | [], result, h => .ok (result, h)
  | statement :: rest, _, h => do
    let (result, h) ← ev statement env h
    match result with
    | .ReturnValue _ value => .ok (value, h)
    | .Error _ => .ok (result, h)
    | _ => evalProgramLoop ev env rest result h

/-- The function `evalProgram`. -/
def evalProgram (ev : Evaluator) (statements : List Node) (env : Environment) (h : Heap) :
    Except Fault (Object × Heap) :=
  evalProgramLoop ev env statements Object.nil h

/-- The loop of `evalBlockStatements`. -/
def evalBlockLoop (ev : Evaluator) (env : Environment) :
    List Node → Object → Heap → Except Fault (Object × Heap)
  | [], result, h => .ok (result, h)
  | statement :: rest, _, h => do
    let (result, h) ← ev statement env h
    match result with
    | .nil => evalBlockLoop ev env rest result h
    | .ReturnValue _ _ => .ok (result, h)
    | .Error _ => .ok (result, h)
    | _ => evalBlockLoop ev env rest result h

/-- The function `evalBlockStatements`. -/
def evalBlockStatements (ev : Evaluator) (statements : List Node) (env : Environment) (h : Heap) :
    Except Fault (Object × Heap) :=
  evalBlockLoop ev env statements Object.nil h

/-- The loop of `evalExpressions`; `result` holds the values appended so far. -/
def evalExpressionsLoop (ev : Evaluator) (env : Environment) :
    List Node → List Object → Heap → Except Fault (List Object × Heap)
  | [], result, h => .ok (result, h)
  | e :: rest, result, h => do
    let (evaled, h) ← ev e env h
    if isError evaled then .ok ([evaled], h)
    else evalExpressionsLoop ev env rest (result ++ [evaled]) h

/-- The function `evalExpressions`. -/
def evalExpressions (ev : Evaluator) (exps : List Node) (env : Environment) (h : Heap) :
    Except Fault (List Object × Heap) :=
  evalExpressionsLoop ev env exps [] h

/-- The function `assignIdentValue`. -/
def assignIdentValue (host : Host) (ev : Evaluator) (name : String) (val : Node) (new : Bool)
    (env : Environment) (h : Heap) : Except Fault (Object × Heap) :=
  -- Protect builtin functions
  if host.isBuiltin name then
    .ok (newError ("Attempted redeclaration of builtin function '" ++ name ++ "'"), h)
  else if !new && !(env.Get h name).2 then
    .ok (newError ("Assignment to uninitialized variable " ++ name), h)
  else if env.IsConst h name then
    .ok (newError ("Assignment to declared constant " ++ name), h)
  else do
    let (evaled, h) ← ev val env h
    if isError evaled then .ok (evaled, h)
    else
      -- Ignore error since we check for constant above
      .ok (NULL, (env.SetOrDefine h name evaled).2)

/-- The function `assignConstIdentValue`. -/
def assignConstIdentValue (host : Host) (ev : Evaluator) (name : String) (val : Node)
    (env : Environment) (h : Heap) : Except Fault (Object × Heap) :=
  -- Protect builtin functions
  if host.isBuiltin name then
    .ok (newError ("Attempted redeclaration of builtin function '" ++ name ++ "'"), h)
  else if env.IsConst h name then
    .ok (newError ("Assignment to declared constant " ++ name), h)
  else do
    let (evaled, h) ← ev val env h
    if isError evaled then .ok (evaled, h)
    else do
      let scalar ← objectIsScalar evaled
      if !scalar then .ok (newError "Constants must be int, float, string, bool or null", h)
      else
        -- Ignore error since we check above
        .ok (NULL, (env.SetConst h name evaled).2)

/-- The function `assignArrayIndex`. -/
def assignArrayIndex (host : Host) (ev : Evaluator) (array : Nat) (index : Object) (val : Node)
    (env : Environment) (h : Heap) : Except Fault (Object × Heap) :=
  match index with
  | .Integer value_in => do
    let (value, h) ← ev val env h
    if isError value then .ok (value, h)
    else if value_in < 0 || value_in > ((h.arrays array).length : Int) - 1 then
      .ok (newError ("Index out of bounds: " ++ toString value_in), h)
    else
      .ok (NULL, { h with arrays := fun b => if b = array then (h.arrays array).set value_in.toNat value
                                             else h.arrays b })
  | .nil => .error .typeAssertion
  | _ => do
    let t ← objectType index
    .ok (newError ("Invalid array index type " ++ host.typeName t), h)

/-- The function `assignHashMapIndex`. -/
def assignHashMapIndex (host : Host) (ev : Evaluator) (hashmap : Nat) (index : Object) (val : Node)
    (env : Environment) (h : Heap) : Except Fault (Object × Heap) :=
  match hashKey host index with
  | none => do
    let t ← objectType index
    .ok (newError ("Invalid index type " ++ host.typeName t), h)
  | some key => do
    let (value, h) ← ev val env h
    if isError value then .ok (value, h)
    else
      .ok (NULL, { h with hashes := fun b => if b = hashmap
                                              then (fun k => if k = key then some ⟨index, value⟩
                                                             else h.hashes hashmap k)
                                              else h.hashes b })

/-- The function `assignIndexedValue`.  The value returned by `assignArrayIndex` and by
`assignHashMapIndex` is dropped; only their effect on the heap remains. -/
def assignIndexedValue (host : Host) (ev : Evaluator) (left index : Node) (val : Node)
    (env : Environment) (h : Heap) : Except Fault (Object × Heap) := do
  let (indexed, h) ← ev left env h
  if isError indexed then .ok (indexed, h)
  else do
    let (index, h) ← ev index env h
    if isError indexed then .ok (indexed, h)
    else do
      let t ← objectType indexed
      match t, indexed with
      | .ARRAY_OBJ, .Array array => do
        let (_, h) ← assignArrayIndex host ev array index val env h
        .ok (NULL, h)
      | .HASH_OBJ, .Hash hashmap => do
        let (_, h) ← assignHashMapIndex host ev hashmap index val env h
        .ok (NULL, h)
      | _, _ => .ok (NULL, h)

/-- The function `evalAssignment`. -/
def evalAssignment (host : Host) (ev : Evaluator) (left : Node) (value : Node)
    (env : Environment) (h : Heap) : Except Fault (Object × Heap) :=
  match left with
  | .IndexExpression l i => assignIndexedValue host ev l i value env h
  | .Identifier ident => assignIdentValue host ev ident value false env h
  | _ =>
    .ok (newError ("Invalid variable name, expected identifier, got " ++ host.nodeString left), h)

/-- The function `evalIfExpression`. -/
def evalIfExpression (ev : Evaluator) (cond : Node) (consequence : Node) (alternative : Option Node)
    (env : Environment) (h : Heap) : Except Fault (Object × Heap) := do
  let (condition, h) ← ev cond env h
  if isError condition then .ok (condition, h)
  else do
    let truthy ← isTruthy condition
    if truthy then ev consequence env h
    else match alternative with
      | some alt => ev alt env h
      | none => .ok (NULL, h)

/-- The function `evalIdent`. -/
def evalIdent (host : Host) (name : String) (env : Environment) (h : Heap) : Object :=
  if (env.Get h name).2 then (env.Get h name).1
  else if host.isBuiltin name then Object.Builtin name
  else newError ("identifier not found: " ++ name)

/-- The loop of `evalHashLiteral`, over the pairs in iteration order. -/
def evalHashLiteralLoop (host : Host) (ev : Evaluator) (env : Environment) :
    List (Node × Node) → (HashKey → Option HashPair) → Heap → Except Fault (Object × Heap)
  | [], pairs, h => .ok (h.newHash pairs)
  | (keyNode, valueNode) :: rest, pairs, h => do
    let (key, h) ← ev keyNode env h
    if isError key then .ok (key, h)
    else match hashKey host key with
      | none => do
        let t ← objectType key
        .ok (newError ("Invalid map key: " ++ host.typeName t), h)
      | some hashed => do
        let (value, h) ← ev valueNode env h
        if isError value then .ok (value, h)
        else
          let pairs := fun k => if k = hashed then some (HashPair.mk key value) else pairs k
          evalHashLiteralLoop host ev env rest pairs h

/-- The function `evalHashLiteral`. -/
def evalHashLiteral (host : Host) (ev : Evaluator) (pairs : List (Node × Node))
    (env : Environment) (h : Heap) : Except Fault (Object × Heap) :=
  evalHashLiteralLoop host ev env pairs (fun _ => none) h

/-- The loop of `extendFunctionEnv`: parameter `i` is set to `args[i]`. -/
def extendFunctionEnvLoop (env : Environment) :
    List String → Nat → List Object → Heap → Except Fault Heap
  | [], _, _, h => .ok h
  | param :: rest, i, args, h =>
    match args[i]? with
    | none => .error .indexOutOfRange
    | some arg => extendFunctionEnvLoop env rest (i + 1) args (env.SetOrDefine h param arg).2

/-- The function `extendFunctionEnv`. -/
def extendFunctionEnv (parameters : List String) (fnEnv : Environment) (args : List Object)
    (h : Heap) : Except Fault (Environment × Heap) := do
  let (env, h) := NewEnclosedEnv h fnEnv
  let h ← extendFunctionEnvLoop env parameters 0 args h
  .ok (env, h)

/-- The function `applyFunction`. -/
def applyFunction (host : Host) (ev : Evaluator) (fn : Object) (args : List Object) (h : Heap) :
    Except Fault (Object × Heap) :=
  match fn with
  | .Function _ parameters body fnEnv => do
    let (extendedEnv, h) ← extendFunctionEnv parameters fnEnv args h
    let (evaled, h) ← ev body extendedEnv h
    .ok (unwrapReturnValue evaled, h)
  | .Builtin name => host.callBuiltin name args h
  | _ => do
    let t ← objectType fn
    .ok (newError (host.typeName t ++ " is not a function"), h)

/-- The body of `Eval`, with `ev` for its recursive calls. -/
def evalNode (host : Host) (ev : Evaluator) (node : Node) (env : Environment) (h : Heap) :
    Except Fault (Object × Heap) :=
  match node with
  -- Statements
  | .Program statements => evalProgram ev statements env h
  | .ExpressionStatement expression => ev expression env h
  | .BlockStatement statements => evalBlockStatements ev statements env h
  | .ReturnStatement value => do
    let (val, h) ← ev value env h
    if isError val then .ok (val, h)
    else
      let (id, h) := h.fresh
      .ok (.ReturnValue id val, h)
  | .DefStatement name value const =>
    if const then assignConstIdentValue host ev name value env h
    else assignIdentValue host ev name value true env h
  | .AssignStatement left value => evalAssignment host ev left value env h
  -- Expressions
  | .NullLiteral => .ok (NULL, h)
  | .IntegerLiteral value => .ok (.Integer value, h)
  | .StringLiteral value => .ok (.Str value, h)
  | .FloatLiteral bits => .ok (.Float bits, h)
  | .Array elements => do
    let (elements, h) ← evalExpressions ev elements env h
    match elements with
    | [e] => if isError e then .ok (e, h) else .ok (h.newArray elements)
    | _ => .ok (h.newArray elements)
  | .Boolean value => .ok (nativeBoolToBooleanObj value, h)
  | .HashLiteral pairs => evalHashLiteral host ev pairs env h
  | .Identifier value => .ok (evalIdent host value env h, h)
  | .PrefixExpression operator right => do
    let (right, h) ← ev right env h
    if isError right then .ok (right, h)
    else do
      let r ← evalPrefixExpression host operator right
      .ok (r, h)
  | .InfixExpression left operator right => do
    let (right, h) ← ev right env h
    if isError right then .ok (right, h)
    else do
      let (left, h) ← ev left env h
      if isError left then .ok (left, h)
      else evalInfixExpression host operator left right h
  | .IfExpression condition consequence alternative =>
    evalIfExpression ev condition consequence alternative env h
  | .FunctionLiteral parameters body =>
    let (id, h) := h.fresh
    .ok (.Function id parameters body env, h)
  | .CallExpression function arguments => do
    let (function, h) ← ev function env h
    if isError function then .ok (function, h)
    else do
      let (args, h) ← evalExpressions ev arguments env h
      match args with
      | [a] => if isError a then .ok (a, h) else applyFunction host ev function args h
      | _ => applyFunction host ev function args h
  | .IndexExpression left index => do
    let (left, h) ← ev left env h
    if isError left then .ok (left, h)
    else do
      let (index, h) ← ev index env h
      if isError index then .ok (index, h)
      else do
        let r ← evalIndexExpression host left index h
        .ok (r, h)
  | _ => .ok (Object.nil, h)

/-- The function `Eval`.  Each level of recursion uses one unit of fuel. -/
def Eval (host : Host) : Nat → Evaluator
  | 0 => fun _ _ _ => .error .outOfFuel
  | fuel + 1 => evalNode host (Eval host fuel)

/-! ## Reference notions used to state the properties -/

/-- The chain of environments reached from `e` by following parent links, `e` first. -/
def Environment.ancestors : Environment → List Environment
  | .root a => [.root a]
  | .enclosed a p => .enclosed a p :: p.ancestors

/-- The addresses of the frames on the chain of `e`, innermost first. -/
def Environment.frames (e : Environment) : List Nat :=
  e.ancestors.map Environment.frame

/-- The innermost environment on the chain of `e` whose own frame binds `name`. -/
def Environment.nearest (h : Heap) (e : Environment) (name : String) : Option Environment :=
  e.ancestors.find? (fun g => (h.stores g.frame name).isSome)

/-- The slot of the innermost binding of `name` on the chain of `e`. -/
def Environment.nearestSlot (h : Heap) (e : Environment) (name : String) : Option eco :=
  (e.nearest h name).bind (fun g => h.stores g.frame name)

/-- The values that count as true: the boolean true, a non-zero integer, a float that is
neither `+0.0` nor `-0.0`, and a non-empty string. -/
def truthyValue : Object → Bool
  | .Boolean value => value
  | .Integer value => decide (value ≠ 0)
  | .Float bits => !floatIsZero bits
  | .Str value => decide (value ≠ "")
  | _ => false

/-- A call of one of the four methods that define or assign a binding. -/
inductive EnvCall where
  | Create (e : Environment) (name : String) (val : Object)
  | CreateConst (e : Environment) (name : String) (val : Object)
  | Set (e : Environment) (name : String) (val : Object)
  | SetLocal (e : Environment) (name : String) (val : Object)

/-- Perform one call. -/
def EnvCall.run (h : Heap) : EnvCall → Except EnvError Object × Heap
  | .Create e name val => e.Create h name val
  | .CreateConst e name val => e.CreateConst h name val
  | .Set e name val => e.Set h name val
  | .SetLocal e name val => e.SetLocal h name val

/-- Perform a sequence of calls, in order, and return the final heap. -/
def runCalls (h : Heap) : List EnvCall → Heap
  | [] => h
  | c :: cs => runCalls (c.run h).2 cs

/-- The value component of an evaluation result. -/
def valueOf (r : Except Fault (Object × Heap)) : Except Fault Object :=
  r.map Prod.fst

/-! ## A concrete host and heap for closed instances -/

/-- A heap without any frame, array or hash. -/
def emptyHeap : Heap := ⟨fun _ _ => none, fun _ => [], fun _ _ => none, 0⟩

/-- A host with the builtins `len` and `push` and the usual kind names. -/
def testHost : Host where
  isBuiltin := fun name => name = "len" || name = "push"
  callBuiltin := fun _ _ h => .ok (NULL, h)
  typeName := fun t => match t with
    | .INTEGER_OBJ => "INTEGER"
    | .FLOAT_OBJ => "FLOAT"
    | .STRING_OBJ => "STRING"
    | .BOOLEAN_OBJ => "BOOLEAN"
    | .NULL_OBJ => "NULL"
    | .ARRAY_OBJ => "ARRAY"
    | .HASH_OBJ => "HASH"
    | .FUNCTION_OBJ => "FUNCTION"
    | .BUILTIN_OBJ => "BUILTIN"
    | .RETURN_OBJ => "RETURN"
    | .ERROR_OBJ => "ERROR"
  nodeString := fun _ => ""
  hashString := fun s => s.length
  floatAdd := fun a _ => a
  floatSub := fun a _ => a
  floatMul := fun a _ => a
  floatDiv := fun a _ => a
  floatLt := fun _ _ => false
  floatGt := fun _ _ => false

/-- The heap after `NewEnvironment` on the empty heap: one empty root frame at address 0. -/
def rootHeap : Heap := (NewEnvironment emptyHeap).2

/-- The root environment allocated on the empty heap. -/
def rootEnv : Environment := (NewEnvironment emptyHeap).1

/-- The heap in which the root frame binds `x` to 1 (not constant) and an empty frame is
enclosed in it. -/
def scopeHeap : Heap :=
  (NewEnclosedEnv (rootEnv.Create rootHeap "x" (Object.Integer 1)).2 rootEnv).2

/-- The environment enclosed in the root environment in `scopeHeap`. -/
def innerEnv : Environment :=
  (NewEnclosedEnv (rootEnv.Create rootHeap "x" (Object.Integer 1)).2 rootEnv).1

/-- The heap in which the root frame binds the constant `PI` to 3. -/
def constHeap : Heap := (rootEnv.CreateConst rootHeap "PI" (Object.Integer 3)).2

/-- The heap with the root frame and the array `[1, 2, 3]` at address 1. -/
def arrayHeap : Heap :=
  (rootHeap.newArray [Object.Integer 1, Object.Integer 2, Object.Integer 3]).2

/-! ## The lexer (`lexer.go`)

The reader of the lexer is embedded as the list of runes it has not yet delivered.  The
rune 0 stands in `curCh` and `peekCh` for the end of the input, as in the source.  Every
loop of the source takes a fuel argument that bounds its number of iterations. -/

/-- The token kinds named in `lexer.go` and in its test; `other` covers the kinds of the
remaining keywords and the empty kind of the zero token. -/
inductive TokenType where
  | ILLEGAL
  | EOF
  | COMMENT
  | IDENT
  | INT
  | FLOAT
  | STRING
  | NULL
  | ASSIGN
  | PLUS
  | MINUS
  | BANG
  | ASTERISK
  | SLASH
  | MODULUS
  | LT
  | GT
  | EQ
  | NOT_EQ
  | COMMA
  | SEMICOLON
  | COLON
  | LPAREN
  | RPAREN
  | LBRACE
  | RBRACE
  | LSQUARE
  | RSQUARE
  | FUNCTION
  | DEF
  | TRUE
  | FALSE
  | IF
  | ELSE
  | RETURN
  | other (name : String)
deriving DecidableEq, Repr

/-- A token: its kind and its literal. -/
structure Token where
  type : TokenType
  Literal : String
deriving DecidableEq, Repr

/-- The parts of the lexer that lie outside `lexer.go`: the keyword table of the token
package and the letters of `unicode.IsLetter` beyond ASCII. -/
structure LexHost where
  /-- The function `token.LookupIdent`. -/
  LookupIdent : String → TokenType
  /-- The function `unicode.IsLetter` on the runes from 128 on. -/
  isLetterNonASCII : Char → Bool

/-- The rune 0. -/
def NUL : Char := Char.ofNat 0

/-- The state of a `Lexer`. -/
structure Lexer where
  /-- The runes that the reader has not yet delivered. -/
  input : List Char
  /-- The current char under examination. -/
  curCh : Char
  /-- The peek character. -/
  peekCh : Char
  lastToken : Token

/-- The method `readRune`. -/
def Lexer.readRune (l : Lexer) : Lexer :=
  match l.input with
  | [] => { l with curCh := l.peekCh, peekCh := NUL }
  | c :: rest => { l with curCh := l.peekCh, peekCh := c, input := rest }

/-- The function `New` (and `NewString`), on the runes of the input. -/
def NewString (input : List Char) : Lexer :=
  -- Populate both current and peek char
  (Lexer.readRune (Lexer.readRune ⟨input, NUL, NUL, ⟨TokenType.other "", ""⟩⟩))

/-- The method `peekChar`. -/
def Lexer.peekChar (l : Lexer) : Char := l.peekCh

/-- The function `newToken`. -/
def newToken (tokenType : TokenType) (ch : Char) : Token := ⟨tokenType, String.singleton ch⟩

/-- The function `unicode.IsLetter`: on ASCII the letters are `a` to `z` and `A` to `Z`. -/
def unicodeIsLetter (host : LexHost) (ch : Char) : Bool :=
  if ch.toNat < 128 then ch.isAlpha else host.isLetterNonASCII ch

/-- The function `isLetter`. -/
def isLetter (host : LexHost) (ch : Char) : Bool :=
  ('a' ≤ ch && ch ≤ 'z') || ('A' ≤ ch && ch ≤ 'Z') || ch = '_' || unicodeIsLetter host ch

/-- The function `isDigit`. -/
def isDigit (ch : Char) : Bool :=
  ('0' ≤ ch && ch ≤ '9') || ch = '.'

/-- The function `isIdent`. -/
def isIdent (host : LexHost) (ch : Char) : Bool :=
  isLetter host ch || (ch ≠ '.' && isDigit ch)

/-- The function `isHexDigit`. -/
def isHexDigit (ch : Char) : Bool :=
  ('a' ≤ ch && ch ≤ 'f') || ('A' ≤ ch && ch ≤ 'F')

/-- The function `isWhitespace`. -/
def isWhitespace (ch : Char) : Bool :=
  ch = ' ' || ch = '\t' || ch = '\n' || ch = '\r'

/-- The method `lastTokenWas`. -/
def Lexer.lastTokenWas (l : Lexer) : List TokenType → Bool
  | [] => false
  | t :: types => if l.lastToken.type = t then true else l.lastTokenWas types

/-- The method `needSemicolon`. -/
def Lexer.needSemicolon (l : Lexer) : Bool :=
  l.lastTokenWas [.IDENT, .INT, .FLOAT, .STRING, .NULL, .RETURN, .RPAREN, .RSQUARE, .RBRACE]

/-- The method `devourWhitespace`. -/
def Lexer.devourWhitespace : Nat → Lexer → Except Fault Lexer
  | 0, _ => .error .outOfFuel
  | fuel + 1, l =>
    if isWhitespace l.curCh then Lexer.devourWhitespace fuel l.readRune
    else .ok l

/-- The method `devourWhitespaceNotNewLine`. -/
def Lexer.devourWhitespaceNotNewLine : Nat → Lexer → Except Fault Lexer
  | 0, _ => .error .outOfFuel
  | fuel + 1, l =>
    if l.curCh ≠ '\n' && isWhitespace l.curCh then Lexer.devourWhitespaceNotNewLine fuel l.readRune
    else .ok l

/-- The loop of `readIdentifier`; `ident` is the buffer. -/
def Lexer.readIdentifierLoop (host : LexHost) : Nat → Lexer → List Char → Except Fault (List Char × Lexer)
  | 0, _, _ => .error .outOfFuel
  | fuel + 1, l, ident =>
    if isIdent host l.curCh || isDigit l.curCh then
      Lexer.readIdentifierLoop host fuel l.readRune (ident ++ [l.curCh])
    else .ok (ident, l)

/-- The method `readIdentifier`. -/
def Lexer.readIdentifier (host : LexHost) (fuel : Nat) (l : Lexer) : Except Fault (String × Lexer) := do
  let (ident, l) ← l.readIdentifierLoop host fuel []
  .ok (String.mk ident, l)

/-- The runes written for the escape `\x` in a double-quoted string. -/
def escapeRunes (x : Char) : List Char :=
  if x = 'b' then [Char.ofNat 8]            -- backspace
  else if x = 'n' then ['\n']               -- newline
  else if x = 'r' then ['\r']               -- carriage return
  else if x = 't' then ['\t']               -- horizontal tab
  else if x = 'v' then [Char.ofNat 11]      -- vertical tab
  else if x = 'f' then [Char.ofNat 12]      -- form feed
  else if x = '\\' then ['\\']              -- back slash
  else if x = '"' then ['"']                -- double quote
  else ['\\', x]

/-- The loop of `readString`; `ident` is the buffer. -/
def Lexer.readStringLoop : Nat → Lexer → List Char → Except Fault (Token × Lexer)
  | 0, _, _ => .error .outOfFuel
  | fuel + 1, l, ident =>
    if l.curCh = '"' then .ok (⟨.STRING, String.mk ident⟩, l)
    else if l.curCh = '\n' then .ok (⟨.ILLEGAL, "Newline not allowed in string"⟩, l)
    else if l.curCh = '\\' then
      Lexer.readStringLoop fuel l.readRune.readRune (ident ++ escapeRunes l.readRune.curCh)
    else Lexer.readStringLoop fuel l.readRune (ident ++ [l.curCh])

/-- The method `readString`. -/
def Lexer.readString (fuel : Nat) (l : Lexer) : Except Fault (Token × Lexer) :=
  -- Go past the starting double quote
  Lexer.readStringLoop fuel l.readRune []

/-- The loop of `readRawString`; `ident` is the buffer. -/
def Lexer.readRawStringLoop : Nat → Lexer → List Char → Except Fault (Token × Lexer)
  | 0, _, _ => .error .outOfFuel
  | fuel + 1, l, ident =>
    if l.curCh = '\'' then .ok (⟨.STRING, String.mk ident⟩, l)
    else if l.curCh = '\\' && l.peekCh = '\'' then
      -- Go past backslash so the next line will write a single quote
      Lexer.readRawStringLoop fuel l.readRune.readRune (ident ++ [l.readRune.curCh])
    else Lexer.readRawStringLoop fuel l.readRune (ident ++ [l.curCh])

/-- The method `readRawString`. -/
def Lexer.readRawString (fuel : Nat) (l : Lexer) : Except Fault (Token × Lexer) :=
  Lexer.readRawStringLoop fuel l.readRune []

/-- The loop of `readNumber`; `number` is the buffer. -/
def Lexer.readNumberLoop (base : String) :
    Nat → Lexer → TokenType → List Char → Except Fault (Token × Lexer)
  | 0, _, _, _ => .error .outOfFuel
  | fuel + 1, l, tokenType, number =>
    if isDigit l.curCh || isHexDigit l.curCh then
      if l.curCh = '.' then
        if tokenType ≠ .INT then .ok (⟨.ILLEGAL, "Invalid float literal"⟩, l)
        else Lexer.readNumberLoop base fuel l.readRune .FLOAT (number ++ [l.curCh])
      else Lexer.readNumberLoop base fuel l.readRune tokenType (number ++ [l.curCh])
    else .ok (⟨tokenType, base ++ String.mk number⟩, l)

/-- The part of `readNumber` after the base prefix has been read. -/
def Lexer.readNumberBody (base : String) (fuel : Nat) (l : Lexer) : Except Fault (Token × Lexer) :=
  if l.curCh = '.' then .ok (⟨.ILLEGAL, "Invalid float literal"⟩, l.readRune)
  else Lexer.readNumberLoop base fuel l .INT []

/-- The method `readNumber`. -/
def Lexer.readNumber (fuel : Nat) (l : Lexer) : Except Fault (Token × Lexer) :=
  if l.curCh = 'x' then Lexer.readNumberBody "0x" fuel l.readRune
  else Lexer.readNumberBody "" fuel l

/-- The function `unicode.IsSpace`, which `strings.TrimSpace` uses. -/
def unicodeIsSpace (ch : Char) : Bool :=
  ch = '\t' || ch = '\n' || ch = Char.ofNat 11 || ch = Char.ofNat 12 || ch = '\r' || ch = ' ' ||
  ch = Char.ofNat 0x85 || ch = Char.ofNat 0xA0 || ch = Char.ofNat 0x1680 ||
  (0x2000 ≤ ch.toNat && ch.toNat ≤ 0x200A) || ch = Char.ofNat 0x2028 || ch = Char.ofNat 0x2029 ||
  ch = Char.ofNat 0x202F || ch = Char.ofNat 0x205F || ch = Char.ofNat 0x3000

/-- The function `strings.TrimSpace`, on the runes of a string. -/
def TrimSpace (s : List Char) : List Char :=
  ((s.dropWhile unicodeIsSpace).reverse.dropWhile unicodeIsSpace).reverse

/-- The loop of `readSingleLineComment`; `com` is the buffer. -/
def Lexer.readSingleLineCommentLoop : Nat → Lexer → List Char → Except Fault (Token × Lexer)
  | 0, _, _ => .error .outOfFuel
  | fuel + 1, l, com =>
    if l.curCh ≠ '\n' then Lexer.readSingleLineCommentLoop fuel l.readRune (com ++ [l.curCh])
    else .ok (⟨.COMMENT, String.mk (TrimSpace com)⟩, l)

/-- The method `readSingleLineComment`. -/
def Lexer.readSingleLineComment (fuel : Nat) (l : Lexer) : Except Fault (Token × Lexer) :=
  -- Go over # or / characters
  Lexer.readSingleLineCommentLoop fuel l.readRune []

/-- The loop of `readMultiLineComment`; `com` is the buffer. -/
def Lexer.readMultiLineCommentLoop : Nat → Lexer → List Char → Except Fault (Token × Lexer)
  | 0, _, _ => .error .outOfFuel
  | fuel + 1, l, com =>
    if l.curCh ≠ NUL then
      if l.curCh = '*' && l.peekChar = '/' then
        -- Skip *
        .ok (⟨.COMMENT, String.mk com⟩, l.readRune)
      else Lexer.readMultiLineCommentLoop fuel l.readRune (com ++ [l.curCh])
    else .ok (⟨.COMMENT, String.mk com⟩, l)

/-- The method `readMultiLineComment`. -/
def Lexer.readMultiLineComment (fuel : Nat) (l : Lexer) : Except Fault (Token × Lexer) :=
  -- Go over * character
  Lexer.readMultiLineCommentLoop fuel l.readRune []

/-- The end of `NextToken`: read the next rune, record the token and return it. -/
def Lexer.finish (l : Lexer) (tok : Token) : Token × Lexer :=
  (tok, { l.readRune with lastToken := tok })

/-- The default case of the switch of `NextToken`. -/
def Lexer.nextTokenDefault (host : LexHost) (fuel : Nat) (l : Lexer) : Except Fault (Token × Lexer) :=
  if isLetter host l.curCh then do
    let (literal, l) ← l.readIdentifier host fuel
    let tok : Token := ⟨host.LookupIdent literal, literal⟩
    .ok (tok, { l with lastToken := tok })
  else if isDigit l.curCh then do
    let (tok, l) ← l.readNumber fuel
    .ok (tok, { l with lastToken := tok })
  else .ok (l.finish (newToken .ILLEGAL l.curCh))

/-- The switch of `NextToken` on the current rune, entered after the leading blanks have
been skipped.  The argument `next` is the recursive call `l.NextToken()` of the newline
case; `fuel` bounds each loop. -/
def Lexer.nextTokenSwitch (host : LexHost) (next : Lexer → Except Fault (Token × Lexer))
    (fuel : Nat) (l : Lexer) : Except Fault (Token × Lexer) :=
    if l.curCh = '\n' then
      if l.needSemicolon then .ok (l.finish (newToken .SEMICOLON ';'))
      else do
        let l ← l.devourWhitespace fuel
        next l
    -- Operators
    else if l.curCh = '+' then .ok (l.finish (newToken .PLUS l.curCh))
    else if l.curCh = '-' then .ok (l.finish (newToken .MINUS l.curCh))
    else if l.curCh = '*' then .ok (l.finish (newToken .ASTERISK l.curCh))
    else if l.curCh = '%' then .ok (l.finish (newToken .MODULUS l.curCh))
    else if l.curCh = '/' then
      if l.peekChar = '/' then do
        let (tok, l) ← l.readRune.readSingleLineComment fuel
        .ok (l.finish tok)
      else if l.peekChar = '*' then do
        let (tok, l) ← l.readRune.readMultiLineComment fuel
        .ok (l.finish tok)
      else .ok (l.finish (newToken .SLASH l.curCh))
    else if l.curCh = '!' then
      if l.peekChar = '=' then .ok (l.readRune.finish ⟨.NOT_EQ, "!="⟩)
      else .ok (l.finish (newToken .BANG l.curCh))
    -- Equality
    else if l.curCh = '=' then
      if l.peekChar = '=' then .ok (l.readRune.finish ⟨.EQ, "=="⟩)
      else .ok (l.finish (newToken .ASSIGN l.curCh))
    else if l.curCh = '<' then .ok (l.finish (newToken .LT l.curCh))
    else if l.curCh = '>' then .ok (l.finish (newToken .GT l.curCh))
    -- Control characters
    else if l.curCh = ',' then .ok (l.finish (newToken .COMMA l.curCh))
    else if l.curCh = ';' then .ok (l.finish (newToken .SEMICOLON l.curCh))
    else if l.curCh = ':' then .ok (l.finish (newToken .COLON l.curCh))
    -- Groupings
    else if l.curCh = '(' then .ok (l.finish (newToken .LPAREN l.curCh))
    else if l.curCh = ')' then .ok (l.finish (newToken .RPAREN l.curCh))
    else if l.curCh = '{' then .ok (l.finish (newToken .LBRACE l.curCh))
    else if l.curCh = '}' then .ok (l.finish (newToken .RBRACE l.curCh))
    else if l.curCh = '[' then .ok (l.finish (newToken .LSQUARE l.curCh))
    else if l.curCh = ']' then .ok (l.finish (newToken .RSQUARE l.curCh))
    else if l.curCh = '"' then do
      let (tok, l) ← l.readString fuel
      .ok (l.finish tok)
    else if l.curCh = '\'' then do
      let (tok, l) ← l.readRawString fuel
      .ok (l.finish tok)
    else if l.curCh = '#' then do
      let (tok, l) ← l.readSingleLineComment fuel
      .ok (l.finish tok)
    else if l.curCh = '\\' then
      if l.peekCh = 'x' then do
        let (tok, l) ← l.readRune.readNumber fuel
        .ok (l.finish tok)
      else .ok (l.finish (newToken .ILLEGAL l.curCh))
    else if l.curCh = NUL then
      if l.needSemicolon then .ok (l.finish (newToken .SEMICOLON ';'))
      else .ok (l.finish ⟨.EOF, ""⟩)
    else l.nextTokenDefault host fuel

/-- The method `NextToken`.  The fuel bounds the recursion through skipped newlines and,
increased by one, each loop. -/
def Lexer.NextToken (host : LexHost) : Nat → Lexer → Except Fault (Token × Lexer)
  | 0, _ => .error .outOfFuel
  | fuel + 1, l0 => do
    let l ← l0.devourWhitespaceNotNewLine (fuel + 1)
    l.nextTokenSwitch host (Lexer.NextToken host fuel) (fuel + 1)

/-! ## Reference notions for the lexer -/

/-- The lexer whose unread runes, starting with the current one, are `s`, and whose last
token is `t`. -/
def Lexer.ofStream (s : List Char) (t : Token) : Lexer :=
  ⟨s.drop 2, s.headD NUL, (s.drop 1).headD NUL, t⟩

/-- The token kinds after which a newline or the end of input becomes a semicolon. -/
def endsExpression : TokenType → Bool
  | .IDENT => true
  | .INT => true
  | .FLOAT => true
  | .STRING => true
  | .NULL => true
  | .RETURN => true
  | .RPAREN => true
  | .RSQUARE => true
  | .RBRACE => true
  | _ => false

/-- Whitespace other than the newline: space, tab and carriage return. -/
def isBlank (c : Char) : Bool := c = ' ' || c = '\t' || c = '\r'

/-- The semicolon token. -/
def semicolonToken : Token := ⟨TokenType.SEMICOLON, ";"⟩

/-- The end-of-file token. -/
def eofToken : Token := ⟨TokenType.EOF, ""⟩

/-- A keyword table and letter classification for closed instances. -/
def testLexHost : LexHost where
  LookupIdent := fun s =>
    if s = "def" then .DEF else if s = "func" then .FUNCTION else if s = "true" then .TRUE
    else if s = "false" then .FALSE else if s = "if" then .IF else if s = "else" then .ELSE
    else if s = "return" then .RETURN else if s = "null" then .NULL else .IDENT
  isLetterNonASCII := fun _ => false

/-- The runes that the escape made of a backslash and `x` denotes: the eight escapes
denote one rune each, any other pair is kept as backslash and `x`. -/
def denotedRunes (x : Char) : List Char :=
  match x with
  | 'b' => [Char.ofNat 8]
  | 'n' => [Char.ofNat 10]
  | 'r' => [Char.ofNat 13]
  | 't' => [Char.ofNat 9]
  | 'v' => [Char.ofNat 11]
  | 'f' => [Char.ofNat 12]
  | '\\' => [Char.ofNat 92]
  | '"' => [Char.ofNat 34]
  | _ => [Char.ofNat 92, x]

/-- The runes denoted by the body of a double-quoted literal: a backslash and the rune
after it stand for the runes of the escape, every other rune for itself. -/
def unescapeString : List Char → List Char
  | [] => []
  | [c] => [c]
  | c :: x :: rest =>
    if c = '\\' then denotedRunes x ++ unescapeString rest
    else c :: unescapeString (x :: rest)

/-- The bodies of terminated double-quoted literals without newline: no newline, no
quote outside an escape, and no backslash left alone before the closing quote. -/
def isStringBody : List Char → Bool
  | [] => true
  | [c] => c ≠ '\\' && c ≠ '"' && c ≠ '\n'
  | c :: x :: rest =>
    if c = '\\' then x ≠ '\n' && isStringBody rest
    else c ≠ '"' && c ≠ '\n' && isStringBody (x :: rest)

/-- The runes denoted by the body of a single-quoted literal: a backslash followed by a
single quote stands for one single quote, every other rune for itself. -/
def unescapeRawString : List Char → List Char
  | [] => []
  | [c] => [c]
  | c :: x :: rest =>
    if c = '\\' ∧ x = '\'' then '\'' :: unescapeRawString rest
    else c :: unescapeRawString (x :: rest)

/-- The bodies of terminated single-quoted literals: no single quote outside the escape,
and no backslash directly before the closing quote. -/
def isRawStringBody : List Char → Bool
  | [] => true
  | [c] => c ≠ '\\' && c ≠ '\''
  | c :: x :: rest =>
    if c = '\\' ∧ x = '\'' then isRawStringBody rest
    else c ≠ '\'' && isRawStringBody (x :: rest)

/-- The decimal digits `0` to `9`. -/
def isDecimalDigit (c : Char) : Bool := '0' ≤ c && c ≤ '9'

/-- The hexadecimal digits: `0` to `9`, `a` to `f` and `A` to `F`. -/
def isHexadecimalDigit (c : Char) : Bool :=
  ('0' ≤ c && c ≤ '9') || ('a' ≤ c && c ≤ 'f') || ('A' ≤ c && c ≤ 'F')

/-- The rune at the head of a stream does not continue a number: it is no digit, no dot
and no hexadecimal letter (the end of the input included). -/
def endsNumber (rest : List Char) : Bool :=
  !(isDigit (rest.headD NUL) || isHexDigit (rest.headD NUL))

/-- The runes that have a case of their own in the switch of `NextToken`. -/
def switchRunes : List Char :=
  ['\n', '+', '-', '*', '%', '/', '!', '=', '<', '>', ',', ';', ':', '(', ')', '{', '}', '[', ']',
   '"', '\'', '#', '\\', NUL]

/-- The number of runes a lexer still holds: those of its reader, and the peek and the
current rune unless they are the rune 0.  No method of the lexer increases it. -/
def Lexer.pending (l : Lexer) : Nat :=
  l.input.length + (if l.peekCh = NUL then 0 else 1) + (if l.curCh = NUL then 0 else 1)

/-- The tokens returned by `k` successive calls of `NextToken`, and the lexer after them. -/
def Lexer.run (host : LexHost) (fuel : Nat) : Nat → Lexer → Except Fault (List Token × Lexer)
  | 0, l => .ok ([], l)
  | k + 1, l => do
    let (tok, l) ← l.NextToken host fuel
    let (toks, l) ← Lexer.run host fuel k l
    .ok (tok :: toks, l)

/-- The sequence of tokens that successive calls of `NextToken` return, up to and with
the first EOF token; `n` bounds the number of calls. -/
def Lexer.lexAll (host : LexHost) (fuel : Nat) : Nat → Lexer → Except Fault (List Token)
  | 0, _ => .error .outOfFuel
  | n + 1, l => do
    let (tok, l) ← l.NextToken host fuel
    if tok.type = TokenType.EOF then .ok [tok]
    else do
      let toks ← Lexer.lexAll host fuel n l
      .ok (tok :: toks)

/-! ## The compiler (`compile.go`)

The code buffer of a `codeBlockCompiler` is the list of the bytes written so far.  The
opcode package, the two tables of the compiler and the helper `uint16ToBytes` lie outside
the sources at hand and are taken from a host.  The recursion of `compile` takes fuel, as
that of `Eval` does. -/

/-- The byte values of the opcodes that `compile.go` names. -/
structure Opcodes where
  LoadConst : Nat
  Return : Nat
  MakeArray : Nat
  MakeMap : Nat
  LoadFast : Nat
  LoadGlobal : Nat
  UnaryNot : Nat
  UnaryNeg : Nat
  BinaryAdd : Nat
  BinarySub : Nat
  BinaryMul : Nat
  BinaryDivide : Nat
  BinaryMod : Nat
  BinaryShiftL : Nat
  BinaryShiftR : Nat
  BinaryAnd : Nat
  BinaryAndNot : Nat
  BinaryOr : Nat
  BinaryNot : Nat
  Compare : Nat
  CmpLT : Nat
  CmpGT : Nat
  CmpEq : Nat
  CmpNotEq : Nat
  CmpLTEq : Nat
  CmpGTEq : Nat
  Call : Nat
  StoreFast : Nat
  PopJumpIfFalse : Nat
  Pop : Nat
  JumpForward : Nat
  JumpIfFalseOrPop : Nat
  JumpIfTrueOrPop : Nat

/-- The parts of the compiler that lie outside `compile.go`. -/
structure CompHost where
  opcode : Opcodes
  /-- The table made by `newConstantTable`. -/
  newConstantTable : List Object
  /-- The table made by `newStringTable`. -/
  newStringTable : List String
  /-- The helper `uint16ToBytes`: the two bytes of a 16-bit value, in its order. -/
  uint16ToBytes : Nat → Nat × Nat
  /-- The method `indexOf` of the constant table: the index, and the table afterwards. -/
  constantIndexOf : List Object → Object → Nat × List Object
  /-- The method `contains` of a string table. -/
  stringContains : List String → String → Bool
  /-- The method `indexOf` of a string table: the index, and the table afterwards. -/
  stringIndexOf : List String → String → Nat × List String

/-- The struct `codeBlockCompiler`: the tables, the code buffer and the offset. -/
structure codeBlockCompiler where
  constants : List Object
  locals : List String
  names : List String
  code : List Nat
  offset : Int

/-- The type of `compile` once the host and the fuel are fixed. -/
abbrev Compiler := Node → codeBlockCompiler → Except Fault codeBlockCompiler

/-- The Go conversion `uint16(x)` of an `int`. -/
def toUint16 (x : Int) : Nat := (x % 65536).toNat

/-- The call `ccb.code.WriteByte(b)`. -/
def codeBlockCompiler.WriteByte (ccb : codeBlockCompiler) (b : Nat) : codeBlockCompiler :=
  { ccb with code := ccb.code ++ [b] }

/-- The call `ccb.code.Write(p)`. -/
def codeBlockCompiler.Write (ccb : codeBlockCompiler) (p : List Nat) : codeBlockCompiler :=
  { ccb with code := ccb.code ++ p }

/-- The slice returned by `uint16ToBytes`. -/
def CompHost.bytes (host : CompHost) (x : Nat) : List Nat :=
  [(host.uint16ToBytes x).1, (host.uint16ToBytes x).2]

/-- The two statements that load a constant: the opcode `LoadConst`, then the index of
the constant in the constant table. -/
def writeLoadConst (host : CompHost) (ccb : codeBlockCompiler) (o : Object) : codeBlockCompiler :=
  let ccb := ccb.WriteByte host.opcode.LoadConst
  let r := host.constantIndexOf ccb.constants o
  { ccb with constants := r.2 }.Write (host.bytes r.1)

/-- The two statements that write an opcode and the index of a name in the table of the
locals. -/
def writeLocal (host : CompHost) (ccb : codeBlockCompiler) (op : Nat) (name : String) :
    codeBlockCompiler :=
  let ccb := ccb.WriteByte op
  let r := host.stringIndexOf ccb.locals name
  { ccb with locals := r.2 }.Write (host.bytes r.1)

/-- The two statements that write an opcode and the index of a name in the table of the
global names. -/
def writeName (host : CompHost) (ccb : codeBlockCompiler) (op : Nat) (name : String) :
    codeBlockCompiler :=
  let ccb := ccb.WriteByte op
  let r := host.stringIndexOf ccb.names name
  { ccb with names := r.2 }.Write (host.bytes r.1)

/-- A loop `for _, s := range ... { compile(ccb, s) }`. -/
def compileEach (comp : Compiler) : List Node → codeBlockCompiler → Except Fault codeBlockCompiler
  | [], ccb => .ok ccb
  | s :: rest, ccb => do
    let ccb ← comp s ccb
    compileEach comp rest ccb

/-- The function `compileBlock`. -/
def compileBlock (comp : Compiler) (statements : List Node) (ccb : codeBlockCompiler) :
    Except Fault codeBlockCompiler :=
  compileEach comp statements ccb

/-- The loop of the case `HashLiteral`, over the pairs in iteration order: the value is
compiled before the key. -/
def compilePairs (comp : Compiler) :
    List (Node × Node) → codeBlockCompiler → Except Fault codeBlockCompiler
  | [], ccb => .ok ccb
  | (k, v) :: rest, ccb => do
    let ccb ← comp v ccb
    let ccb ← comp k ccb
    compilePairs comp rest ccb

/-- The loop of the case `CallExpression`: the index runs from `len(arguments) - 1` down
to 0; the first argument of the loop function is the index plus one. -/
def compileArguments (comp : Compiler) (arguments : List Node) :
    Nat → codeBlockCompiler → Except Fault codeBlockCompiler
  | 0, ccb => .ok ccb
  | i + 1, ccb =>
    match arguments[i]? with
    | none => .error .indexOutOfRange
    | some argument => do
      let ccb ← comp argument ccb
      compileArguments comp arguments i ccb

/-- The switch on the operator of a prefix expression; it has no default case. -/
def writePrefixOperator (host : CompHost) (operator : String) (ccb : codeBlockCompiler) :
    codeBlockCompiler :=
  if operator = "!" then ccb.WriteByte host.opcode.UnaryNot
  else if operator = "-" then ccb.WriteByte host.opcode.UnaryNeg
  else ccb

/-- The switch on the operator of an infix expression; it has no default case. -/
def writeInfixOperator (host : CompHost) (operator : String) (ccb : codeBlockCompiler) :
    codeBlockCompiler :=
  if operator = "+" then ccb.WriteByte host.opcode.BinaryAdd
  else if operator = "-" then ccb.WriteByte host.opcode.BinarySub
  else if operator = "*" then ccb.WriteByte host.opcode.BinaryMul
  else if operator = "/" then ccb.WriteByte host.opcode.BinaryDivide
  else if operator = "%" then ccb.WriteByte host.opcode.BinaryMod
  else if operator = "<<" then ccb.WriteByte host.opcode.BinaryShiftL
  else if operator = ">>" then ccb.WriteByte host.opcode.BinaryShiftR
  else if operator = "&" then ccb.WriteByte host.opcode.BinaryAnd
  else if operator = "&^" then ccb.WriteByte host.opcode.BinaryAndNot
  else if operator = "|" then ccb.WriteByte host.opcode.BinaryOr
  else if operator = "^" then ccb.WriteByte host.opcode.BinaryNot
  else if operator = "<" then (ccb.WriteByte host.opcode.Compare).WriteByte host.opcode.CmpLT
  else if operator = ">" then (ccb.WriteByte host.opcode.Compare).WriteByte host.opcode.CmpGT
  else if operator = "==" then (ccb.WriteByte host.opcode.Compare).WriteByte host.opcode.CmpEq
  else if operator = "!=" then (ccb.WriteByte host.opcode.Compare).WriteByte host.opcode.CmpNotEq
  else if operator = "<=" then (ccb.WriteByte host.opcode.Compare).WriteByte host.opcode.CmpLTEq
  else if operator = ">=" then (ccb.WriteByte host.opcode.Compare).WriteByte host.opcode.CmpGTEq
  else ccb

/-- The function `compileFunction`, whose body is empty. -/
def compileFunction (ccb : codeBlockCompiler) : codeBlockCompiler := ccb

/-- The function `compileIfStatement`.  The alternative of an `if` without `else` is a
nil block, whose statements `compileBlock` cannot read. -/
def compileIfStatement (host : CompHost) (comp : Compiler) (condition consequence : Node)
    (alternative : Option Node) (ccb : codeBlockCompiler) : Except Fault codeBlockCompiler := do
  let ccb ← comp condition ccb
  let mainCode := ccb.code
  let oldOffset := ccb.offset
  let ccb := { ccb with offset := (ccb.code.length : Int) + ccb.offset, code := [] }
  let ccb ← comp consequence ccb
  let trueBranch := ccb.code
  -- Prior code to if statement + size of true branch + faked offset - 2
  let falseBranchLoc : Int := (ccb.code.length : Int) + (trueBranch.length : Int) + ccb.offset - 2
  let ccb := { ccb with offset := falseBranchLoc, code := [] }
  let ccb ← (match alternative with
    | some alt => comp alt ccb
    | none => .error .nilDereference)
  let falseBranch := ccb.code
  let ccb := { ccb with code := mainCode, offset := oldOffset }
  let ccb := ccb.WriteByte host.opcode.PopJumpIfFalse
  let ccb := ccb.Write (host.bytes (toUint16 falseBranchLoc))
  let ccb := ccb.Write trueBranch
  let ccb := ccb.WriteByte host.opcode.Pop
  let ccb := ccb.WriteByte host.opcode.JumpForward
  let ccb := ccb.Write (host.bytes (toUint16 (falseBranch.length : Int)))
  .ok (ccb.Write falseBranch)

/-- The function `compileCompareExpression`. -/
def compileCompareExpression (host : CompHost) (comp : Compiler) (left : Node) (isLAnd : Bool)
    (right : Node) (ccb : codeBlockCompiler) : Except Fault codeBlockCompiler := do
  let ccb ← comp left ccb
  let rightBranchLoc : Int := (ccb.code.length : Int) + 3
  let ccb :=
    if isLAnd then ccb.WriteByte host.opcode.JumpIfFalseOrPop
    else ccb.WriteByte host.opcode.JumpIfTrueOrPop
  let ccb := ccb.Write (host.bytes (toUint16 rightBranchLoc))
  comp right ccb

/-- The body of `compile`, with `comp` for its recursive calls. -/
def compileNode (host : CompHost) (comp : Compiler) (node : Node) (ccb : codeBlockCompiler) :
    Except Fault codeBlockCompiler :=
  match node with
  | .ExpressionStatement expression => comp expression ccb
  | .BlockStatement statements => compileBlock comp statements ccb
  -- Literals
  | .IntegerLiteral value => .ok (writeLoadConst host ccb (.Integer value))
  | .NullLiteral => .ok (writeLoadConst host ccb NULL)
  | .StringLiteral value => .ok (writeLoadConst host ccb (.Str value))
  | .FloatLiteral bits => .ok (writeLoadConst host ccb (.Float bits))
  | .Boolean value => .ok (writeLoadConst host ccb (if value then TRUE else FALSE))
  | .Array elements => do
    let ccb ← compileEach comp elements ccb
    let ccb := ccb.WriteByte host.opcode.MakeArray
    .ok (ccb.Write (host.bytes (toUint16 (elements.length : Int))))
  | .HashLiteral pairs => do
    let ccb ← compilePairs comp pairs ccb
    let ccb := ccb.WriteByte host.opcode.MakeMap
    .ok (ccb.Write (host.bytes (toUint16 (pairs.length : Int))))
  -- Expressions
  | .Identifier value =>
    if host.stringContains ccb.locals value then .ok (writeLocal host ccb host.opcode.LoadFast value)
    else .ok (writeName host ccb host.opcode.LoadGlobal value)
  | .PrefixExpression operator right => do
    let ccb ← comp right ccb
    .ok (writePrefixOperator host operator ccb)
  | .InfixExpression left operator right => do
    let ccb ← comp left ccb
    let ccb ← comp right ccb
    .ok (writeInfixOperator host operator ccb)
  | .CallExpression function arguments => do
    let ccb ← compileArguments comp arguments arguments.length ccb
    let ccb ← comp function ccb
    let ccb := ccb.WriteByte host.opcode.Call
    .ok (ccb.Write (host.bytes (toUint16 (arguments.length : Int))))
  | .Program _ => .error (.goPanic "Not implemented yet")
  | .ReturnStatement value => do
    let ccb ← comp value ccb
    .ok (ccb.WriteByte host.opcode.Return)
  | .DefStatement name value _ => do
    let ccb ← comp value ccb
    .ok (writeLocal host ccb host.opcode.StoreFast name)
  | .AssignStatement left value => do
    let ccb ← comp value ccb
    match left with
    | .IndexExpression _ _ => .error (.goPanic "Indexed assign not implemented")
    | .Identifier ident => .ok (writeLocal host ccb host.opcode.StoreFast ident)
    | _ => .error (.goPanic "Assignment to non ident or index")
  | .IfExpression condition consequence alternative =>
    compileIfStatement host comp condition consequence alternative ccb
  | .CompareExpression left isLAnd right =>
    compileCompareExpression host comp left isLAnd right ccb
  | .FunctionLiteral _ _ => .ok (compileFunction ccb)
  -- Not implemented yet
  | .ThrowStatement => .error (.goPanic "Not implemented yet")
  | .IndexExpression _ _ => .error (.goPanic "Not implemented yet")
  | .ForLoopStatement => .error (.goPanic "Not implemented yet")
  | .ContinueStatement => .error (.goPanic "Not implemented yet")
  | .BreakStatement => .error (.goPanic "Not implemented yet")
  | .TryCatchExpression => .error (.goPanic "Not implemented yet")
  | .ClassLiteral => .error (.goPanic "Not implemented yet")
  | .MakeInstance => .error (.goPanic "Not implemented yet")
  | .Other => .ok ccb

/-- The function `compile`.  Each level of recursion uses one unit of fuel. -/
def compile (host : CompHost) : Nat → Compiler
  | 0 => fun _ _ => .error .outOfFuel
  | fuel + 1 => compileNode host (compile host fuel)

/-- The struct `CodeBlock`, without its name and file name. -/
structure CodeBlock where
  LocalCount : Nat
  Code : List Nat
  Constants : List Object
  Names : List String
  Locals : List String
  MaxStackSize : Nat

/-- The function `compileFrame`.  Reading the last byte of an empty code buffer is an
index out of range. -/
def compileFrame (host : CompHost) (fuel : Nat) (node : Node) : Except Fault CodeBlock := do
  let ccb : codeBlockCompiler :=
    ⟨host.newConstantTable, host.newStringTable, host.newStringTable, [], 0⟩
  let ccb ← compile host fuel node ccb
  match ccb.code.getLast? with
  | none => .error .indexOutOfRange
  | some last =>
    let ccb :=
      if last ≠ host.opcode.Return then
        (writeLoadConst host ccb NULL).WriteByte host.opcode.Return
      else ccb
    .ok ⟨ccb.locals.length, ccb.code, ccb.constants, ccb.names, ccb.locals, 0⟩

/-- The function `Compile`, applied to the statements of a program. -/
def Compile (host : CompHost) (fuel : Nat) (statements : List Node) : Except Fault CodeBlock :=
  compileFrame host fuel (.BlockStatement statements)

/-! ## A concrete host of the compiler for closed instances -/

/-- Whether two constants are the same scalar. -/
def sameConstant : Object → Object → Bool
  | .Integer a, .Integer b => a == b
  | .Float a, .Float b => a == b
  | .Str a, .Str b => a == b
  | .Boolean a, .Boolean b => a == b
  | .Null, .Null => true
  | _, _ => false

/-- An opcode numbering, tables that number their entries in the order of first use, and
the high byte of a 16-bit value before its low byte. -/
def testCompHost : CompHost where
  opcode := ⟨1, 2, 3, 4, 5, 6, 7, 8, 9, 10, 11, 12, 13, 14, 15, 16, 17, 18, 19, 20, 21, 22, 23,
    24, 25, 26, 27, 28, 29, 30, 31, 32, 33⟩
  newConstantTable := []
  newStringTable := []
  uint16ToBytes := fun x => (x / 256 % 256, x % 256)
  constantIndexOf := fun table o =>
    if table.findIdx (sameConstant o) < table.length then (table.findIdx (sameConstant o), table)
    else (table.length, table ++ [o])
  stringContains := fun table name => table.contains name
  stringIndexOf := fun table name =>
    if table.indexOf name < table.length then (table.indexOf name, table)
    else (table.length, table ++ [name])

/-- The code buffer of a compilation result, when there is one. -/
def codeOf (r : Except Fault codeBlockCompiler) : Option (List Nat) :=
  match r with
  | .ok ccb => some ccb.code
  | .error _ => none

/-- The compiler state at the start of a frame of the concrete host. -/
def emptyCompiler : codeBlockCompiler := ⟨[], [], [], [], 0⟩

/-! ## The script arguments (`cmd/nitrogen/nitrogen.go`) -/

/-- The loop of `getScriptArgs`: `newElements[i+1]` becomes the string `v`. -/
def getScriptArgsLoop : List String → Nat → List Object → Except Fault (List Object)
  | [], _, newElements => .ok newElements
  | v :: rest, i, newElements =>
    if i + 1 < newElements.length then
      getScriptArgsLoop rest (i + 1) (newElements.set (i + 1) (.Str v))
    else .error .indexOutOfRange

/-- The function `getScriptArgs`; `flagArgs` is the value of `flag.Args()`, whose slice
from index 1 on does not exist when it is empty. -/
def getScriptArgs (flagArgs : List String) (filepath : String) (h : Heap) :
    Except Fault (Object × Heap) :=
  match flagArgs with
  | [] => .error .indexOutOfRange
  | _ :: s => do
    let length := s.length + 1
    let newElements := List.replicate length Object.nil
    let newElements := newElements.set 0 (.Str filepath)
    let newElements ← getScriptArgsLoop s 0 newElements
    .ok (h.newArray newElements)

/-! ## The builtin `push` -/

/-- Modelled from the spec: the builtin `push` of the package of the builtins is not
among the sources at hand, only its test `TestBuiltinPushFunction` is.  An array is a
dense ordered sequence that grows by push; the rows of the test give the two error
messages.  The number of arguments is checked first, then the kind of the first
argument; the result is a new array. -/
def builtinPush (host : Host) (args : List Object) (h : Heap) : Except Fault (Object × Heap) :=
  match args with
  | [first, x] =>
    match first with
    | .Array a => .ok (h.newArray (h.arrays a ++ [x]))
    | _ => do
      let t ← objectType first
      .ok (newError ("Argument to `push` must be ARRAY, got " ++ host.typeName t), h)
  | _ =>
    .ok (newError ("Incorrect number of arguments. Got " ++ toString args.length ++ ", expected 2"), h)

/-! ## Reference notions for the order of evaluation -/

/-- The values of a list of expressions evaluated one after the other from the first to
the last, each in the heap that the one before it has left. -/
def evalInOrder (ev : Evaluator) (env : Environment) :
    List Node → Heap → Except Fault (List Object × Heap)
  | [], h => .ok ([], h)
  | e :: rest, h => do
    let (v, h) ← ev e env h
    let (vs, h) ← evalInOrder ev env rest h
    .ok (v :: vs, h)

/-- The compiler state `out` continues the state `ccb`: the offset is the same, and the
code buffer is that of `ccb` followed by further bytes. -/
def codeBlockCompiler.continues (ccb out : codeBlockCompiler) : Prop :=
  out.offset = ccb.offset ∧ ∃ s, out.code = ccb.code ++ s

/-! ## The test `TestNextToken` (`lexer_test.go`) -/

/-- The input of `TestNextToken`, line by line. -/
def TestNextToken_input : List Char :=
  "def five = 5;\n".toList ++
  "        def ten = 10;\n".toList ++
  "\n".toList ++
  "\t\tdef add = func(x, y) \x7b\n".toList ++
  "\t\t\tx + y;\n".toList ++
  "\t\t\x7d;\n".toList ++
  "\n".toList ++
  "\t\tdef result = add(five, ten);\n".toList ++
  "\t\t!-/*5;\n".toList ++
  "\t\t5 < 10 > 5;\n".toList ++
  "\n".toList ++
  "\t\tif (5 < 10) \x7b\n".toList ++
  "\t\t\treturn true;\n".toList ++
  "\t\t\x7d else \x7b\n".toList ++
  "\t\t\treturn false;\n".toList ++
  "\t\t\x7d\n".toList ++
  "\n".toList ++
  "\t\t10 == 10;\n".toList ++
  "\t\t10 != 9;\n".toList ++
  "\t\t\"foobar\"\n".toList ++
  "\t\t\"foo bar\"\n".toList ++
  "\t\t[1, 2];\n".toList ++
  "    ".toList

/-- The table `tests` of `TestNextToken`: the expected kinds and literals. -/
def TestNextToken_tests : List Token :=
  [Token.mk TokenType.DEF "def", Token.mk TokenType.IDENT "five", Token.mk TokenType.ASSIGN "="] ++
  [Token.mk TokenType.INT "5", Token.mk TokenType.SEMICOLON ";", Token.mk TokenType.DEF "def"] ++
  [Token.mk TokenType.IDENT "ten", Token.mk TokenType.ASSIGN "=", Token.mk TokenType.INT "10"] ++
  [Token.mk TokenType.SEMICOLON ";", Token.mk TokenType.DEF "def", Token.mk TokenType.IDENT "add"] ++
  [Token.mk TokenType.ASSIGN "=", Token.mk TokenType.FUNCTION "func", Token.mk TokenType.LPAREN "("] ++
  [Token.mk TokenType.IDENT "x", Token.mk TokenType.COMMA ",", Token.mk TokenType.IDENT "y"] ++
  [Token.mk TokenType.RPAREN ")", Token.mk TokenType.LBRACE "\x7b", Token.mk TokenType.IDENT "x"] ++
  [Token.mk TokenType.PLUS "+", Token.mk TokenType.IDENT "y", Token.mk TokenType.SEMICOLON ";"] ++
  [Token.mk TokenType.RBRACE "\x7d", Token.mk TokenType.SEMICOLON ";", Token.mk TokenType.DEF "def"] ++
  [Token.mk TokenType.IDENT "result", Token.mk TokenType.ASSIGN "=", Token.mk TokenType.IDENT "add"] ++
  [Token.mk TokenType.LPAREN "(", Token.mk TokenType.IDENT "five", Token.mk TokenType.COMMA ","] ++
  [Token.mk TokenType.IDENT "ten", Token.mk TokenType.RPAREN ")", Token.mk TokenType.SEMICOLON ";"] ++
  [Token.mk TokenType.BANG "!", Token.mk TokenType.MINUS "-", Token.mk TokenType.SLASH "/"] ++
  [Token.mk TokenType.ASTERISK "*", Token.mk TokenType.INT "5", Token.mk TokenType.SEMICOLON ";"] ++
  [Token.mk TokenType.INT "5", Token.mk TokenType.LT "<", Token.mk TokenType.INT "10"] ++
  [Token.mk TokenType.GT ">", Token.mk TokenType.INT "5", Token.mk TokenType.SEMICOLON ";"] ++
  [Token.mk TokenType.IF "if", Token.mk TokenType.LPAREN "(", Token.mk TokenType.INT "5"] ++
  [Token.mk TokenType.LT "<", Token.mk TokenType.INT "10", Token.mk TokenType.RPAREN ")"] ++
  [Token.mk TokenType.LBRACE "\x7b", Token.mk TokenType.RETURN "return", Token.mk TokenType.TRUE "true"] ++
  [Token.mk TokenType.SEMICOLON ";", Token.mk TokenType.RBRACE "\x7d", Token.mk TokenType.ELSE "else"] ++
  [Token.mk TokenType.LBRACE "\x7b", Token.mk TokenType.RETURN "return", Token.mk TokenType.FALSE "false"] ++
  [Token.mk TokenType.SEMICOLON ";", Token.mk TokenType.RBRACE "\x7d", Token.mk TokenType.INT "10"] ++
  [Token.mk TokenType.EQ "==", Token.mk TokenType.INT "10", Token.mk TokenType.SEMICOLON ";"] ++
  [Token.mk TokenType.INT "10", Token.mk TokenType.NOT_EQ "!=", Token.mk TokenType.INT "9"] ++
  [Token.mk TokenType.SEMICOLON ";", Token.mk TokenType.STRING "foobar", Token.mk TokenType.STRING "foo bar"] ++
  [Token.mk TokenType.LSQUARE "[", Token.mk TokenType.INT "1", Token.mk TokenType.COMMA ","] ++
  [Token.mk TokenType.INT "2", Token.mk TokenType.RSQUARE "]", Token.mk TokenType.SEMICOLON ";"] ++
  [Token.mk TokenType.EOF ""]

/-! ## The instruction buffer (`compiler2/instruction.go`)

An opcode is its byte.  The tables `HasOneByteArg`, `HasTwoByteArg` and `HasFourByteArg`
of the opcode package, its opcode `Label` and the two helpers that convert between a
16-bit value and its two bytes lie outside the sources at hand and are taken from a
host.  A write or read at an index outside a slice is a fault. -/

/-- The struct `Instruction`. -/
structure Instruction where
  Instr : Nat
  /-- The 16-bit arguments: one or two. -/
  Args : List Nat
  /-- The name of the label for the corresponding argument. -/
  ArgLabels : List String
  /-- The label that names this instruction for linking later. -/
  Label : String
deriving DecidableEq, Repr

/-- The parts of the instruction buffer that lie outside `instruction.go`. -/
structure InstHost where
  /-- The opcode `opcode.Label`. -/
  Label : Nat
  HasOneByteArg : Nat → Bool
  HasTwoByteArg : Nat → Bool
  HasFourByteArg : Nat → Bool
  /-- The helper `uint16ToBytes`: the two bytes of a 16-bit value, in its order. -/
  uint16ToBytes : Nat → Nat × Nat
  /-- The helper `bytesToUint16`. -/
  bytesToUint16 : Nat → Nat → Nat

/-- The method `Is`. -/
def Instruction.Is (i : Instruction) (code : Nat) : Bool := i.Instr = code

/-- The loop of `InstSet.Len`; `size` is the count so far. -/
def InstSet.LenLoop (host : InstHost) : List Instruction → Nat → Nat
  | [], size => size
  | i :: rest, size =>
    let size := size + 1
    if host.HasOneByteArg i.Instr then InstSet.LenLoop host rest (size + 1)
    else if host.HasTwoByteArg i.Instr then InstSet.LenLoop host rest (size + 2)
    else if host.HasFourByteArg i.Instr then InstSet.LenLoop host rest (size + 4)
    else InstSet.LenLoop host rest size

/-- The method `InstSet.Len`. -/
def InstSet.Len (host : InstHost) (is : List Instruction) : Nat :=
  InstSet.LenLoop host is 0

/-- The assignment `bytes[offset] = b`. -/
def storeByte (bytes : List Nat) (offset : Nat) (b : Nat) : Except Fault (List Nat) :=
  if offset < bytes.length then .ok (bytes.set offset b) else .error .indexOutOfRange

/-- The expression `s[k]` on a slice. -/
def indexSlice (s : List Nat) (k : Nat) : Except Fault Nat :=
  match s[k]? with
  | some x => .ok x
  | none => .error .indexOutOfRange

/-- The loop of `InstSet.Assemble`. -/
def InstSet.AssembleLoop (host : InstHost) :
    List Instruction → List Nat → Nat → Except Fault (List Nat)
  | [], bytes, _ => .ok bytes
  | i :: rest, bytes, offset =>
    if i.Is host.Label then InstSet.AssembleLoop host rest bytes offset
    else do
      let bytes ← storeByte bytes offset i.Instr
      let offset := offset + 1
      if host.HasOneByteArg i.Instr then do
        let a0 ← indexSlice i.Args 0
        let bytes ← storeByte bytes offset (a0 % 256)
        InstSet.AssembleLoop host rest bytes (offset + 1)
      else if host.HasTwoByteArg i.Instr then do
        let a0 ← indexSlice i.Args 0
        let arg := host.uint16ToBytes a0
        let bytes ← storeByte bytes offset arg.1
        let bytes ← storeByte bytes (offset + 1) arg.2
        InstSet.AssembleLoop host rest bytes (offset + 2)
      else if host.HasFourByteArg i.Instr then do
        let a0 ← indexSlice i.Args 0
        let arg := host.uint16ToBytes a0
        let bytes ← storeByte bytes offset arg.1
        let bytes ← storeByte bytes (offset + 1) arg.2
        let a1 ← indexSlice i.Args 1
        let arg := host.uint16ToBytes a1
        let bytes ← storeByte bytes (offset + 2) arg.1
        let bytes ← storeByte bytes (offset + 3) arg.2
        InstSet.AssembleLoop host rest bytes (offset + 4)
      else InstSet.AssembleLoop host rest bytes offset

/-- The method `InstSet.Assemble`. -/
def InstSet.Assemble (host : InstHost) (is : List Instruction) : Except Fault (List Nat) :=
  InstSet.AssembleLoop host is (List.replicate (InstSet.Len host is) 0) 0

/-- The struct `Code`: the bytes and the read position. -/
structure Code where
  code : List Nat
  i : Nat
deriving DecidableEq, Repr

/-- The function `NewCode`. -/
def NewCode (code : List Nat) : Code := ⟨code, 0⟩

/-- The method `NextInstruction`; `none` is the nil instruction. -/
def Code.NextInstruction (host : InstHost) (c : Code) : Except Fault (Option Instruction × Code) :=
  if c.i ≥ c.code.length then .ok (none, c)
  else do
    let curr ← indexSlice c.code c.i
    let c : Code := { c with i := c.i + 1 }
    if host.HasOneByteArg curr then do
      let b ← indexSlice c.code c.i
      .ok (some ⟨curr, [b], [], ""⟩, { c with i := c.i + 1 })
    else if host.HasTwoByteArg curr then do
      let b0 ← indexSlice c.code c.i
      let b1 ← indexSlice c.code (c.i + 1)
      .ok (some ⟨curr, [host.bytesToUint16 b0 b1], [], ""⟩, { c with i := c.i + 2 })
    else if host.HasFourByteArg curr then do
      let b0 ← indexSlice c.code c.i
      let b1 ← indexSlice c.code (c.i + 1)
      let b2 ← indexSlice c.code (c.i + 2)
      let b3 ← indexSlice c.code (c.i + 3)
      .ok (some ⟨curr, [host.bytesToUint16 b0 b1, host.bytesToUint16 b2 b3], [], ""⟩,
        { c with i := c.i + 4 })
    else .ok (some ⟨curr, [], [], ""⟩, c)

/-! ## Reference notions for the instruction buffer -/

/-- The number of argument bytes of an opcode: 0, 1, 2 or 4. -/
def InstHost.width (host : InstHost) (op : Nat) : Nat :=
  if host.HasOneByteArg op then 1
  else if host.HasTwoByteArg op then 2
  else if host.HasFourByteArg op then 4
  else 0

/-- The number of 16-bit arguments that an opcode requires: 0, 1 or 2. -/
def InstHost.argCount (host : InstHost) (op : Nat) : Nat :=
  if host.HasOneByteArg op then 1
  else if host.HasTwoByteArg op then 1
  else if host.HasFourByteArg op then 2
  else 0

/-- The encoding of one instruction that is not a label: the opcode, then its argument
bytes. -/
def InstHost.encode (host : InstHost) (i : Instruction) : List Nat :=
  if host.HasOneByteArg i.Instr then [i.Instr, i.Args.headD 0 % 256]
  else if host.HasTwoByteArg i.Instr then
    [i.Instr, (host.uint16ToBytes (i.Args.headD 0)).1, (host.uint16ToBytes (i.Args.headD 0)).2]
  else if host.HasFourByteArg i.Instr then
    [i.Instr, (host.uint16ToBytes (i.Args.headD 0)).1, (host.uint16ToBytes (i.Args.headD 0)).2,
      (host.uint16ToBytes (i.Args.tail.headD 0)).1, (host.uint16ToBytes (i.Args.tail.headD 0)).2]
  else [i.Instr]

/-- The instructions of a set that are not labels. -/
def InstHost.nonLabels (host : InstHost) (is : List Instruction) : List Instruction :=
  is.filter (fun i => !i.Is host.Label)

/-- The encodings of the instructions of a set that are not labels, one after the other. -/
def InstHost.encodeAll (host : InstHost) (is : List Instruction) : List Nat :=
  ((host.nonLabels is).map host.encode).flatten

/-- The number of Label pseudo-instructions of a set. -/
def InstHost.labelCount (host : InstHost) (is : List Instruction) : Nat :=
  (is.filter (fun i => i.Is host.Label)).length

/-- The instructions that `n` successive calls of `NextInstruction` return, and the state
after them; a nil instruction ends the sequence. -/
def Code.readN (host : InstHost) : Nat → Code → Except Fault (List Instruction × Code)
  | 0, c => .ok ([], c)
  | n + 1, c => do
    let (r, c) ← c.NextInstruction host
    match r with
    | none => .ok ([], c)
    | some i => do
      let (is, c) ← Code.readN host n c
      .ok (i :: is, c)

/-- A host of the instruction buffer for closed instances: the opcode 0 is the label,
the opcodes 1 to 9 have no argument, 10 to 19 a one-byte, 20 to 29 a two-byte and 30 to 39
a four-byte argument; the high byte of a 16-bit value stands before its low byte. -/
def testInstHost : InstHost where
  Label := 0
  HasOneByteArg := fun op => 10 ≤ op && op < 20
  HasTwoByteArg := fun op => 20 ≤ op && op < 30
  HasFourByteArg := fun op => 30 ≤ op && op < 40
  uint16ToBytes := fun x => (x / 256 % 256, x % 256)
  bytesToUint16 := fun hi lo => hi * 256 + lo

/-! ## The string modules (`modules/strings/strings.go`, `builtins/string/string.go`) -/

/-- The loop of `dedupString`, which is the same in the two packages but for the type of
the elements (bytes in the one, runes in the other): `lastc` is the element written
last, `newstr` the buffer. -/
def dedupLoop {α : Type} [DecidableEq α] (c : α) : List α → α → List α → List α
  | [], _, newstr => newstr
  | char :: rest, lastc, newstr =>
    if char = c ∧ char = lastc then dedupLoop c rest lastc newstr
    else dedupLoop c rest char (newstr ++ [char])

/-- The function `dedupString` of `modules/strings`, on the bytes of the string. -/
def StringsModule.dedupString (str : List Nat) (c : Nat) : List Nat :=
  dedupLoop c str 0 []

/-- The function `dedupString` of `builtins/string`, on the runes of the string. -/
def StringBuiltin.dedupString (str : List Char) (c : Char) : List Char :=
  dedupLoop c str NUL []

/-- The function `strings.Contains`, on runes. -/
def stringsContains : List Char → List Char → Bool
  | [], substr => substr.isEmpty
  | ch :: rest, substr => substr.isPrefixOf (ch :: rest) || stringsContains rest substr

/-- The function `strings.Replace` with the count 1 and a non-empty `old`: the first
instance of `old` is replaced by `new`. -/
def stringsReplaceFirst : List Char → List Char → List Char → List Char
  | [], _, _ => []
  | ch :: rest, old, new =>
    if old.isPrefixOf (ch :: rest) then new ++ (ch :: rest).drop old.length
    else ch :: stringsReplaceFirst rest old new

/-- The loop of `vmStrFormat` over the arguments, each given by the string that
`objectToString` renders it to; `t` is the text so far. -/
def vmStrFormatLoop : List (List Char) → List Char → List Char
  | [], t => t
  | s :: rest, t =>
    if !stringsContains t ['{', '}'] then t
    else vmStrFormatLoop rest (stringsReplaceFirst t ['{', '}'] s)

/-- The function `vmStrFormat`, on the value of the field `str` and the rendered
arguments. -/
def vmStrFormat (target : List Char) (rendered : List (List Char)) : List Char :=
  vmStrFormatLoop rendered target

/-! ## Reference notions for the string functions -/

/-- The string `s` with each maximal run of `c` replaced by a single `c`: an element
equal to `c` is dropped when the element before it is `c`.  The flag says whether the
element before the list is `c`. -/
def collapseAfter {α : Type} [DecidableEq α] (c : α) : Bool → List α → List α
  | _, [] => []
  | prev, x :: rest =>
    if x = c then
      if prev then collapseAfter c true rest else x :: collapseAfter c true rest
    else x :: collapseAfter c false rest

/-- The string `s` with each maximal run of `c` replaced by a single `c`. -/
def collapseRuns {α : Type} [DecidableEq α] (c : α) (s : List α) : List α :=
  collapseAfter c false s

/-- Whether two neighbours of a list are both `c`. -/
def hasAdjacent {α : Type} [DecidableEq α] (c : α) : List α → Bool
  | [] => false
  | [_] => false
  | x :: y :: rest => (decide (x = c) && decide (y = c)) || hasAdjacent c (y :: rest)

/-- The template `t` with its placeholders `{}` replaced from the left by the strings of
the list, one placeholder for each string, as long as both last; what an inserted
string contains is not looked at again. -/
def formatPositional : List Char → List (List Char) → List Char
  | t, [] => t
  | [], _ => []
  | '{' :: '}' :: post, s :: ss => s ++ formatPositional post ss
  | ch :: rest, s :: ss => ch :: formatPositional rest (s :: ss)

/-! ## Reference notion for definitions -/

/-- The value that a literal of the source denotes: null, an integer, a string, a float
or a boolean.  Every other node is not a literal. -/
def literalValue : Node → Option Object
  | .NullLiteral => some NULL
  | .IntegerLiteral value => some (.Integer value)
  | .StringLiteral value => some (.Str value)
  | .FloatLiteral bits => some (.Float bits)
  | .Boolean value => some (if value then TRUE else FALSE)
  | _ => none

/-! ## Truthiness -/

theorem floatEq_zero (bits : Nat) : floatEq bits 0 = floatIsZero bits := by
  rw [Bool.eq_iff_iff]
  simp only [floatEq, floatIsNaN, floatIsZero, Bool.and_eq_true, Bool.or_eq_true, Bool.not_eq_true',
    beq_iff_eq, bne_iff_ne, ne_eq, beq_eq_false_iff_ne, Bool.and_eq_false_imp, Bool.not_eq_false]
  norm_num
  omega

/-- C1 (counterexample): an array, a hash and a function are none of the five listed
falsy values, yet `isTruthy` returns false, not true, for each of them. -/
theorem isTruthy_array_is_false :
    isTruthy (Object.Array 0) = Except.ok false ∧
    isTruthy (Object.Array 0) ≠ Except.ok true ∧
    isTruthy (Object.Hash 0) = Except.ok false ∧
    isTruthy (Object.Function 0 [] (Node.BlockStatement []) rootEnv) = Except.ok false := by
  refine ⟨rfl, ?_, rfl, rfl⟩
  intro h
  cases h

/-- C1 (amended): for every value, `isTruthy` is true exactly for the boolean true, a
non-zero integer, a float other than `+0.0` and `-0.0`, and a non-empty string; it is
false for every other value, arrays, hashes and functions included. -/
theorem isTruthy_eq_truthyValue (v : Object) (hv : v ≠ Object.nil) :
    isTruthy v = Except.ok (truthyValue v) := by
  cases v with
  | nil => exact absurd rfl hv
  | Boolean b => cases b <;> rfl
  | Float bits =>
    simp [isTruthy, ptrEq, NULL, FALSE, TRUE, objectType, truthyValue, floatEq_zero, bind, Except.bind]
  | Integer n =>
    simp [isTruthy, ptrEq, NULL, FALSE, TRUE, objectType, truthyValue, bind, Except.bind]
  | Str s =>
    simp [isTruthy, ptrEq, NULL, FALSE, TRUE, objectType, truthyValue, bind, Except.bind]
  | _ => rfl

/-- C1 (instance): the non-empty string `a` is truthy. -/
theorem isTruthy_eq_truthyValue_witness :
    isTruthy (Object.Str "a") = Except.ok (truthyValue (Object.Str "a")) :=
  isTruthy_eq_truthyValue (Object.Str "a") (by intro h; cases h)

/-! ## Infix operators -/

/-- C2 (counterexample): comparing an integer with a string by `==` or `!=` gives the
type-mismatch error, not a boolean. -/
theorem evalInfixExpression_eq_mixed_kinds_is_error :
    valueOf (evalInfixExpression testHost "==" (Object.Integer 1) (Object.Str "a") emptyHeap)
      = Except.ok (Object.Error "type mismatch: INTEGER == STRING") ∧
    valueOf (evalInfixExpression testHost "!=" (Object.Integer 1) (Object.Str "a") emptyHeap)
      = Except.ok (Object.Error "type mismatch: INTEGER != STRING") := by
  constructor <;> rfl

/-- C2 (amended): for two values of different kinds and every operator, `==` and `!=`
included, `evalInfixExpression` returns the type-mismatch error naming the two kinds and
the operator, and the heap is unchanged. -/
theorem evalInfixExpression_type_mismatch (host : Host) (op : String) (l r : Object) (h : Heap)
    (lt rt : ObjectType) (hl : objectType l = Except.ok lt) (hr : objectType r = Except.ok rt)
    (hne : lt ≠ rt) :
    evalInfixExpression host op l r h =
      Except.ok (newError ("type mismatch: " ++ host.typeName lt ++ " " ++ op ++ " " ++ host.typeName rt), h) := by
  simp [evalInfixExpression, hl, hr, hne, bind, Except.bind]

/-- C2 (instance): an integer plus a boolean is a type mismatch. -/
theorem evalInfixExpression_type_mismatch_witness :
    evalInfixExpression testHost "+" (Object.Integer 1) (Object.Boolean true) emptyHeap =
      Except.ok (newError ("type mismatch: " ++ testHost.typeName ObjectType.INTEGER_OBJ ++ " " ++ "+"
        ++ " " ++ testHost.typeName ObjectType.BOOLEAN_OBJ), emptyHeap) :=
  evalInfixExpression_type_mismatch testHost "+" (Object.Integer 1) (Object.Boolean true) emptyHeap
    ObjectType.INTEGER_OBJ ObjectType.BOOLEAN_OBJ rfl rfl (by decide)

/-- C3 (the code at the failing input): for every integer `a`, evaluating `a / 0` does
not return a value at all; the Go division panics with a divide-by-zero fault. -/
theorem Eval_integer_division_by_zero_panics (host : Host) (fuel : Nat) (a : Int)
    (env : Environment) (h : Heap) :
    Eval host (fuel + 2) (Node.InfixExpression (Node.IntegerLiteral a) "/" (Node.IntegerLiteral 0)) env h
      = Except.error Fault.divideByZero := by
  simp [Eval, evalNode, isError, evalInfixExpression, objectType, typesEqualTo,
    evalIntegerInfixExpression, bind, Except.bind]

/-! ## Environments -/

theorem nearest_root (h : Heap) (a : Nat) (name : String) :
    (Environment.root a).nearest h name =
      if (h.stores a name).isSome then some (Environment.root a) else none := by
  simp only [Environment.nearest, Environment.ancestors, List.find?, Environment.frame]
  cases h.stores a name <;> rfl

theorem nearest_enclosed (h : Heap) (a : Nat) (p : Environment) (name : String) :
    (Environment.enclosed a p).nearest h name =
      if (h.stores a name).isSome then some (Environment.enclosed a p) else p.nearest h name := by
  simp only [Environment.nearest, Environment.ancestors, List.find?, Environment.frame]
  cases h.stores a name <;> rfl

theorem nearest_binds (h : Heap) (e f : Environment) (name : String)
    (hf : e.nearest h name = some f) : (h.stores f.frame name).isSome = true := by
  have := List.find?_some hf
  simpa using this

theorem nearest_self (h : Heap) (f : Environment) (name : String)
    (hb : (h.stores f.frame name).isSome = true) : f.nearest h name = some f := by
  cases f with
  | root a => rw [nearest_root]; simp only [Environment.frame] at hb; simp [hb]
  | enclosed a p => rw [nearest_enclosed]; simp only [Environment.frame] at hb; simp [hb]

theorem nearest_eq_none_iff (h : Heap) (e : Environment) (name : String) :
    e.nearest h name = none ↔ ∀ a ∈ e.frames, h.stores a name = none := by
  simp [Environment.nearest, Environment.frames, List.find?_eq_none]

theorem nearest_congr (h h2 : Heap) (e : Environment) (name : String)
    (hs : ∀ a, (h2.stores a name).isSome = (h.stores a name).isSome) :
    e.nearest h2 name = e.nearest h name := by
  simp only [Environment.nearest, hs]

theorem Get_eq_nearestSlot (h : Heap) (e : Environment) (name : String) :
    e.Get h name =
      (match e.nearestSlot h name with
       | some s => (s.v, true)
       | none => (Object.nil, false)) := by
  induction e with
  | root a =>
    simp only [Environment.Get, Environment.nearestSlot, nearest_root]
    cases hs : h.stores a name <;> simp [hs, Environment.frame]
  | enclosed a p ih =>
    simp only [Environment.Get, Environment.nearestSlot, nearest_enclosed]
    cases hs : h.stores a name
    · simpa [hs, Environment.nearestSlot] using ih
    · simp [hs, Environment.frame]

theorem IsConst_eq_nearestSlot (h : Heap) (e : Environment) (name : String) :
    e.IsConst h name =
      (match e.nearestSlot h name with
       | some s => s.readonly
       | none => false) := by
  induction e with
  | root a =>
    simp only [Environment.IsConst, Environment.nearestSlot, nearest_root]
    cases hs : h.stores a name <;> simp [hs, Environment.frame]
  | enclosed a p ih =>
    simp only [Environment.IsConst, Environment.nearestSlot, nearest_enclosed]
    cases hs : h.stores a name
    · simpa [hs, Environment.nearestSlot] using ih
    · simp [hs, Environment.frame]

theorem Set_eq_of_nearest (h : Heap) (e f : Environment) (name : String) (w : Object) (s : eco)
    (hf : e.nearest h name = some f) (hs : h.stores f.frame name = some s) :
    e.Set h name w =
      if s.readonly then (Except.error EnvError.constError, h)
      else (Except.ok w, h.setSlot f.frame name ⟨w, s.readonly⟩) := by
  induction e with
  | root a =>
    rw [nearest_root] at hf
    cases ha : h.stores a name with
    | none => simp [ha] at hf
    | some v =>
      simp only [ha, Option.isSome_some, if_true, Option.some.injEq] at hf
      subst hf
      simp only [Environment.frame] at hs
      rw [ha] at hs
      cases hs
      simp [Environment.Set, ha, Environment.frame]
  | enclosed a p ih =>
    rw [nearest_enclosed] at hf
    cases ha : h.stores a name with
    | none =>
      simp only [ha, Option.isSome_none, Bool.false_eq_true, if_false] at hf
      simpa [Environment.Set, ha] using ih hf
    | some v =>
      simp only [ha, Option.isSome_some, if_true, Option.some.injEq] at hf
      subst hf
      simp only [Environment.frame] at hs
      rw [ha] at hs
      cases hs
      simp [Environment.Set, ha, Environment.frame]

theorem Set_eq_of_unbound (h : Heap) (e : Environment) (name : String) (w : Object)
    (hn : e.nearest h name = none) :
    e.Set h name w = (Except.error EnvError.errNotDefined, h) := by
  induction e with
  | root a =>
    rw [nearest_root] at hn
    cases ha : h.stores a name with
    | none => simp [Environment.Set, ha]
    | some v => simp [ha] at hn
  | enclosed a p ih =>
    rw [nearest_enclosed] at hn
    cases ha : h.stores a name with
    | none =>
      simp only [ha, Option.isSome_none, Bool.false_eq_true, if_false] at hn
      simpa [Environment.Set, ha] using ih hn
    | some v => simp [ha] at hn

theorem setSlot_stores_same (h : Heap) (a : Nat) (name : String) (slot : eco) :
    (h.setSlot a name slot).stores a name = some slot := by
  simp [Heap.setSlot]

theorem setSlot_stores_other (h : Heap) (a : Nat) (name : String) (slot : eco) (b : Nat) (n : String)
    (hne : b ≠ a ∨ n ≠ name) : (h.setSlot a name slot).stores b n = h.stores b n := by
  simp only [Heap.setSlot]
  by_cases hb : b = a
  · subst hb
    rcases hne with hne | hne
    · exact absurd rfl hne
    · simp [hne]
  · simp [hb]

theorem Get_setSlot_nearest (h : Heap) (e f : Environment) (name : String) (slot : eco)
    (hf : e.nearest h name = some f) :
    e.Get (h.setSlot f.frame name slot) name = (slot.v, true) := by
  have hb := nearest_binds h e f name hf
  have hcongr : e.nearest (h.setSlot f.frame name slot) name = e.nearest h name := by
    apply nearest_congr
    intro a
    by_cases ha : a = f.frame
    · subst ha
      rw [setSlot_stores_same, hb]
      rfl
    · rw [setSlot_stores_other h f.frame name slot a name (Or.inl ha)]
  rw [Get_eq_nearestSlot]
  simp [Environment.nearestSlot, hcongr, hf, setSlot_stores_same]

theorem Get_congr (h h2 : Heap) (e : Environment) (name : String)
    (hs : ∀ a ∈ e.frames, h2.stores a name = h.stores a name) :
    e.Get h2 name = e.Get h name := by
  induction e with
  | root a =>
    have := hs a (by simp [Environment.frames, Environment.ancestors, Environment.frame])
    simp [Environment.Get, this]
  | enclosed a p ih =>
    have ha := hs a (by simp [Environment.frames, Environment.ancestors, Environment.frame])
    have hp : ∀ b ∈ p.frames, h2.stores b name = h.stores b name := by
      intro b hb
      apply hs
      simp only [Environment.frames, Environment.ancestors, List.map_cons, List.mem_cons]
      right
      exact hb
    simp [Environment.Get, ha, ih hp]

/-- C7: `Get` returns the value of the innermost binding of the name on the chain that
starts at `e`, and reports not-found exactly when no frame of the chain binds the name;
`IsConst` returns the read-only flag of that same binding, and false without one. -/
theorem Get_and_IsConst_read_nearest_binding (h : Heap) (e : Environment) (name : String) :
    e.Get h name =
      (match e.nearestSlot h name with
       | some s => (s.v, true)
       | none => (Object.nil, false)) ∧
    ((e.Get h name).2 = false ↔ ∀ a ∈ e.frames, h.stores a name = none) ∧
    e.IsConst h name =
      (match e.nearestSlot h name with
       | some s => s.readonly
       | none => false) := by
  refine ⟨Get_eq_nearestSlot h e name, ?_, IsConst_eq_nearestSlot h e name⟩
  rw [← nearest_eq_none_iff, Get_eq_nearestSlot]
  cases hn : e.nearest h name with
  | none => simp [Environment.nearestSlot, hn]
  | some f =>
    have hb := nearest_binds h e f name hn
    cases hs : h.stores f.frame name with
    | none => simp [hs] at hb
    | some s => simp [Environment.nearestSlot, hn, hs]

theorem Set_preserves_slot (h : Heap) (a : Nat) (name : String) (v : Object)
    (hinv : h.stores a name = some ⟨v, true⟩) (e2 : Environment) (n : String) (w : Object) :
    (e2.Set h n w).2.stores a name = some ⟨v, true⟩ := by
  cases hn : e2.nearest h n with
  | none => rw [Set_eq_of_unbound h e2 n w hn]; exact hinv
  | some f =>
    have hb := nearest_binds h e2 f n hn
    cases hs : h.stores f.frame n with
    | none => simp [hs] at hb
    | some s =>
      rw [Set_eq_of_nearest h e2 f n w s hn hs]
      cases hr : s.readonly with
      | true => simpa using hinv
      | false =>
        simp only [Bool.false_eq_true, if_false]
        rw [setSlot_stores_other, hinv]
        by_contra hcon
        push_neg at hcon
        obtain ⟨h1, h2⟩ := hcon
        subst h1
        subst h2
        rw [hinv] at hs
        cases hs
        cases hr

theorem SetLocal_preserves_slot (h : Heap) (a : Nat) (name : String) (v : Object)
    (hinv : h.stores a name = some ⟨v, true⟩) (e2 : Environment) (n : String) (w : Object) :
    (e2.SetLocal h n w).2.stores a name = some ⟨v, true⟩ := by
  unfold Environment.SetLocal
  cases hs : h.stores e2.frame n with
  | none => exact hinv
  | some s =>
    cases hr : s.readonly with
    | true => simpa [hr] using hinv
    | false =>
      simp only [hr, Bool.false_eq_true, if_false]
      rw [setSlot_stores_other, hinv]
      by_contra hcon
      push_neg at hcon
      obtain ⟨h1, h2⟩ := hcon
      subst h1
      subst h2
      rw [hinv] at hs
      cases hs
      cases hr

theorem Create_preserves_slot (h : Heap) (a : Nat) (name : String) (s0 : eco)
    (hinv : h.stores a name = some s0) (e2 : Environment) (n : String) (w : Object) :
    (e2.Create h n w).2.stores a name = some s0 := by
  unfold Environment.Create
  cases hs : h.stores e2.frame n with
  | some s => exact hinv
  | none =>
    simp only
    rw [setSlot_stores_other, hinv]
    by_contra hcon
    push_neg at hcon
    obtain ⟨h1, h2⟩ := hcon
    subst h1
    subst h2
    rw [hinv] at hs
    cases hs

theorem CreateConst_preserves_slot (h : Heap) (a : Nat) (name : String) (s0 : eco)
    (hinv : h.stores a name = some s0) (e2 : Environment) (n : String) (w : Object) :
    (e2.CreateConst h n w).2.stores a name = some s0 := by
  unfold Environment.CreateConst
  cases hs : h.stores e2.frame n with
  | some s => exact hinv
  | none =>
    simp only
    rw [setSlot_stores_other, hinv]
    by_contra hcon
    push_neg at hcon
    obtain ⟨h1, h2⟩ := hcon
    subst h1
    subst h2
    rw [hinv] at hs
    cases hs

theorem runCalls_preserves_const (calls : List EnvCall) (h : Heap) (a : Nat) (name : String)
    (v : Object) (hinv : h.stores a name = some ⟨v, true⟩) :
    (runCalls h calls).stores a name = some ⟨v, true⟩ := by
  induction calls generalizing h with
  | nil => exact hinv
  | cons c cs ih =>
    apply ih
    cases c with
    | Create e2 n w => exact Create_preserves_slot h a name _ hinv e2 n w
    | CreateConst e2 n w => exact CreateConst_preserves_slot h a name _ hinv e2 n w
    | Set e2 n w => exact Set_preserves_slot h a name v hinv e2 n w
    | SetLocal e2 n w => exact SetLocal_preserves_slot h a name v hinv e2 n w

/-- C4: when the innermost binding of the name, seen from `e`, is a non-constant slot of
frame `f`, `Set` succeeds, writes the value into that slot of `f` and changes no other
slot of any frame (nor any array or hash), and afterwards `Get` from `e` and from `f`
both return the new value; when no frame of the chain binds the name, `Set` fails with
`errNotDefined` and the heap is unchanged. -/
theorem Set_writes_nearest_binding (h : Heap) (e : Environment) (name : String) (w : Object) :
    (∀ (f : Environment) (old : Object), e.nearest h name = some f →
        h.stores f.frame name = some ⟨old, false⟩ →
        e.Set h name w = (Except.ok w, h.setSlot f.frame name ⟨w, false⟩) ∧
        (e.Set h name w).2.stores f.frame name = some ⟨w, false⟩ ∧
        (∀ (a : Nat) (n : String), (a ≠ f.frame ∨ n ≠ name) →
          (e.Set h name w).2.stores a n = h.stores a n) ∧
        (e.Set h name w).2.arrays = h.arrays ∧
        (e.Set h name w).2.hashes = h.hashes ∧
        e.Get (e.Set h name w).2 name = (w, true) ∧
        f.Get (e.Set h name w).2 name = (w, true)) ∧
    ((∀ a ∈ e.frames, h.stores a name = none) →
        e.Set h name w = (Except.error EnvError.errNotDefined, h)) := by
  constructor
  · intro f old hf hs
    have hset : e.Set h name w = (Except.ok w, h.setSlot f.frame name ⟨w, false⟩) := by
      rw [Set_eq_of_nearest h e f name w ⟨old, false⟩ hf hs]
      simp
    have hself : f.nearest h name = some f := nearest_self h f name (by simp [hs])
    refine ⟨hset, ?_, ?_, ?_, ?_, ?_, ?_⟩
    · rw [hset]; exact setSlot_stores_same _ _ _ _
    · intro a n hne
      rw [hset]; exact setSlot_stores_other _ _ _ _ _ _ hne
    · rw [hset]; rfl
    · rw [hset]; rfl
    · rw [hset]; exact Get_setSlot_nearest h e f name ⟨w, false⟩ hf
    · rw [hset]; exact Get_setSlot_nearest h f f name ⟨w, false⟩ hself
  · intro hnone
    exact Set_eq_of_unbound h e name w ((nearest_eq_none_iff h e name).2 hnone)

/-- C4 (instance): assigning 2 to `x` through the inner environment writes the slot of
the root frame, and both environments then read 2. -/
theorem Set_writes_nearest_binding_witness :
    innerEnv.Set scopeHeap "x" (Object.Integer 2)
        = (Except.ok (Object.Integer 2), scopeHeap.setSlot rootEnv.frame "x" ⟨Object.Integer 2, false⟩) ∧
    innerEnv.Get (innerEnv.Set scopeHeap "x" (Object.Integer 2)).2 "x" = (Object.Integer 2, true) ∧
    rootEnv.Get (innerEnv.Set scopeHeap "x" (Object.Integer 2)).2 "x" = (Object.Integer 2, true) ∧
    innerEnv.Set scopeHeap "y" (Object.Integer 2) = (Except.error EnvError.errNotDefined, scopeHeap) := by
  have hw := Set_writes_nearest_binding scopeHeap innerEnv "x" (Object.Integer 2)
  have hy := Set_writes_nearest_binding scopeHeap innerEnv "y" (Object.Integer 2)
  have h1 := hw.1 rootEnv (Object.Integer 1) rfl rfl
  refine ⟨h1.1, h1.2.2.2.2.2.1, h1.2.2.2.2.2.2, hy.2 ?_⟩
  intro a ha
  simp only [Environment.frames, innerEnv, rootEnv, NewEnclosedEnv, NewEnvironment, emptyHeap,
    Environment.ancestors, Environment.frame, List.map_cons, List.map_nil, List.mem_cons,
    List.mem_singleton, List.not_mem_nil, or_false] at ha
  rcases ha with ha | ha <;> subst ha <;> rfl

/-- C5: once `CreateConst` has succeeded on a frame, then after any further calls of
`Create`, `CreateConst`, `Set` and `SetLocal`: every `Set` of the name that resolves to
the frame and every `SetLocal` on it fail with `constError`, every `Create` and
`CreateConst` of the name on it fail with `errAlreadyDefined`, each of these calls
leaves the heap unchanged, and `Get` still returns the value and `IsConst` is true. -/
theorem CreateConst_binding_is_frozen (h : Heap) (e : Environment) (name : String) (v : Object)
    (hc : (e.CreateConst h name v).1 = Except.ok v) (calls : List EnvCall) :
    (∀ (e2 f : Environment) (w : Object),
        e2.nearest (runCalls (e.CreateConst h name v).2 calls) name = some f → f.frame = e.frame →
        e2.Set (runCalls (e.CreateConst h name v).2 calls) name w
          = (Except.error EnvError.constError, runCalls (e.CreateConst h name v).2 calls)) ∧
    (∀ (e2 : Environment) (w : Object), e2.frame = e.frame →
        e2.SetLocal (runCalls (e.CreateConst h name v).2 calls) name w
          = (Except.error EnvError.constError, runCalls (e.CreateConst h name v).2 calls)) ∧
    (∀ (e2 : Environment) (w : Object), e2.frame = e.frame →
        e2.Create (runCalls (e.CreateConst h name v).2 calls) name w
          = (Except.error EnvError.errAlreadyDefined, runCalls (e.CreateConst h name v).2 calls)) ∧
    (∀ (e2 : Environment) (w : Object), e2.frame = e.frame →
        e2.CreateConst (runCalls (e.CreateConst h name v).2 calls) name w
          = (Except.error EnvError.errAlreadyDefined, runCalls (e.CreateConst h name v).2 calls)) ∧
    e.Get (runCalls (e.CreateConst h name v).2 calls) name = (v, true) ∧
    e.IsConst (runCalls (e.CreateConst h name v).2 calls) name = true := by
  have h1 : (e.CreateConst h name v).2.stores e.frame name = some ⟨v, true⟩ := by
    unfold Environment.CreateConst at hc ⊢
    cases hs : h.stores e.frame name with
    | some s => simp [hs] at hc
    | none => simp [setSlot_stores_same]
  have hinv := runCalls_preserves_const calls _ e.frame name v h1
  generalize runCalls (e.CreateConst h name v).2 calls = h2 at hinv
  have hself : e.nearest h2 name = some e := nearest_self h2 e name (by simp [hinv])
  refine ⟨?_, ?_, ?_, ?_, ?_, ?_⟩
  · intro e2 f w hf hfe
    rw [Set_eq_of_nearest h2 e2 f name w ⟨v, true⟩ hf (by rw [hfe]; exact hinv)]
    simp
  · intro e2 w he
    simp [Environment.SetLocal, he, hinv]
  · intro e2 w he
    simp [Environment.Create, he, hinv]
  · intro e2 w he
    simp [Environment.CreateConst, he, hinv]
  · rw [Get_eq_nearestSlot]
    simp [Environment.nearestSlot, hself, hinv]
  · rw [IsConst_eq_nearestSlot]
    simp [Environment.nearestSlot, hself, hinv]

/-- C5 (instance): after `const K = 7` in the root frame and an attempted assignment
through the inner environment, `K` is still 7 and constant, and assignment and
redefinition fail. -/
theorem CreateConst_binding_is_frozen_witness :
    innerEnv.Set (runCalls (rootEnv.CreateConst scopeHeap "K" (Object.Integer 7)).2
          [EnvCall.Set innerEnv "K" (Object.Integer 8)]) "K" (Object.Integer 9)
      = (Except.error EnvError.constError,
          runCalls (rootEnv.CreateConst scopeHeap "K" (Object.Integer 7)).2
            [EnvCall.Set innerEnv "K" (Object.Integer 8)]) ∧
    rootEnv.Get (runCalls (rootEnv.CreateConst scopeHeap "K" (Object.Integer 7)).2
          [EnvCall.Set innerEnv "K" (Object.Integer 8)]) "K" = (Object.Integer 7, true) ∧
    rootEnv.IsConst (runCalls (rootEnv.CreateConst scopeHeap "K" (Object.Integer 7)).2
          [EnvCall.Set innerEnv "K" (Object.Integer 8)]) "K" = true := by
  have hw := CreateConst_binding_is_frozen scopeHeap rootEnv "K" (Object.Integer 7) rfl
    [EnvCall.Set innerEnv "K" (Object.Integer 8)]
  exact ⟨hw.1 innerEnv rootEnv (Object.Integer 9) rfl rfl, hw.2.2.2.2.1, hw.2.2.2.2.2⟩

/-- C6: `Create` succeeds exactly when the name is not bound in the frame of `e` itself,
whatever the enclosing frames bind.  On success only that slot of that frame is written,
as a non-constant binding, `Get` on `e` returns the value, and `Get` on the enclosing
environment returns what it returned before; on failure the heap is unchanged. -/
theorem Create_defines_in_local_frame_only (h : Heap) (e : Environment) (name : String) (v : Object) :
    ((e.Create h name v).1 = Except.ok v ↔ h.stores e.frame name = none) ∧
    (h.stores e.frame name = none →
        e.Create h name v = (Except.ok v, h.setSlot e.frame name ⟨v, false⟩) ∧
        (∀ (a : Nat) (n : String), (a ≠ e.frame ∨ n ≠ name) →
          (e.Create h name v).2.stores a n = h.stores a n) ∧
        (e.Create h name v).2.arrays = h.arrays ∧
        (e.Create h name v).2.hashes = h.hashes ∧
        e.Get (e.Create h name v).2 name = (v, true) ∧
        e.IsConst (e.Create h name v).2 name = false ∧
        (∀ p : Environment, e.Parent = some p → e.frame ∉ p.frames →
          p.Get (e.Create h name v).2 name = p.Get h name)) ∧
    (h.stores e.frame name ≠ none →
        e.Create h name v = (Except.error EnvError.errAlreadyDefined, h)) := by
  refine ⟨?_, ?_, ?_⟩
  · unfold Environment.Create
    cases hs : h.stores e.frame name <;> simp
  · intro hs
    have hcreate : e.Create h name v = (Except.ok v, h.setSlot e.frame name ⟨v, false⟩) := by
      simp [Environment.Create, hs]
    have hsame := setSlot_stores_same h e.frame name ⟨v, false⟩
    have hself : e.nearest (h.setSlot e.frame name ⟨v, false⟩) name = some e :=
      nearest_self _ e name (by simp [hsame])
    refine ⟨hcreate, ?_, ?_, ?_, ?_, ?_, ?_⟩
    · intro a n hne
      rw [hcreate]; exact setSlot_stores_other _ _ _ _ _ _ hne
    · rw [hcreate]; rfl
    · rw [hcreate]; rfl
    · rw [hcreate, Get_eq_nearestSlot]
      simp [Environment.nearestSlot, hself, hsame]
    · rw [hcreate, IsConst_eq_nearestSlot]
      simp [Environment.nearestSlot, hself, hsame]
    · intro p _ hp
      rw [hcreate]
      apply Get_congr
      intro a ha
      apply setSlot_stores_other
      left
      intro hae
      exact hp (hae ▸ ha)
  · intro hs
    unfold Environment.Create
    cases hs2 : h.stores e.frame name with
    | none => exact absurd hs2 hs
    | some s => rfl

/-- C6 (instance): defining `x` in the inner frame succeeds although the root frame binds
`x`; the inner environment then reads 5 and the root environment still reads 1. -/
theorem Create_defines_in_local_frame_only_witness :
    innerEnv.Create scopeHeap "x" (Object.Integer 5)
      = (Except.ok (Object.Integer 5), scopeHeap.setSlot innerEnv.frame "x" ⟨Object.Integer 5, false⟩) ∧
    innerEnv.Get (innerEnv.Create scopeHeap "x" (Object.Integer 5)).2 "x" = (Object.Integer 5, true) ∧
    rootEnv.Get (innerEnv.Create scopeHeap "x" (Object.Integer 5)).2 "x" = rootEnv.Get scopeHeap "x" ∧
    rootEnv.Create scopeHeap "x" (Object.Integer 5) = (Except.error EnvError.errAlreadyDefined, scopeHeap) := by
  have hw := Create_defines_in_local_frame_only scopeHeap innerEnv "x" (Object.Integer 5)
  have hr := Create_defines_in_local_frame_only scopeHeap rootEnv "x" (Object.Integer 5)
  have h1 := hw.2.1 rfl
  refine ⟨h1.1, h1.2.2.2.2.1, h1.2.2.2.2.2.2 rootEnv rfl (by decide), hr.2.2 ?_⟩
  intro hcon
  have : (scopeHeap.stores rootEnv.frame "x").isSome = true := rfl
  rw [hcon] at this
  cases this

/-! ## Definitions and assignments -/

theorem Get_setSlot_local (h : Heap) (e : Environment) (name : String) (slot : eco) :
    e.Get (h.setSlot e.frame name slot) name = (slot.v, true) := by
  cases e <;> simp [Environment.Get, Heap.setSlot, Environment.frame]

theorem SetOrDefine_of_unbound (h : Heap) (e : Environment) (name : String) (w : Object)
    (hn : e.nearest h name = none) :
    e.SetOrDefine h name w = (Except.ok w, h.setSlot e.frame name ⟨w, false⟩) := by
  simp only [Environment.SetOrDefine, Set_eq_of_unbound h e name w hn]

theorem literalValue_eval (host : Host) (fuel : Nat) (lit : Node) (v : Object) (env : Environment)
    (h : Heap) (hv : literalValue lit = some v) :
    Eval host (fuel + 1) lit env h = Except.ok (v, h) ∧ isError v = false ∧
    (∀ id value, v ≠ Object.ReturnValue id value) := by
  cases lit <;> simp only [literalValue, Option.some.injEq, reduceCtorEq] at hv
  all_goals subst hv
  · exact ⟨rfl, rfl, fun _ _ hc => by cases hc⟩
  · exact ⟨rfl, rfl, fun _ _ hc => by cases hc⟩
  · exact ⟨rfl, rfl, fun _ _ hc => by cases hc⟩
  · exact ⟨rfl, rfl, fun _ _ hc => by cases hc⟩
  · rename_i value
    cases value <;> exact ⟨rfl, rfl, fun _ _ hc => by cases hc⟩

/-- C8: let `x` be a name that is not a builtin and that no frame of the chain of the
environment binds, and let the literal `lit` denote the value `v`.  Then `def x = lit`
evaluates to null and leaves the heap in which the local frame holds a slot for `x`
with the value `v`, not read-only; the identifier `x`, evaluated in the same environment
on that heap, yields `v`; and the program of the definition followed by the identifier
yields `v`. -/
theorem def_then_ident_yields_value (host : Host) (fuel : Nat) (x : String) (lit : Node)
    (v : Object) (env : Environment) (h : Heap) (hb : host.isBuiltin x = false)
    (hun : ∀ a ∈ env.frames, h.stores a x = none) (hv : literalValue lit = some v) :
    Eval host (fuel + 2) (Node.DefStatement x lit false) env h
      = Except.ok (NULL, h.setSlot env.frame x ⟨v, false⟩) ∧
    Eval host (fuel + 1) (Node.Identifier x) env (h.setSlot env.frame x ⟨v, false⟩)
      = Except.ok (v, h.setSlot env.frame x ⟨v, false⟩) ∧
    Eval host (fuel + 3) (Node.Program [Node.DefStatement x lit false, Node.Identifier x]) env h
      = Except.ok (v, h.setSlot env.frame x ⟨v, false⟩) := by
  have hn := (nearest_eq_none_iff h env x).2 hun
  have hconst : env.IsConst h x = false := by
    rw [IsConst_eq_nearestSlot]
    simp [Environment.nearestSlot, hn]
  obtain ⟨hlit, hne, hnr⟩ := literalValue_eval host fuel lit v env h hv
  have hdef : Eval host (fuel + 2) (Node.DefStatement x lit false) env h
      = Except.ok (NULL, h.setSlot env.frame x ⟨v, false⟩) := by
    show evalNode host (Eval host (fuel + 1)) (Node.DefStatement x lit false) env h = _
    simp only [evalNode, assignIdentValue, hb, hconst, hlit, hne, Bool.false_eq_true, if_false,
      Bool.not_true, Bool.false_and, SetOrDefine_of_unbound h env x v hn, bind, Except.bind]
  have hid : ∀ k, Eval host (k + 1) (Node.Identifier x) env (h.setSlot env.frame x ⟨v, false⟩)
      = Except.ok (v, h.setSlot env.frame x ⟨v, false⟩) := by
    intro k
    show evalNode host (Eval host k) (Node.Identifier x) env _ = _
    simp only [evalNode, evalIdent, Get_setSlot_local, if_true]
  refine ⟨hdef, hid fuel, ?_⟩
  have hstep : Eval host (fuel + 3)
      (Node.Program [Node.DefStatement x lit false, Node.Identifier x]) env h
      = evalProgramLoop (Eval host (fuel + 2)) env
          [Node.DefStatement x lit false, Node.Identifier x] Object.nil h := rfl
  rw [hstep]
  simp only [evalProgramLoop, hdef, hid (fuel + 1), bind, Except.bind, NULL]
  cases v with
  | ReturnValue id value => exact absurd rfl (hnr id value)
  | Error message => simp [isError] at hne
  | _ => rfl

/-- C8 (instance): `def x = 5` followed by `x` in a fresh root environment yields 5. -/
theorem def_then_ident_yields_value_witness :
    Eval testHost 2 (Node.DefStatement "x" (Node.IntegerLiteral 5) false) rootEnv rootHeap
      = Except.ok (NULL, rootHeap.setSlot rootEnv.frame "x" ⟨Object.Integer 5, false⟩) ∧
    Eval testHost 1 (Node.Identifier "x") rootEnv
        (rootHeap.setSlot rootEnv.frame "x" ⟨Object.Integer 5, false⟩)
      = Except.ok (Object.Integer 5,
          rootHeap.setSlot rootEnv.frame "x" ⟨Object.Integer 5, false⟩) ∧
    Eval testHost 3
        (Node.Program [Node.DefStatement "x" (Node.IntegerLiteral 5) false, Node.Identifier "x"])
        rootEnv rootHeap
      = Except.ok (Object.Integer 5,
          rootHeap.setSlot rootEnv.frame "x" ⟨Object.Integer 5, false⟩) :=
  def_then_ident_yields_value testHost 0 "x" (Node.IntegerLiteral 5) (Object.Integer 5) rootEnv
    rootHeap rfl (by
      intro a _
      simp only [rootHeap, NewEnvironment, emptyHeap]
      split <;> rfl) rfl

/-- C9: for a plain assignment to a name that is not a builtin, if no frame of the chain
binds the name the evaluator returns the error `Assignment to uninitialized variable`
followed by the name, and if the innermost binding is a constant it returns the error
`Assignment to declared constant` followed by the name; in both cases the heap is
unchanged and the result does not depend on the right-hand side, which is not evaluated
(one unit of fuel suffices). -/
theorem assignment_to_unbound_or_constant_fails (host : Host) (fuel : Nat) (x : String) (e : Node)
    (env : Environment) (h : Heap) (hb : host.isBuiltin x = false) :
    ((∀ a ∈ env.frames, h.stores a x = none) →
      Eval host (fuel + 1) (Node.AssignStatement (Node.Identifier x) e) env h
        = Except.ok (Object.Error ("Assignment to uninitialized variable " ++ x), h)) ∧
    (∀ (f : Environment) (c : Object), env.nearest h x = some f →
      h.stores f.frame x = some ⟨c, true⟩ →
      Eval host (fuel + 1) (Node.AssignStatement (Node.Identifier x) e) env h
        = Except.ok (Object.Error ("Assignment to declared constant " ++ x), h)) := by
  constructor
  · intro hnone
    have hn := (nearest_eq_none_iff h env x).2 hnone
    have hget : env.Get h x = (Object.nil, false) := by
      rw [Get_eq_nearestSlot]
      simp [Environment.nearestSlot, hn]
    simp [Eval, evalNode, evalAssignment, assignIdentValue, hb, hget, newError]
  · intro f c hf hs
    have hget : env.Get h x = (c, true) := by
      rw [Get_eq_nearestSlot]
      simp [Environment.nearestSlot, hf, hs]
    have hconst : env.IsConst h x = true := by
      rw [IsConst_eq_nearestSlot]
      simp [Environment.nearestSlot, hf, hs]
    simp [Eval, evalNode, evalAssignment, assignIdentValue, hb, hget, hconst, newError]

/-- C9 (instance): `y = 1/0` with `y` unbound, and `PI = 4` with `PI` constant. -/
theorem assignment_to_unbound_or_constant_fails_witness :
    Eval testHost 1
        (Node.AssignStatement (Node.Identifier "y")
          (Node.InfixExpression (Node.IntegerLiteral 1) "/" (Node.IntegerLiteral 0)))
        rootEnv rootHeap
      = Except.ok (Object.Error ("Assignment to uninitialized variable " ++ "y"), rootHeap) ∧
    Eval testHost 1 (Node.AssignStatement (Node.Identifier "PI") (Node.IntegerLiteral 4))
        rootEnv constHeap
      = Except.ok (Object.Error ("Assignment to declared constant " ++ "PI"), constHeap) := by
  constructor
  · refine (assignment_to_unbound_or_constant_fails testHost 0 "y" _ rootEnv rootHeap rfl).1 ?_
    intro a _
    simp only [rootHeap, NewEnvironment, emptyHeap]
    split <;> rfl
  · exact (assignment_to_unbound_or_constant_fails testHost 0 "PI" _ rootEnv constHeap rfl).2
      rootEnv (Object.Integer 3) rfl rfl

/-- C10 (the code at the failing input): for the array `[1, 2, 3]` and the index 5,
`assignArrayIndex` returns the error `Index out of bounds: 5`, but evaluating the
assignment `[1, 2, 3][5] = 9` returns null, because `assignIndexedValue` drops that
result; the array is left unchanged. -/
theorem assign_index_out_of_bounds_returns_null :
    valueOf (assignArrayIndex testHost (Eval testHost 1) 1 (Object.Integer 5) (Node.IntegerLiteral 9)
        rootEnv arrayHeap)
      = Except.ok (Object.Error "Index out of bounds: 5") ∧
    valueOf (Eval testHost 3
        (Node.AssignStatement
          (Node.IndexExpression
            (Node.Array [Node.IntegerLiteral 1, Node.IntegerLiteral 2, Node.IntegerLiteral 3])
            (Node.IntegerLiteral 5))
          (Node.IntegerLiteral 9))
        rootEnv rootHeap)
      = Except.ok NULL ∧
    (Eval testHost 3
        (Node.AssignStatement
          (Node.IndexExpression
            (Node.Array [Node.IntegerLiteral 1, Node.IntegerLiteral 2, Node.IntegerLiteral 3])
            (Node.IntegerLiteral 5))
          (Node.IntegerLiteral 9))
        rootEnv rootHeap).map (fun r => r.2.arrays 1)
      = Except.ok [Object.Integer 1, Object.Integer 2, Object.Integer 3] := by
  refine ⟨?_, ?_, ?_⟩ <;> rfl

/-! ## Array indexing and return markers -/

theorem wrapIndex_nonneg (n i : Int) (h0 : 0 ≤ i) (h1 : i < n) :
    Int.tmod (Int.tmod i n + n) n = i := by
  rw [Int.tmod_eq_of_lt h0 h1, Int.tmod_eq_emod (by omega) (by omega), Int.add_emod_self]
  exact Int.emod_eq_of_lt h0 h1

theorem wrapIndex_neg (n : Nat) (i : Int) (h1 : -(n : Int) ≤ i) (h2 : i < 0) :
    Int.tmod (Int.tmod i n + n) n = n + i := by
  obtain ⟨m, rfl⟩ := Int.eq_negSucc_of_lt_zero h2
  have hm : m + 1 ≤ n := by
    have : (Int.negSucc m) = -((m : Int) + 1) := rfl
    omega
  have ht : Int.tmod (Int.negSucc m) (n : Int) = -(((m + 1) % n : Nat) : Int) := rfl
  rw [ht]
  have hneg : (Int.negSucc m) = -((m : Int) + 1) := rfl
  rcases Nat.lt_or_eq_of_le hm with hlt | heq
  · rw [Nat.mod_eq_of_lt hlt]
    rw [Int.tmod_eq_of_lt (by push_cast; omega) (by push_cast; omega)]
    rw [hneg]
    push_cast
    omega
  · rw [heq, Nat.mod_self]
    simp only [Nat.cast_zero, neg_zero, zero_add, Int.tmod_self]
    rw [hneg]
    omega

/-- C11: `evalArrayIndexExpression` never indexes out of range; for an index `i` with
`-n <= i <= n-1`, where `n` is the length of the array, it returns the element at
position `((i % n) + n) % n` (Go remainder), and for every other index it returns null. -/
theorem evalArrayIndexExpression_wraps_index (h : Heap) (a : Nat) (i : Int) :
    evalArrayIndexExpression (Object.Array a) (Object.Integer i) h
      ≠ Except.error Fault.indexOutOfRange ∧
    (-((h.arrays a).length : Int) ≤ i ∧ i ≤ ((h.arrays a).length : Int) - 1 →
      ∃ x, (h.arrays a)[(Int.tmod (Int.tmod i (h.arrays a).length + (h.arrays a).length)
              (h.arrays a).length).toNat]? = some x ∧
        evalArrayIndexExpression (Object.Array a) (Object.Integer i) h = Except.ok x) ∧
    (¬(-((h.arrays a).length : Int) ≤ i ∧ i ≤ ((h.arrays a).length : Int) - 1) →
      evalArrayIndexExpression (Object.Array a) (Object.Integer i) h = Except.ok NULL) := by
  generalize hxs : h.arrays a = xs
  have key : (-(xs.length : Int) ≤ i ∧ i ≤ (xs.length : Int) - 1 →
      ∃ x, xs[(Int.tmod (Int.tmod i xs.length + xs.length) xs.length).toNat]? = some x ∧
        evalArrayIndexExpression (Object.Array a) (Object.Integer i) h = Except.ok x) ∧
    (¬(-(xs.length : Int) ≤ i ∧ i ≤ (xs.length : Int) - 1) →
      evalArrayIndexExpression (Object.Array a) (Object.Integer i) h = Except.ok NULL) := by
    constructor
    · rintro ⟨hlo, hhi⟩
      by_cases hneg : i < 0
      · have hk := wrapIndex_neg xs.length i hlo hneg
        have hlt : ((xs.length : Int) + i).toNat < xs.length := by omega
        refine ⟨xs[((xs.length : Int) + i).toNat], ?_, ?_⟩
        · rw [hk, List.getElem?_eq_getElem hlt]
        · have h1 : ¬ (i > (xs.length : Int) - 1) := by omega
          have h2 : ¬ ((xs.length : Int) + i < 0) := by omega
          simp [evalArrayIndexExpression, hxs, h1, hneg, h2, List.getElem?_eq_getElem hlt]
      · have hk := wrapIndex_nonneg xs.length i (by omega) (by omega)
        have hlt : i.toNat < xs.length := by omega
        refine ⟨xs[i.toNat], ?_, ?_⟩
        · rw [hk, List.getElem?_eq_getElem hlt]
        · have h1 : ¬ (i > (xs.length : Int) - 1) := by omega
          simp [evalArrayIndexExpression, hxs, h1, hneg, List.getElem?_eq_getElem hlt]
    · intro hout
      by_cases hhi : i > (xs.length : Int) - 1
      · simp [evalArrayIndexExpression, hxs, hhi]
      · have hneg : i < 0 := by omega
        have h2 : (xs.length : Int) + i < 0 := by omega
        simp [evalArrayIndexExpression, hxs, hhi, hneg, h2]
  refine ⟨?_, key.1, key.2⟩
  by_cases hin : -(xs.length : Int) ≤ i ∧ i ≤ (xs.length : Int) - 1
  · obtain ⟨x, _, hx⟩ := key.1 hin
    rw [hx]
    intro hcon
    cases hcon
  · rw [key.2 hin]
    intro hcon
    cases hcon

/-- C11 (instance): in the array `[1, 2, 3]` the index -1 is in range and reads an
element, and the index 3 reads null. -/
theorem evalArrayIndexExpression_wraps_index_witness :
    (∃ x, (arrayHeap.arrays 1)[(Int.tmod (Int.tmod (-1) (arrayHeap.arrays 1).length
              + (arrayHeap.arrays 1).length) (arrayHeap.arrays 1).length).toNat]? = some x ∧
        evalArrayIndexExpression (Object.Array 1) (Object.Integer (-1)) arrayHeap = Except.ok x) ∧
    evalArrayIndexExpression (Object.Array 1) (Object.Integer 3) arrayHeap = Except.ok NULL :=
  ⟨(evalArrayIndexExpression_wraps_index arrayHeap 1 (-1)).2.1 (by decide),
   (evalArrayIndexExpression_wraps_index arrayHeap 1 3).2.2 (by decide)⟩

/-- C12 (the code at the failing input): a return statement whose operand is an
if-expression that itself returns wraps the value twice.  Both `evalProgram` on the
program `return if (true) { return 1 }` and `applyFunction` on a function with that body
strip one wrapper only and hand a `ReturnValue` to the caller. -/
theorem nested_return_marker_escapes :
    valueOf (Eval testHost 6
        (Node.Program [Node.ReturnStatement
          (Node.IfExpression (Node.Boolean true)
            (Node.BlockStatement [Node.ReturnStatement (Node.IntegerLiteral 1)]) none)])
        rootEnv rootHeap)
      = Except.ok (Object.ReturnValue 1 (Object.Integer 1)) ∧
    valueOf (applyFunction testHost (Eval testHost 6)
        (Object.Function 0 []
          (Node.BlockStatement [Node.ReturnStatement
            (Node.IfExpression (Node.Boolean true)
              (Node.BlockStatement [Node.ReturnStatement (Node.IntegerLiteral 1)]) none)])
          rootEnv)
        [] rootHeap)
      = Except.ok (Object.ReturnValue 2 (Object.Integer 1)) := by
  constructor <;> rfl

/-! ## The lexer: streams -/

theorem readRune_ofStream (s : List Char) (t : Token) :
    (Lexer.ofStream s t).readRune = Lexer.ofStream s.tail t := by
  rcases s with _ | ⟨a, _ | ⟨b, _ | ⟨c, s⟩⟩⟩ <;> rfl

theorem NewString_eq_ofStream (s : List Char) :
    NewString s = Lexer.ofStream s ⟨TokenType.other "", ""⟩ := by
  rcases s with _ | ⟨a, _ | ⟨b, s⟩⟩ <;> rfl

theorem curCh_ofStream_nil (t : Token) : (Lexer.ofStream [] t).curCh = NUL := rfl

theorem curCh_ofStream_cons (c : Char) (s : List Char) (t : Token) :
    (Lexer.ofStream (c :: s) t).curCh = c := rfl

theorem peekCh_ofStream_cons (c d : Char) (s : List Char) (t : Token) :
    (Lexer.ofStream (c :: d :: s) t).peekCh = d := rfl

theorem peekCh_ofStream_single (c : Char) (t : Token) :
    (Lexer.ofStream [c] t).peekCh = NUL := rfl

theorem lastToken_ofStream (s : List Char) (t : Token) :
    (Lexer.ofStream s t).lastToken = t := rfl

theorem finish_ofStream (s : List Char) (t tok : Token) :
    (Lexer.ofStream s t).finish tok = (tok, Lexer.ofStream s.tail tok) := by
  simp only [Lexer.finish, readRune_ofStream]
  rfl

theorem needSemicolon_ofStream (s : List Char) (t : Token) :
    (Lexer.ofStream s t).needSemicolon = endsExpression t.type := by
  simp only [Lexer.needSemicolon, Lexer.lastTokenWas, lastToken_ofStream]
  cases t.type <;> simp [endsExpression]

theorem notNewLine_and_isWhitespace (c : Char) :
    (decide (c ≠ '\n') && isWhitespace c) = isBlank c := by
  simp only [isWhitespace, isBlank]
  by_cases h3 : c = '\n'
  · subst h3
    decide
  · simp [h3]

theorem devourWhitespaceNotNewLine_ofStream (t : Token) (s : List Char) :
    ∀ fuel : Nat, (s.takeWhile isBlank).length < fuel →
      (Lexer.ofStream s t).devourWhitespaceNotNewLine fuel
        = Except.ok (Lexer.ofStream (s.dropWhile isBlank) t) := by
  induction s with
  | nil =>
    intro fuel hf
    obtain ⟨n, rfl⟩ : ∃ n, fuel = n + 1 := ⟨fuel - 1, by omega⟩
    simp [Lexer.devourWhitespaceNotNewLine, curCh_ofStream_nil, NUL, isWhitespace]
  | cons c s ih =>
    intro fuel hf
    obtain ⟨n, rfl⟩ : ∃ n, fuel = n + 1 := ⟨fuel - 1, by omega⟩
    by_cases hc : isBlank c = true
    · simp only [List.takeWhile_cons, hc, if_true, List.length_cons] at hf
      simp only [Lexer.devourWhitespaceNotNewLine, curCh_ofStream_cons, notNewLine_and_isWhitespace,
        hc, if_true, readRune_ofStream, List.tail_cons, List.dropWhile_cons]
      exact ih n (by omega)
    · have hc2 : isBlank c = false := by simpa using hc
      simp only [Lexer.devourWhitespaceNotNewLine, curCh_ofStream_cons, notNewLine_and_isWhitespace,
        hc2, List.dropWhile_cons]
      rfl

theorem devourWhitespace_ofStream (t : Token) (s : List Char) :
    ∀ fuel : Nat, (s.takeWhile isWhitespace).length < fuel →
      (Lexer.ofStream s t).devourWhitespace fuel
        = Except.ok (Lexer.ofStream (s.dropWhile isWhitespace) t) := by
  induction s with
  | nil =>
    intro fuel hf
    obtain ⟨n, rfl⟩ : ∃ n, fuel = n + 1 := ⟨fuel - 1, by omega⟩
    simp [Lexer.devourWhitespace, curCh_ofStream_nil, NUL, isWhitespace]
  | cons c s ih =>
    intro fuel hf
    obtain ⟨n, rfl⟩ : ∃ n, fuel = n + 1 := ⟨fuel - 1, by omega⟩
    by_cases hc : isWhitespace c = true
    · simp only [List.takeWhile_cons, hc, if_true, List.length_cons] at hf
      simp only [Lexer.devourWhitespace, curCh_ofStream_cons, hc, if_true,
        readRune_ofStream, List.tail_cons, List.dropWhile_cons]
      exact ih n (by omega)
    · simp [Lexer.devourWhitespace, curCh_ofStream_cons, hc, List.dropWhile_cons]

theorem dropWhile_blank_append (ws rest : List Char) (hws : ∀ c ∈ ws, isBlank c = true) :
    (ws ++ rest).dropWhile isBlank = rest.dropWhile isBlank := by
  induction ws with
  | nil => rfl
  | cons c ws ih =>
    have hc := hws c (List.mem_cons_self c ws)
    simp only [List.cons_append, List.dropWhile_cons, hc, if_true]
    exact ih (fun d hd => hws d (List.mem_cons_of_mem c hd))

theorem takeWhile_blank_append_length (ws rest : List Char) (hws : ∀ c ∈ ws, isBlank c = true) :
    ((ws ++ rest).takeWhile isBlank).length = ws.length + (rest.takeWhile isBlank).length := by
  induction ws with
  | nil => simp
  | cons c ws ih =>
    have hc := hws c (List.mem_cons_self c ws)
    simp only [List.cons_append, List.takeWhile_cons, hc, if_true, List.length_cons]
    rw [ih (fun d hd => hws d (List.mem_cons_of_mem c hd))]
    omega

theorem endsExpression_iff (ty : TokenType) :
    endsExpression ty = true ↔
      ty ∈ [TokenType.IDENT, TokenType.INT, TokenType.FLOAT, TokenType.STRING, TokenType.NULL,
        TokenType.RETURN, TokenType.RPAREN, TokenType.RSQUARE, TokenType.RBRACE] := by
  cases ty <;> simp [endsExpression]

theorem NextToken_at_newline (host : LexHost) (n : Nat) (ws r : List Char) (t : Token)
    (hws : ∀ c ∈ ws, isBlank c = true) (hfuel : ws.length < n + 1) :
    Lexer.NextToken host (n + 1) (Lexer.ofStream (ws ++ '\n' :: r) t) =
      if endsExpression t.type then Except.ok (semicolonToken, Lexer.ofStream r semicolonToken)
      else (Lexer.ofStream ('\n' :: r) t).devourWhitespace (n + 1) >>= Lexer.NextToken host n := by
  have hd : (ws ++ '\n' :: r).dropWhile isBlank = '\n' :: r := by
    rw [dropWhile_blank_append ws _ hws]
    rfl
  have ht : ((ws ++ '\n' :: r).takeWhile isBlank).length < n + 1 := by
    rw [takeWhile_blank_append_length ws _ hws]
    simpa [List.takeWhile_cons, isBlank] using hfuel
  simp only [Lexer.NextToken, Lexer.nextTokenSwitch, devourWhitespaceNotNewLine_ofStream t _ (n + 1) ht, hd, bind,
    Except.bind, curCh_ofStream_cons, if_true, needSemicolon_ofStream, finish_ofStream, List.tail_cons]
  cases endsExpression t.type <;> rfl

theorem NextToken_at_end (host : LexHost) (n : Nat) (ws : List Char) (t : Token)
    (hws : ∀ c ∈ ws, isBlank c = true) (hfuel : ws.length < n + 1) :
    Lexer.NextToken host (n + 1) (Lexer.ofStream ws t) =
      if endsExpression t.type then Except.ok (semicolonToken, Lexer.ofStream [] semicolonToken)
      else Except.ok (eofToken, Lexer.ofStream [] eofToken) := by
  have hd : ws.dropWhile isBlank = [] := by
    have := dropWhile_blank_append ws [] hws
    simpa using this
  have ht : (ws.takeWhile isBlank).length < n + 1 := by
    have := takeWhile_blank_append_length ws [] hws
    simp only [List.append_nil, List.takeWhile_nil, List.length_nil, Nat.add_zero] at this
    omega
  simp only [Lexer.NextToken, Lexer.nextTokenSwitch, devourWhitespaceNotNewLine_ofStream t _ (n + 1) ht, hd, bind,
    Except.bind, curCh_ofStream_nil, needSemicolon_ofStream, finish_ofStream, List.tail_nil]
  have h1 : ¬ (NUL = '\n') := by decide
  have h2 : ¬ (NUL = '+') := by decide
  have h3 : ¬ (NUL = '-') := by decide
  have h4 : ¬ (NUL = '*') := by decide
  have h5 : ¬ (NUL = '%') := by decide
  have h6 : ¬ (NUL = '/') := by decide
  have h7 : ¬ (NUL = '!') := by decide
  have h8 : ¬ (NUL = '=') := by decide
  have h9 : ¬ (NUL = '<') := by decide
  have h10 : ¬ (NUL = '>') := by decide
  have h11 : ¬ (NUL = ',') := by decide
  have h12 : ¬ (NUL = ';') := by decide
  have h13 : ¬ (NUL = ':') := by decide
  have h14 : ¬ (NUL = '(') := by decide
  have h15 : ¬ (NUL = ')') := by decide
  have h16 : ¬ (NUL = '{') := by decide
  have h17 : ¬ (NUL = '}') := by decide
  have h18 : ¬ (NUL = '[') := by decide
  have h19 : ¬ (NUL = ']') := by decide
  have h20 : ¬ (NUL = '"') := by decide
  have h21 : ¬ (NUL = '\'') := by decide
  have h22 : ¬ (NUL = '#') := by decide
  have h23 : ¬ (NUL = '\\') := by decide
  simp only [h1, h2, h3, h4, h5, h6, h7, h8, h9, h10, h11, h12, h13, h14, h15, h16, h17, h18, h19,
    h20, h21, h22, h23, if_false, if_true]
  cases endsExpression t.type <;> rfl

theorem NextToken_of_not_blank (host : LexHost) (n : Nat) (s : List Char) (t : Token)
    (hs : isBlank (s.headD NUL) = false) :
    Lexer.NextToken host (n + 1) (Lexer.ofStream s t) =
      (Lexer.ofStream s t).nextTokenSwitch host (Lexer.NextToken host n) (n + 1) := by
  have hd : s.dropWhile isBlank = s := by
    cases s with
    | nil => rfl
    | cons c s => simp only [List.headD_cons] at hs; simp [List.dropWhile_cons, hs]
  have ht : (s.takeWhile isBlank).length < n + 1 := by
    cases s with
    | nil => simp
    | cons c s => simp only [List.headD_cons] at hs; simp [List.takeWhile_cons, hs]
  simp only [Lexer.NextToken, devourWhitespaceNotNewLine_ofStream t s (n + 1) ht, hd, bind,
    Except.bind]

/-- C13: when `NextToken`, after skipping blanks, stands at a newline or at the end of
the input, it returns the token SEMICOLON with literal `;` if the previous token is of
kind IDENT, INT, FLOAT, STRING, NULL, RETURN, RPAREN, RSQUARE or RBRACE; for every other
previous kind the newline and the whitespace after it are skipped and lexing goes on with
the same previous token, and the end of the input gives the token EOF. -/
theorem NextToken_semicolon_insertion (host : LexHost) (n : Nat) (ws r : List Char) (t : Token)
    (hws : ∀ c ∈ ws, isBlank c = true) (hfuel : ws.length < n + 1) :
    ((Lexer.ofStream r t).needSemicolon = true ↔
      t.type ∈ [TokenType.IDENT, TokenType.INT, TokenType.FLOAT, TokenType.STRING, TokenType.NULL,
        TokenType.RETURN, TokenType.RPAREN, TokenType.RSQUARE, TokenType.RBRACE]) ∧
    (t.type ∈ [TokenType.IDENT, TokenType.INT, TokenType.FLOAT, TokenType.STRING, TokenType.NULL,
        TokenType.RETURN, TokenType.RPAREN, TokenType.RSQUARE, TokenType.RBRACE] →
      Lexer.NextToken host (n + 1) (Lexer.ofStream (ws ++ '\n' :: r) t)
        = Except.ok (⟨TokenType.SEMICOLON, ";"⟩, Lexer.ofStream r ⟨TokenType.SEMICOLON, ";"⟩) ∧
      Lexer.NextToken host (n + 1) (Lexer.ofStream ws t)
        = Except.ok (⟨TokenType.SEMICOLON, ";"⟩, Lexer.ofStream [] ⟨TokenType.SEMICOLON, ";"⟩)) ∧
    (t.type ∉ [TokenType.IDENT, TokenType.INT, TokenType.FLOAT, TokenType.STRING, TokenType.NULL,
        TokenType.RETURN, TokenType.RPAREN, TokenType.RSQUARE, TokenType.RBRACE] →
      ((r.takeWhile isWhitespace).length < n →
        Lexer.NextToken host (n + 1) (Lexer.ofStream (ws ++ '\n' :: r) t)
          = Lexer.NextToken host n (Lexer.ofStream (r.dropWhile isWhitespace) t)) ∧
      Lexer.NextToken host (n + 1) (Lexer.ofStream ws t)
        = Except.ok (⟨TokenType.EOF, ""⟩, Lexer.ofStream [] ⟨TokenType.EOF, ""⟩)) := by
  refine ⟨?_, ?_, ?_⟩
  · rw [needSemicolon_ofStream]
    exact endsExpression_iff t.type
  · intro hin
    have he := (endsExpression_iff t.type).2 hin
    rw [NextToken_at_newline host n ws r t hws hfuel, NextToken_at_end host n ws t hws hfuel, he]
    exact ⟨rfl, rfl⟩
  · intro hout
    have he : endsExpression t.type = false := by
      cases h : endsExpression t.type with
      | false => rfl
      | true => exact absurd ((endsExpression_iff t.type).1 h) hout
    rw [NextToken_at_newline host n ws r t hws hfuel, NextToken_at_end host n ws t hws hfuel, he]
    refine ⟨?_, rfl⟩
    intro hr
    have hlen : (('\n' :: r).takeWhile isWhitespace).length < n + 1 := by
      have : isWhitespace '\n' = true := by decide
      simp only [List.takeWhile_cons, this, if_true, List.length_cons]
      omega
    have hdrop : ('\n' :: r).dropWhile isWhitespace = r.dropWhile isWhitespace := by
      have : isWhitespace '\n' = true := by decide
      simp only [List.dropWhile_cons, this, if_true]
    simp only [Bool.false_eq_true, if_false, devourWhitespace_ofStream t _ (n + 1) hlen, hdrop, bind,
      Except.bind]

/-- C13 (instance): after the identifier `x`, a newline and the end of the input both
give a semicolon; after `+`, the newline before `y` is skipped and the end gives EOF. -/
theorem NextToken_semicolon_insertion_witness :
    (Lexer.NextToken testLexHost 3 (Lexer.ofStream [' ', '\n', 'y'] ⟨TokenType.IDENT, "x"⟩)
        = Except.ok (⟨TokenType.SEMICOLON, ";"⟩, Lexer.ofStream ['y'] ⟨TokenType.SEMICOLON, ";"⟩) ∧
      Lexer.NextToken testLexHost 3 (Lexer.ofStream [' '] ⟨TokenType.IDENT, "x"⟩)
        = Except.ok (⟨TokenType.SEMICOLON, ";"⟩, Lexer.ofStream [] ⟨TokenType.SEMICOLON, ";"⟩)) ∧
    (Lexer.NextToken testLexHost 3 (Lexer.ofStream [' ', '\n', 'y'] ⟨TokenType.PLUS, "+"⟩)
        = Lexer.NextToken testLexHost 2
            (Lexer.ofStream (['y'].dropWhile isWhitespace) ⟨TokenType.PLUS, "+"⟩) ∧
      Lexer.NextToken testLexHost 3 (Lexer.ofStream [' '] ⟨TokenType.PLUS, "+"⟩)
        = Except.ok (⟨TokenType.EOF, ""⟩, Lexer.ofStream [] ⟨TokenType.EOF, ""⟩)) := by
  have h1 := NextToken_semicolon_insertion testLexHost 2 [' '] ['y'] ⟨TokenType.IDENT, "x"⟩
    (by decide) (by decide)
  have h2 := NextToken_semicolon_insertion testLexHost 2 [' '] ['y'] ⟨TokenType.PLUS, "+"⟩
    (by decide) (by decide)
  have h3 := h2.2.2 (by decide)
  exact ⟨h1.2.1 (by decide), h3.1 (by decide), h3.2⟩

/-! ## The lexer: loops that do not end -/

theorem readStringLoop_diverges (t : Token) :
    ∀ (fuel : Nat) (s acc : List Char), (∀ c ∈ s, c ≠ '"' ∧ c ≠ '\n' ∧ c ≠ '\\') →
      Lexer.readStringLoop fuel (Lexer.ofStream s t) acc = Except.error Fault.outOfFuel := by
  intro fuel
  induction fuel with
  | zero => intro s acc _; rfl
  | succ n ih =>
    intro s acc hs
    cases s with
    | nil =>
      have h1 : ¬ (NUL = '"') := by decide
      have h2 : ¬ (NUL = '\n') := by decide
      have h3 : ¬ (NUL = '\\') := by decide
      simp only [Lexer.readStringLoop, curCh_ofStream_nil, h1, h2, h3, if_false, readRune_ofStream,
        List.tail_nil]
      exact ih [] _ hs
    | cons c s =>
      obtain ⟨h1, h2, h3⟩ := hs c (List.mem_cons_self c s)
      simp only [Lexer.readStringLoop, curCh_ofStream_cons, h1, h2, h3, if_false, readRune_ofStream,
        List.tail_cons]
      exact ih s _ (fun d hd => hs d (List.mem_cons_of_mem c hd))

theorem peekCh_ofStream_ne (s : List Char) (t : Token) (x : Char) (hx : x ≠ NUL)
    (hs : ∀ c ∈ s, c ≠ x) : (Lexer.ofStream s t).peekCh ≠ x := by
  rcases s with _ | ⟨a, _ | ⟨b, s⟩⟩
  · exact fun h => hx h.symm
  · exact fun h => hx h.symm
  · exact hs b (by simp)

theorem readRawStringLoop_diverges (t : Token) :
    ∀ (fuel : Nat) (s acc : List Char), (∀ c ∈ s, c ≠ '\'') →
      Lexer.readRawStringLoop fuel (Lexer.ofStream s t) acc = Except.error Fault.outOfFuel := by
  intro fuel
  induction fuel with
  | zero => intro s acc _; rfl
  | succ n ih =>
    intro s acc hs
    have hp := peekCh_ofStream_ne s t '\'' (by decide) hs
    cases s with
    | nil =>
      have h1 : ¬ (NUL = '\'') := by decide
      simp only [Lexer.readRawStringLoop, curCh_ofStream_nil, h1, hp, if_false, readRune_ofStream,
        List.tail_nil, decide_False, Bool.and_false, Bool.false_eq_true]
      exact ih [] _ (by simp)
    | cons c s =>
      have h1 := hs c (List.mem_cons_self c s)
      simp only [Lexer.readRawStringLoop, curCh_ofStream_cons, h1, hp, if_false, readRune_ofStream,
        List.tail_cons, decide_False, Bool.and_false, Bool.false_eq_true]
      exact ih s _ (fun d hd => hs d (List.mem_cons_of_mem c hd))

theorem readSingleLineCommentLoop_diverges (t : Token) :
    ∀ (fuel : Nat) (s acc : List Char), (∀ c ∈ s, c ≠ '\n') →
      Lexer.readSingleLineCommentLoop fuel (Lexer.ofStream s t) acc
        = Except.error Fault.outOfFuel := by
  intro fuel
  induction fuel with
  | zero => intro s acc _; rfl
  | succ n ih =>
    intro s acc hs
    cases s with
    | nil =>
      have h1 : NUL ≠ '\n' := by decide
      simp only [Lexer.readSingleLineCommentLoop, curCh_ofStream_nil, h1, ne_eq, not_false_eq_true,
        if_true, readRune_ofStream, List.tail_nil]
      exact ih [] _ hs
    | cons c s =>
      have h1 := hs c (List.mem_cons_self c s)
      simp only [Lexer.readSingleLineCommentLoop, curCh_ofStream_cons, h1, ne_eq, not_false_eq_true,
        if_true, readRune_ofStream, List.tail_cons]
      exact ih s _ (fun d hd => hs d (List.mem_cons_of_mem c hd))

/-- C15 (the code at the failing inputs): on an input that ends inside a double-quoted
string, inside a single-quoted string, or inside a `#` or `//` comment without final
newline, the first call of `NextToken` returns no token, whatever the fuel: the loop that
looks for the closing rune reads the rune 0 of the end of input for ever. -/
theorem NextToken_hangs_on_unterminated_input (host : LexHost) (fuel : Nat) :
    Lexer.NextToken host fuel (NewString ['"', 'a', 'b', 'c']) = Except.error Fault.outOfFuel ∧
    Lexer.NextToken host fuel (NewString ['\'', 'a', 'b', 'c']) = Except.error Fault.outOfFuel ∧
    Lexer.NextToken host fuel (NewString ['#', ' ', 'c']) = Except.error Fault.outOfFuel ∧
    Lexer.NextToken host fuel (NewString ['/', '/', ' ', 'c']) = Except.error Fault.outOfFuel := by
  cases fuel with
  | zero => exact ⟨rfl, rfl, rfl, rfl⟩
  | succ n =>
    simp only [NewString_eq_ofStream]
    refine ⟨?_, ?_, ?_, ?_⟩
    · rw [NextToken_of_not_blank host n _ _ (by decide)]
      simp only [Lexer.nextTokenSwitch, curCh_ofStream_cons, Lexer.readString, readRune_ofStream,
        List.tail_cons]
      simp [readStringLoop_diverges, bind, Except.bind]
    · rw [NextToken_of_not_blank host n _ _ (by decide)]
      simp only [Lexer.nextTokenSwitch, curCh_ofStream_cons, Lexer.readRawString, readRune_ofStream,
        List.tail_cons]
      simp [readRawStringLoop_diverges, bind, Except.bind]
    · rw [NextToken_of_not_blank host n _ _ (by decide)]
      simp only [Lexer.nextTokenSwitch, curCh_ofStream_cons, Lexer.readSingleLineComment,
        readRune_ofStream, List.tail_cons]
      simp [readSingleLineCommentLoop_diverges, bind, Except.bind]
    · rw [NextToken_of_not_blank host n _ _ (by decide)]
      simp only [Lexer.nextTokenSwitch, curCh_ofStream_cons, Lexer.readSingleLineComment,
        Lexer.peekChar, peekCh_ofStream_cons, readRune_ofStream, List.tail_cons]
      simp [readSingleLineCommentLoop_diverges, bind, Except.bind]

/-! ## The lexer: string literals -/

theorem escapeRunes_eq_denotedRunes (x : Char) : escapeRunes x = denotedRunes x := by
  unfold denotedRunes
  split
  all_goals first
    | rfl
    | simp_all [escapeRunes]

theorem readStringLoop_body (rest : List Char) (t : Token) :
    ∀ (fuel : Nat) (body acc : List Char), isStringBody body = true → body.length < fuel →
      Lexer.readStringLoop fuel (Lexer.ofStream (body ++ '"' :: rest) t) acc
        = Except.ok (⟨TokenType.STRING, String.mk (acc ++ unescapeString body)⟩,
            Lexer.ofStream ('"' :: rest) t) := by
  intro fuel
  induction fuel with
  | zero => intro body acc _ hf; exact absurd hf (Nat.not_lt_zero _)
  | succ n ih =>
    intro body acc hb hf
    match body, hb, hf with
    | [], _, _ =>
      simp [Lexer.readStringLoop, curCh_ofStream_cons, unescapeString]
    | [c], hb, hf =>
      simp only [isStringBody, Bool.and_eq_true, decide_eq_true_eq] at hb
      obtain ⟨⟨h1, h2⟩, h3⟩ := hb
      simp only [List.singleton_append, Lexer.readStringLoop, curCh_ofStream_cons, h1, h2, h3,
        if_false, readRune_ofStream, List.tail_cons]
      have := ih [] (acc ++ [c]) rfl (by simp only [List.length_singleton] at hf; simp; omega)
      simpa [unescapeString] using this
    | c :: x :: b, hb, hf =>
      by_cases hc : c = '\\'
      · subst hc
        simp only [isStringBody, if_true, Bool.and_eq_true, decide_eq_true_eq] at hb
        have h1 : ¬ ('\\' = '"') := by decide
        have h2 : ¬ ('\\' = '\n') := by decide
        simp only [List.cons_append, Lexer.readStringLoop, curCh_ofStream_cons, h1, h2, if_false,
          if_true, readRune_ofStream, List.tail_cons]
        have := ih b (acc ++ escapeRunes x) hb.2
          (by simp only [List.length_cons] at hf; omega)
        rw [this]
        simp [unescapeString, escapeRunes_eq_denotedRunes]
      · simp only [isStringBody, hc, if_false, Bool.and_eq_true, decide_eq_true_eq] at hb
        obtain ⟨⟨h1, h2⟩, h3⟩ := hb
        simp only [List.cons_append, Lexer.readStringLoop, curCh_ofStream_cons, h1, h2, hc,
          if_false, readRune_ofStream, List.tail_cons]
        have := ih (x :: b) (acc ++ [c]) h3 (by simp only [List.length_cons] at hf ⊢; omega)
        simp only [List.cons_append] at this
        rw [this]
        simp [unescapeString, hc]

/-- C16: for a double-quoted literal whose body has no newline, no quote outside an
escape and no backslash left alone before the closing quote, `readString` returns a
STRING token whose literal is the body with every escape replaced by the runes it
denotes and every other rune copied; the lexer then stands on the closing quote, and
`NextToken` returns that token and goes on after the closing quote. -/
theorem readString_decodes_body (host : LexHost) (n : Nat) (body rest : List Char) (t : Token)
    (hbody : isStringBody body = true) (hfuel : body.length < n + 1) :
    Lexer.readString (n + 1) (Lexer.ofStream ('"' :: (body ++ '"' :: rest)) t)
      = Except.ok (⟨TokenType.STRING, String.mk (unescapeString body)⟩,
          Lexer.ofStream ('"' :: rest) t) ∧
    Lexer.NextToken host (n + 1) (Lexer.ofStream ('"' :: (body ++ '"' :: rest)) t)
      = Except.ok (⟨TokenType.STRING, String.mk (unescapeString body)⟩,
          Lexer.ofStream rest ⟨TokenType.STRING, String.mk (unescapeString body)⟩) := by
  have hloop := readStringLoop_body rest t (n + 1) body [] hbody hfuel
  simp only [List.nil_append] at hloop
  have hread : Lexer.readString (n + 1) (Lexer.ofStream ('"' :: (body ++ '"' :: rest)) t)
      = Except.ok (⟨TokenType.STRING, String.mk (unescapeString body)⟩,
          Lexer.ofStream ('"' :: rest) t) := by
    simp only [Lexer.readString, readRune_ofStream, List.tail_cons]
    exact hloop
  refine ⟨hread, ?_⟩
  rw [NextToken_of_not_blank host n ('"' :: (body ++ '"' :: rest)) t rfl]
  simp only [Lexer.nextTokenSwitch, curCh_ofStream_cons]
  simp [hread, bind, Except.bind, finish_ofStream]

/-- C16 (instance): the source `"a\tb\q\"c"` followed by `;`. -/
theorem readString_decodes_body_witness :
    Lexer.NextToken testLexHost 11
        (Lexer.ofStream ('"' :: (['a', '\\', 't', 'b', '\\', 'q', '\\', '"', 'c'] ++ '"' :: [';']))
          ⟨TokenType.ASSIGN, "="⟩)
      = Except.ok (⟨TokenType.STRING,
            String.mk (unescapeString ['a', '\\', 't', 'b', '\\', 'q', '\\', '"', 'c'])⟩,
          Lexer.ofStream [';'] ⟨TokenType.STRING,
            String.mk (unescapeString ['a', '\\', 't', 'b', '\\', 'q', '\\', '"', 'c'])⟩) :=
  (readString_decodes_body testLexHost 10 ['a', '\\', 't', 'b', '\\', 'q', '\\', '"', 'c'] [';']
    ⟨TokenType.ASSIGN, "="⟩ (by decide) (by decide)).2

/-- C17 (the code at the failing input): in the source `"a\`, newline, `b"` a newline
stands between the quotes, after a backslash; the lexer returns the STRING token with
literal `a`, backslash, newline, `b` and not the ILLEGAL token. -/
theorem NextToken_accepts_newline_after_backslash (host : LexHost) :
    Lexer.NextToken host 6 (NewString ['"', 'a', '\\', '\n', 'b', '"'])
      = Except.ok (⟨TokenType.STRING, String.mk ['a', '\\', '\n', 'b']⟩,
          Lexer.ofStream [] ⟨TokenType.STRING, String.mk ['a', '\\', '\n', 'b']⟩) := by
  rfl

theorem readRawStringLoop_body (rest : List Char) (t : Token) :
    ∀ (fuel : Nat) (body acc : List Char), isRawStringBody body = true → body.length < fuel →
      Lexer.readRawStringLoop fuel (Lexer.ofStream (body ++ '\'' :: rest) t) acc
        = Except.ok (⟨TokenType.STRING, String.mk (acc ++ unescapeRawString body)⟩,
            Lexer.ofStream ('\'' :: rest) t) := by
  intro fuel
  induction fuel with
  | zero => intro body acc _ hf; exact absurd hf (Nat.not_lt_zero _)
  | succ n ih =>
    intro body acc hb hf
    match body, hb, hf with
    | [], _, _ =>
      simp [Lexer.readRawStringLoop, curCh_ofStream_cons, unescapeRawString]
    | [c], hb, hf =>
      simp only [isRawStringBody, Bool.and_eq_true, decide_eq_true_eq] at hb
      obtain ⟨h1, h2⟩ := hb
      simp only [List.singleton_append, Lexer.readRawStringLoop, curCh_ofStream_cons, h1, h2,
        if_false, readRune_ofStream, List.tail_cons, decide_False, Bool.false_and,
        Bool.false_eq_true]
      have := ih [] (acc ++ [c]) rfl (by simp only [List.length_singleton] at hf; simp; omega)
      simpa [unescapeRawString] using this
    | c :: x :: b, hb, hf =>
      by_cases hc : c = '\\' ∧ x = '\''
      · obtain ⟨hc1, hc2⟩ := hc
        subst hc1
        subst hc2
        simp only [isRawStringBody, and_self, if_true] at hb
        have h1 : ¬ ('\\' = '\'') := by decide
        simp only [List.cons_append, Lexer.readRawStringLoop, curCh_ofStream_cons,
          peekCh_ofStream_cons, h1, if_false, decide_True, Bool.and_self, if_true,
          readRune_ofStream, List.tail_cons]
        have := ih b (acc ++ ['\'']) hb (by simp only [List.length_cons] at hf; omega)
        rw [this]
        simp [unescapeRawString]
      · simp only [isRawStringBody, hc, if_false, Bool.and_eq_true, decide_eq_true_eq] at hb
        obtain ⟨h1, h3⟩ := hb
        have h2 : (decide (c = '\\') && decide (x = '\'')) = false := by
          simpa using hc
        simp only [List.cons_append, Lexer.readRawStringLoop, curCh_ofStream_cons,
          peekCh_ofStream_cons, h1, h2, if_false, Bool.false_eq_true, readRune_ofStream,
          List.tail_cons]
        have := ih (x :: b) (acc ++ [c]) h3 (by simp only [List.length_cons] at hf ⊢; omega)
        simp only [List.cons_append] at this
        rw [this]
        simp [unescapeRawString, hc]

/-- C18: for a single-quoted literal whose body has no single quote outside the escape
and no backslash directly before the closing quote, `readRawString` returns a STRING
token whose literal is the body copied rune by rune, except that each backslash followed
by a single quote gives one single quote; the lexer then stands on the closing quote, and
`NextToken` returns that token and goes on after the closing quote. -/
theorem readRawString_copies_body (host : LexHost) (n : Nat) (body rest : List Char) (t : Token)
    (hbody : isRawStringBody body = true) (hfuel : body.length < n + 1) :
    Lexer.readRawString (n + 1) (Lexer.ofStream ('\'' :: (body ++ '\'' :: rest)) t)
      = Except.ok (⟨TokenType.STRING, String.mk (unescapeRawString body)⟩,
          Lexer.ofStream ('\'' :: rest) t) ∧
    Lexer.NextToken host (n + 1) (Lexer.ofStream ('\'' :: (body ++ '\'' :: rest)) t)
      = Except.ok (⟨TokenType.STRING, String.mk (unescapeRawString body)⟩,
          Lexer.ofStream rest ⟨TokenType.STRING, String.mk (unescapeRawString body)⟩) := by
  have hloop := readRawStringLoop_body rest t (n + 1) body [] hbody hfuel
  simp only [List.nil_append] at hloop
  have hread : Lexer.readRawString (n + 1) (Lexer.ofStream ('\'' :: (body ++ '\'' :: rest)) t)
      = Except.ok (⟨TokenType.STRING, String.mk (unescapeRawString body)⟩,
          Lexer.ofStream ('\'' :: rest) t) := by
    simp only [Lexer.readRawString, readRune_ofStream, List.tail_cons]
    exact hloop
  refine ⟨hread, ?_⟩
  rw [NextToken_of_not_blank host n ('\'' :: (body ++ '\'' :: rest)) t rfl]
  simp only [Lexer.nextTokenSwitch, curCh_ofStream_cons]
  simp [hread, bind, Except.bind, finish_ofStream]

/-- C18 (instance): the source `'a\n"\'b'` (raw: the backslash before `n` stays, the
one before the quote goes) followed by `;`. -/
theorem readRawString_copies_body_witness :
    Lexer.NextToken testLexHost 9
        (Lexer.ofStream ('\'' :: (['a', '\\', 'n', '"', '\n', '\\', '\'', 'b'] ++ '\'' :: [';']))
          ⟨TokenType.ASSIGN, "="⟩)
      = Except.ok (⟨TokenType.STRING,
            String.mk (unescapeRawString ['a', '\\', 'n', '"', '\n', '\\', '\'', 'b'])⟩,
          Lexer.ofStream [';'] ⟨TokenType.STRING,
            String.mk (unescapeRawString ['a', '\\', 'n', '"', '\n', '\\', '\'', 'b'])⟩) :=
  (readRawString_copies_body testLexHost 8 ['a', '\\', 'n', '"', '\n', '\\', '\'', 'b'] [';']
    ⟨TokenType.ASSIGN, "="⟩ (by decide) (by decide)).2

/-! ## The lexer: numbers -/

theorem char_le_iff (c d : Char) : c ≤ d ↔ c.toNat ≤ d.toNat := by
  rw [Char.le_def]
  exact Iff.rfl

theorem isAlpha_iff (c : Char) :
    c.isAlpha = true ↔ (65 ≤ c.toNat ∧ c.toNat ≤ 90) ∨ (97 ≤ c.toNat ∧ c.toNat ≤ 122) := by
  simp only [Char.isAlpha, Char.isUpper, Char.isLower, Bool.or_eq_true, Bool.and_eq_true,
    decide_eq_true_eq, ge_iff_le]
  exact Iff.rfl

theorem isDecimalDigit_iff (c : Char) : isDecimalDigit c = true ↔ 48 ≤ c.toNat ∧ c.toNat ≤ 57 := by
  simp only [isDecimalDigit, Bool.and_eq_true, decide_eq_true_eq, char_le_iff]
  exact Iff.rfl

theorem nextTokenSwitch_default (host : LexHost) (next : Lexer → Except Fault (Token × Lexer))
    (fuel : Nat) (l : Lexer) (hc : l.curCh ∉ switchRunes) :
    l.nextTokenSwitch host next fuel = l.nextTokenDefault host fuel := by
  simp only [switchRunes, List.mem_cons, List.mem_singleton, not_or, List.not_mem_nil,
    or_false] at hc
  obtain ⟨h1, h2, h3, h4, h5, h6, h7, h8, h9, h10, h11, h12, h13, h14, h15, h16, h17, h18, h19,
    h20, h21, h22, h23, h24⟩ := hc
  simp only [Lexer.nextTokenSwitch, h1, h2, h3, h4, h5, h6, h7, h8, h9, h10, h11, h12, h13, h14,
    h15, h16, h17, h18, h19, h20, h21, h22, h23, h24, if_false]

theorem not_mem_switchRunes_of_isDigit (c : Char) (hc : isDigit c = true) : c ∉ switchRunes := by
  intro hmem
  have hall : ∀ e ∈ switchRunes, isDigit e = false := by decide
  rw [hall c hmem] at hc
  cases hc

theorem isLetter_of_isDigit (host : LexHost) (c : Char) (hc : isDigit c = true) :
    isLetter host c = false := by
  simp only [isDigit, Bool.or_eq_true, Bool.and_eq_true, decide_eq_true_eq, char_le_iff] at hc
  have e0 : ('0' : Char).toNat = 48 := rfl
  have e9 : ('9' : Char).toNat = 57 := rfl
  have hk : c.toNat ≤ 57 := by
    rcases hc with ⟨_, h⟩ | h
    · omega
    · subst h
      decide
  cases h : isLetter host c with
  | false => rfl
  | true =>
    simp only [isLetter, unicodeIsLetter, Bool.or_eq_true, Bool.and_eq_true, decide_eq_true_eq,
      char_le_iff] at h
    have ea : ('a' : Char).toNat = 97 := rfl
    have eA : ('A' : Char).toNat = 65 := rfl
    have hlt : c.toNat < 128 := by omega
    rcases h with ((⟨h, _⟩ | ⟨h, _⟩) | h) | h
    · omega
    · omega
    · subst h
      revert hk
      decide
    · rw [if_pos hlt, isAlpha_iff] at h
      omega

theorem nextTokenSwitch_of_isDigit (host : LexHost) (next : Lexer → Except Fault (Token × Lexer))
    (fuel : Nat) (c : Char) (s : List Char) (t : Token) (hc : isDigit c = true) :
    (Lexer.ofStream (c :: s) t).nextTokenSwitch host next fuel =
      (Lexer.ofStream (c :: s) t).readNumber fuel >>= fun r =>
        Except.ok (r.1, { r.2 with lastToken := r.1 }) := by
  rw [nextTokenSwitch_default host next fuel _ (by
    rw [curCh_ofStream_cons]; exact not_mem_switchRunes_of_isDigit c hc)]
  simp only [Lexer.nextTokenDefault, curCh_ofStream_cons, isLetter_of_isDigit host c hc, hc,
    Bool.false_eq_true, if_false, if_true]

theorem isBlank_of_isDigit (c : Char) (hc : isDigit c = true) : isBlank c = false := by
  cases h : isBlank c with
  | false => rfl
  | true =>
    simp only [isBlank, Bool.or_eq_true, decide_eq_true_eq] at h
    rcases h with (h | h) | h <;> subst h <;> revert hc <;> decide

theorem isDigit_of_isDecimalDigit (c : Char) (hc : isDecimalDigit c = true) :
    isDigit c = true ∧ c ≠ '.' ∧ c ≠ 'x' := by
  refine ⟨?_, ?_, ?_⟩
  · simp only [isDecimalDigit] at hc
    simp [isDigit, hc]
  · rintro rfl
    revert hc
    decide
  · rintro rfl
    revert hc
    decide

theorem loops_of_isHexadecimalDigit (c : Char) (hc : isHexadecimalDigit c = true) :
    (isDigit c || isHexDigit c) = true ∧ c ≠ '.' := by
  constructor
  · simp only [isHexadecimalDigit, Bool.or_eq_true, Bool.and_eq_true, decide_eq_true_eq] at hc
    simp only [isDigit, isHexDigit, Bool.or_eq_true, Bool.and_eq_true, decide_eq_true_eq]
    tauto
  · rintro rfl
    revert hc
    decide

theorem readNumberLoop_run (base : String) (rest : List Char) (t : Token) :
    ∀ (ds : List Char) (fuel : Nat) (ty : TokenType) (acc : List Char),
      (∀ c ∈ ds, isHexadecimalDigit c = true) → ds.length ≤ fuel →
      Lexer.readNumberLoop base fuel (Lexer.ofStream (ds ++ rest) t) ty acc
        = Lexer.readNumberLoop base (fuel - ds.length) (Lexer.ofStream rest t) ty (acc ++ ds) := by
  intro ds
  induction ds with
  | nil => intro fuel ty acc _ _; simp
  | cons c ds ih =>
    intro fuel ty acc hds hf
    obtain ⟨n, rfl⟩ : ∃ n, fuel = n + 1 := ⟨fuel - 1, by simp only [List.length_cons] at hf; omega⟩
    obtain ⟨h1, h2⟩ := loops_of_isHexadecimalDigit c (hds c (List.mem_cons_self c ds))
    simp only [List.cons_append, Lexer.readNumberLoop, curCh_ofStream_cons, h1, h2, if_true,
      if_false, readRune_ofStream, List.tail_cons]
    rw [ih n ty (acc ++ [c]) (fun d hd => hds d (List.mem_cons_of_mem c hd))
      (by simp only [List.length_cons] at hf; omega)]
    simp only [List.length_cons, Nat.add_sub_add_right, List.append_assoc, List.singleton_append]

theorem readNumberLoop_end (base : String) (rest : List Char) (t : Token) (fuel : Nat)
    (ty : TokenType) (acc : List Char) (hend : endsNumber rest = true) :
    Lexer.readNumberLoop base (fuel + 1) (Lexer.ofStream rest t) ty acc
      = Except.ok (⟨ty, base ++ String.mk acc⟩, Lexer.ofStream rest t) := by
  have hcur : (Lexer.ofStream rest t).curCh = rest.headD NUL := by
    cases rest <;> rfl
  simp only [endsNumber, Bool.not_eq_true'] at hend
  simp only [Lexer.readNumberLoop, hcur, hend, Bool.false_eq_true, if_false]

theorem readNumberLoop_dot_int (base : String) (s : List Char) (t : Token) (fuel : Nat)
    (acc : List Char) :
    Lexer.readNumberLoop base (fuel + 1) (Lexer.ofStream ('.' :: s) t) TokenType.INT acc
      = Lexer.readNumberLoop base fuel (Lexer.ofStream s t) TokenType.FLOAT (acc ++ ['.']) := by
  have h1 : (isDigit '.' || isHexDigit '.') = true := by decide
  simp only [Lexer.readNumberLoop, curCh_ofStream_cons, h1, if_true, ne_eq, not_true_eq_false,
    if_false, readRune_ofStream, List.tail_cons]

theorem readNumberLoop_dot_float (base : String) (s : List Char) (t : Token) (fuel : Nat)
    (acc : List Char) :
    Lexer.readNumberLoop base (fuel + 1) (Lexer.ofStream ('.' :: s) t) TokenType.FLOAT acc
      = Except.ok (⟨TokenType.ILLEGAL, "Invalid float literal"⟩, Lexer.ofStream ('.' :: s) t) := by
  have h1 : (isDigit '.' || isHexDigit '.') = true := by decide
  have h2 : TokenType.FLOAT ≠ TokenType.INT := by decide
  simp only [Lexer.readNumberLoop, curCh_ofStream_cons, h1, if_true, h2, ne_eq, not_false_eq_true]

theorem isHexadecimalDigit_of_isDecimalDigit (c : Char) (hc : isDecimalDigit c = true) :
    isHexadecimalDigit c = true := by
  simp only [isDecimalDigit] at hc
  simp [isHexadecimalDigit, hc]

theorem empty_append_mk (cs : List Char) : "" ++ String.mk cs = String.mk cs := by
  apply String.ext
  simp

theorem NextToken_of_decimal_start (host : LexHost) (n : Nat) (c : Char) (s : List Char) (t : Token)
    (hc : isDecimalDigit c = true) :
    Lexer.NextToken host (n + 1) (Lexer.ofStream (c :: s) t) =
      Lexer.readNumberLoop "" (n + 1) (Lexer.ofStream (c :: s) t) TokenType.INT [] >>= fun r =>
        Except.ok (r.1, { r.2 with lastToken := r.1 }) := by
  obtain ⟨h1, h2, h3⟩ := isDigit_of_isDecimalDigit c hc
  rw [NextToken_of_not_blank host n (c :: s) t (isBlank_of_isDigit c h1),
    nextTokenSwitch_of_isDigit host _ (n + 1) c s t h1]
  simp only [Lexer.readNumber, Lexer.readNumberBody, curCh_ofStream_cons, h2, h3, if_false]

theorem readNumberLoop_digits_then_end (base : String) (rest : List Char) (t : Token)
    (ds : List Char) (fuel : Nat) (ty : TokenType) (acc : List Char)
    (hds : ∀ c ∈ ds, isHexadecimalDigit c = true) (hend : endsNumber rest = true)
    (hf : ds.length < fuel) :
    Lexer.readNumberLoop base fuel (Lexer.ofStream (ds ++ rest) t) ty acc
      = Except.ok (⟨ty, base ++ String.mk (acc ++ ds)⟩, Lexer.ofStream rest t) := by
  rw [readNumberLoop_run base rest t ds fuel ty acc hds (by omega)]
  obtain ⟨k, hk⟩ : ∃ k, fuel - ds.length = k + 1 := ⟨fuel - ds.length - 1, by omega⟩
  rw [hk, readNumberLoop_end base rest t k ty _ hend]

/-- C19: a run of decimal digits with one dot after the first digit lexes to a FLOAT
token whose literal is the run, and a run without dot to an INT token; a literal that
starts with a dot lexes to the ILLEGAL token `Invalid float literal`, and so does a run
in which a second dot appears, the lexer then standing on that second dot.  The runs are
followed by a rune that is no digit, dot or hexadecimal letter, or by the end. -/
theorem NextToken_number_literals (host : LexHost) (n : Nat) (a b rest s : List Char) (t : Token)
    (ha : a ≠ []) (hda : ∀ c ∈ a, isDecimalDigit c = true)
    (hdb : ∀ c ∈ b, isDecimalDigit c = true) (hend : endsNumber rest = true)
    (hfuel : a.length + b.length + 1 ≤ n) :
    Lexer.NextToken host (n + 1) (Lexer.ofStream (a ++ '.' :: (b ++ rest)) t)
      = Except.ok (⟨TokenType.FLOAT, String.mk (a ++ '.' :: b)⟩,
          Lexer.ofStream rest ⟨TokenType.FLOAT, String.mk (a ++ '.' :: b)⟩) ∧
    Lexer.NextToken host (n + 1) (Lexer.ofStream (a ++ rest) t)
      = Except.ok (⟨TokenType.INT, String.mk a⟩, Lexer.ofStream rest ⟨TokenType.INT, String.mk a⟩) ∧
    Lexer.NextToken host (n + 1) (Lexer.ofStream ('.' :: s) t)
      = Except.ok (⟨TokenType.ILLEGAL, "Invalid float literal"⟩,
          Lexer.ofStream s ⟨TokenType.ILLEGAL, "Invalid float literal"⟩) ∧
    Lexer.NextToken host (n + 1) (Lexer.ofStream (a ++ '.' :: (b ++ '.' :: s)) t)
      = Except.ok (⟨TokenType.ILLEGAL, "Invalid float literal"⟩,
          Lexer.ofStream ('.' :: s) ⟨TokenType.ILLEGAL, "Invalid float literal"⟩) := by
  obtain ⟨c, a1, rfl⟩ : ∃ c a1, a = c :: a1 := by
    cases a with
    | nil => exact absurd rfl ha
    | cons c a1 => exact ⟨c, a1, rfl⟩
  have hc := hda c (List.mem_cons_self c a1)
  have hha : ∀ d ∈ c :: a1, isHexadecimalDigit d = true :=
    fun d hd => isHexadecimalDigit_of_isDecimalDigit d (hda d hd)
  have hhb : ∀ d ∈ b, isHexadecimalDigit d = true :=
    fun d hd => isHexadecimalDigit_of_isDecimalDigit d (hdb d hd)
  simp only [List.length_cons] at hfuel
  obtain ⟨k, hk⟩ : ∃ k, n + 1 - (c :: a1).length = k + 1 :=
    ⟨n - (c :: a1).length, by simp only [List.length_cons]; omega⟩
  have hkb : b.length < k := by
    simp only [List.length_cons] at hk
    omega
  refine ⟨?_, ?_, ?_, ?_⟩
  · have h := NextToken_of_decimal_start host n c (a1 ++ '.' :: (b ++ rest)) t hc
    rw [List.cons_append, h]
    have hrun := readNumberLoop_run "" ('.' :: (b ++ rest)) t (c :: a1) (n + 1) TokenType.INT []
      hha (by simp only [List.length_cons]; omega)
    rw [List.cons_append] at hrun
    rw [hrun, hk, readNumberLoop_dot_int,
      readNumberLoop_digits_then_end "" rest t b k TokenType.FLOAT _ hhb hend hkb]
    simp [bind, Except.bind, empty_append_mk]
    rfl
  · have h := NextToken_of_decimal_start host n c (a1 ++ rest) t hc
    rw [List.cons_append, h]
    have hrun := readNumberLoop_digits_then_end "" rest t (c :: a1) (n + 1) TokenType.INT [] hha
      hend (by simp only [List.length_cons]; omega)
    rw [List.cons_append] at hrun
    rw [hrun]
    simp [bind, Except.bind, empty_append_mk]
    rfl
  · have hdot : isDigit '.' = true := by decide
    rw [NextToken_of_not_blank host n ('.' :: s) t rfl,
      nextTokenSwitch_of_isDigit host _ (n + 1) '.' s t hdot]
    have hx : ¬ ('.' = 'x') := by decide
    simp only [Lexer.readNumber, Lexer.readNumberBody, curCh_ofStream_cons, hx, if_false, if_true,
      readRune_ofStream, List.tail_cons, bind, Except.bind]
    rfl
  · have h := NextToken_of_decimal_start host n c (a1 ++ '.' :: (b ++ '.' :: s)) t hc
    rw [List.cons_append, h]
    have hrun := readNumberLoop_run "" ('.' :: (b ++ '.' :: s)) t (c :: a1) (n + 1) TokenType.INT []
      hha (by simp only [List.length_cons]; omega)
    rw [List.cons_append] at hrun
    rw [hrun, hk, readNumberLoop_dot_int,
      readNumberLoop_run "" ('.' :: s) t b k TokenType.FLOAT _ hhb (by omega)]
    obtain ⟨j, hj⟩ : ∃ j, k - b.length = j + 1 := ⟨k - b.length - 1, by omega⟩
    rw [hj, readNumberLoop_dot_float]
    simp only [bind, Except.bind]
    rfl

/-- C19 (instance): `1.5;`, `15;`, `.5` and `1.2.3`. -/
theorem NextToken_number_literals_witness :
    Lexer.NextToken testLexHost 4 (Lexer.ofStream (['1'] ++ '.' :: (['5'] ++ [';'])) eofToken)
      = Except.ok (⟨TokenType.FLOAT, String.mk (['1'] ++ '.' :: ['5'])⟩,
          Lexer.ofStream [';'] ⟨TokenType.FLOAT, String.mk (['1'] ++ '.' :: ['5'])⟩) ∧
    Lexer.NextToken testLexHost 4 (Lexer.ofStream (['1'] ++ [';']) eofToken)
      = Except.ok (⟨TokenType.INT, String.mk ['1']⟩,
          Lexer.ofStream [';'] ⟨TokenType.INT, String.mk ['1']⟩) ∧
    Lexer.NextToken testLexHost 4 (Lexer.ofStream ('.' :: ['3']) eofToken)
      = Except.ok (⟨TokenType.ILLEGAL, "Invalid float literal"⟩,
          Lexer.ofStream ['3'] ⟨TokenType.ILLEGAL, "Invalid float literal"⟩) ∧
    Lexer.NextToken testLexHost 4 (Lexer.ofStream (['1'] ++ '.' :: (['5'] ++ '.' :: ['3'])) eofToken)
      = Except.ok (⟨TokenType.ILLEGAL, "Invalid float literal"⟩,
          Lexer.ofStream ('.' :: ['3']) ⟨TokenType.ILLEGAL, "Invalid float literal"⟩) :=
  NextToken_number_literals testLexHost 3 ['1'] ['5'] [';'] ['3'] eofToken (by decide) (by decide)
    (by decide) (by decide) (by decide)

/-- C20: the source backslash, `x` and a non-empty run `h` of hexadecimal digits lexes
to one INT token whose literal is `0x` followed by `h`; a backslash that is not followed
by `x` lexes to an ILLEGAL token; a run of decimal digits lexes to an INT token whose
literal is the run.  The runs are followed by a rune that is no digit, dot or hexadecimal
letter, or by the end; after the hexadecimal literal the lexer has also passed over the
rune that follows the run. -/
theorem NextToken_integer_literals (host : LexHost) (n : Nat) (h d rest s : List Char) (t : Token)
    (hh : h ≠ []) (hhex : ∀ c ∈ h, isHexadecimalDigit c = true)
    (hd : d ≠ []) (hdec : ∀ c ∈ d, isDecimalDigit c = true)
    (hend : endsNumber rest = true) (hs : s.headD NUL ≠ 'x')
    (hfuel : h.length + d.length + 1 ≤ n) :
    Lexer.NextToken host (n + 1) (Lexer.ofStream ('\\' :: 'x' :: (h ++ rest)) t)
      = Except.ok (⟨TokenType.INT, "0x" ++ String.mk h⟩,
          Lexer.ofStream rest.tail ⟨TokenType.INT, "0x" ++ String.mk h⟩) ∧
    Lexer.NextToken host (n + 1) (Lexer.ofStream ('\\' :: s) t)
      = Except.ok (⟨TokenType.ILLEGAL, "\\"⟩, Lexer.ofStream s ⟨TokenType.ILLEGAL, "\\"⟩) ∧
    Lexer.NextToken host (n + 1) (Lexer.ofStream (d ++ rest) t)
      = Except.ok (⟨TokenType.INT, String.mk d⟩, Lexer.ofStream rest ⟨TokenType.INT, String.mk d⟩) := by
  refine ⟨?_, ?_, ?_⟩
  · obtain ⟨c, h1, rfl⟩ : ∃ c h1, h = c :: h1 := by
      cases h with
      | nil => exact absurd rfl hh
      | cons c h1 => exact ⟨c, h1, rfl⟩
    have hcdot := (loops_of_isHexadecimalDigit c (hhex c (List.mem_cons_self c h1))).2
    rw [NextToken_of_not_blank host n ('\\' :: 'x' :: (c :: h1 ++ rest)) t rfl]
    have hloop := readNumberLoop_digits_then_end "0x" rest t (c :: h1) (n + 1) TokenType.INT []
      hhex hend (by simp only [List.length_cons] at hfuel ⊢; omega)
    simp only [List.cons_append, List.nil_append] at hloop
    simp only [Lexer.nextTokenSwitch, curCh_ofStream_cons, peekCh_ofStream_cons, Lexer.readNumber,
      Lexer.readNumberBody, readRune_ofStream, List.tail_cons, List.cons_append, hcdot]
    simp [hloop, bind, Except.bind, finish_ofStream]
  · rw [NextToken_of_not_blank host n ('\\' :: s) t rfl]
    have hp : (Lexer.ofStream ('\\' :: s) t).peekCh ≠ 'x' := by
      cases s with
      | nil => exact hs
      | cons e s => exact hs
    simp only [Lexer.nextTokenSwitch, curCh_ofStream_cons]
    simp [hp, finish_ofStream, newToken]
    exact ⟨rfl, rfl⟩
  · obtain ⟨c, d1, rfl⟩ : ∃ c d1, d = c :: d1 := by
      cases d with
      | nil => exact absurd rfl hd
      | cons c d1 => exact ⟨c, d1, rfl⟩
    have hc := hdec c (List.mem_cons_self c d1)
    have h := NextToken_of_decimal_start host n c (d1 ++ rest) t hc
    rw [List.cons_append, h]
    have hrun := readNumberLoop_digits_then_end "" rest t (c :: d1) (n + 1) TokenType.INT []
      (fun e he => isHexadecimalDigit_of_isDecimalDigit e (hdec e he))
      hend (by simp only [List.length_cons] at hfuel ⊢; omega)
    rw [List.cons_append] at hrun
    rw [hrun]
    simp [bind, Except.bind, empty_append_mk]
    rfl

/-- C20 (instance): backslash `x1F` at the end of the input, backslash `y`, and `42;`. -/
theorem NextToken_integer_literals_witness :
    Lexer.NextToken testLexHost 6 (Lexer.ofStream ('\\' :: 'x' :: (['1', 'F'] ++ [])) eofToken)
      = Except.ok (⟨TokenType.INT, "0x" ++ String.mk ['1', 'F']⟩,
          Lexer.ofStream ([] : List Char).tail ⟨TokenType.INT, "0x" ++ String.mk ['1', 'F']⟩) ∧
    Lexer.NextToken testLexHost 6 (Lexer.ofStream ('\\' :: ['y']) eofToken)
      = Except.ok (⟨TokenType.ILLEGAL, "\\"⟩, Lexer.ofStream ['y'] ⟨TokenType.ILLEGAL, "\\"⟩) ∧
    Lexer.NextToken testLexHost 6 (Lexer.ofStream (['4', '2'] ++ []) eofToken)
      = Except.ok (⟨TokenType.INT, String.mk ['4', '2']⟩,
          Lexer.ofStream [] ⟨TokenType.INT, String.mk ['4', '2']⟩) :=
  NextToken_integer_literals testLexHost 5 ['1', 'F'] ['4', '2'] [] ['y'] eofToken (by decide)
    (by decide) (by decide) (by decide) (by decide) (by decide) (by decide)

/-! ## The lexer: no method gives runes back -/

theorem pending_readRune_le (l : Lexer) : l.readRune.pending ≤ l.pending := by
  unfold Lexer.readRune Lexer.pending
  by_cases hp : l.peekCh = NUL <;> by_cases hc : l.curCh = NUL
  all_goals
    cases hi : l.input with
    | nil => simp [hp, hc]
    | cons c rest =>
      by_cases hcn : c = NUL
      · simp only [hp, hc, hcn, if_true, if_false, List.length_cons]
        omega
      · simp only [hp, hc, hcn, if_true, if_false, List.length_cons]
        omega

theorem pending_withLastToken (l : Lexer) (tok : Token) :
    Lexer.pending { l with lastToken := tok } = l.pending := rfl

theorem pending_finish_le (l : Lexer) (tok : Token) : (l.finish tok).2.pending ≤ l.pending :=
  pending_readRune_le l

theorem bind_eq_ok {α β : Type} (x : Except Fault α) (f : α → Except Fault β) (b : β)
    (h : (x >>= f) = Except.ok b) : ∃ a, x = Except.ok a ∧ f a = Except.ok b := by
  cases x with
  | error e => cases h
  | ok a => exact ⟨a, rfl, h⟩

theorem pending_devourWhitespace :
    ∀ (fuel : Nat) (l l2 : Lexer), l.devourWhitespace fuel = Except.ok l2 → l2.pending ≤ l.pending := by
  intro fuel
  induction fuel with
  | zero => intro l l2 h; cases h
  | succ n ih =>
    intro l l2 h
    unfold Lexer.devourWhitespace at h
    split at h
    · exact le_trans (ih _ _ h) (pending_readRune_le l)
    · cases h
      exact le_refl _

theorem pending_devourWhitespaceNotNewLine :
    ∀ (fuel : Nat) (l l2 : Lexer), l.devourWhitespaceNotNewLine fuel = Except.ok l2 →
      l2.pending ≤ l.pending := by
  intro fuel
  induction fuel with
  | zero => intro l l2 h; cases h
  | succ n ih =>
    intro l l2 h
    unfold Lexer.devourWhitespaceNotNewLine at h
    split at h
    · exact le_trans (ih _ _ h) (pending_readRune_le l)
    · cases h
      exact le_refl _

theorem pending_readIdentifierLoop (host : LexHost) :
    ∀ (fuel : Nat) (l : Lexer) (acc out : List Char) (l2 : Lexer),
      l.readIdentifierLoop host fuel acc = Except.ok (out, l2) → l2.pending ≤ l.pending := by
  intro fuel
  induction fuel with
  | zero => intro l acc out l2 h; cases h
  | succ n ih =>
    intro l acc out l2 h
    unfold Lexer.readIdentifierLoop at h
    split at h
    · exact le_trans (ih _ _ _ _ h) (pending_readRune_le l)
    · cases h
      exact le_refl _

theorem pending_readStringLoop :
    ∀ (fuel : Nat) (l : Lexer) (acc : List Char) (out : Token) (l2 : Lexer),
      l.readStringLoop fuel acc = Except.ok (out, l2) → l2.pending ≤ l.pending := by
  intro fuel
  induction fuel with
  | zero => intro l acc out l2 h; cases h
  | succ n ih =>
    intro l acc out l2 h
    unfold Lexer.readStringLoop at h
    split at h
    · cases h; exact le_refl _
    · split at h
      · cases h; exact le_refl _
      · split at h
        · exact le_trans (ih _ _ _ _ h)
            (le_trans (pending_readRune_le _) (pending_readRune_le l))
        · exact le_trans (ih _ _ _ _ h) (pending_readRune_le l)

theorem pending_readRawStringLoop :
    ∀ (fuel : Nat) (l : Lexer) (acc : List Char) (out : Token) (l2 : Lexer),
      l.readRawStringLoop fuel acc = Except.ok (out, l2) → l2.pending ≤ l.pending := by
  intro fuel
  induction fuel with
  | zero => intro l acc out l2 h; cases h
  | succ n ih =>
    intro l acc out l2 h
    unfold Lexer.readRawStringLoop at h
    split at h
    · cases h; exact le_refl _
    · split at h
      · exact le_trans (ih _ _ _ _ h)
          (le_trans (pending_readRune_le _) (pending_readRune_le l))
      · exact le_trans (ih _ _ _ _ h) (pending_readRune_le l)

theorem pending_readNumberLoop (base : String) :
    ∀ (fuel : Nat) (l : Lexer) (ty : TokenType) (acc : List Char) (out : Token) (l2 : Lexer),
      Lexer.readNumberLoop base fuel l ty acc = Except.ok (out, l2) → l2.pending ≤ l.pending := by
  intro fuel
  induction fuel with
  | zero => intro l ty acc out l2 h; cases h
  | succ n ih =>
    intro l ty acc out l2 h
    unfold Lexer.readNumberLoop at h
    split at h
    · split at h
      · split at h
        · cases h; exact le_refl _
        · exact le_trans (ih _ _ _ _ _ h) (pending_readRune_le l)
      · exact le_trans (ih _ _ _ _ _ h) (pending_readRune_le l)
    · cases h; exact le_refl _

theorem pending_readSingleLineCommentLoop :
    ∀ (fuel : Nat) (l : Lexer) (acc : List Char) (out : Token) (l2 : Lexer),
      l.readSingleLineCommentLoop fuel acc = Except.ok (out, l2) → l2.pending ≤ l.pending := by
  intro fuel
  induction fuel with
  | zero => intro l acc out l2 h; cases h
  | succ n ih =>
    intro l acc out l2 h
    unfold Lexer.readSingleLineCommentLoop at h
    split at h
    · exact le_trans (ih _ _ _ _ h) (pending_readRune_le l)
    · cases h; exact le_refl _

theorem pending_readMultiLineCommentLoop :
    ∀ (fuel : Nat) (l : Lexer) (acc : List Char) (out : Token) (l2 : Lexer),
      l.readMultiLineCommentLoop fuel acc = Except.ok (out, l2) → l2.pending ≤ l.pending := by
  intro fuel
  induction fuel with
  | zero => intro l acc out l2 h; cases h
  | succ n ih =>
    intro l acc out l2 h
    unfold Lexer.readMultiLineCommentLoop at h
    split at h
    · split at h
      · cases h; exact pending_readRune_le l
      · exact le_trans (ih _ _ _ _ h) (pending_readRune_le l)
    · cases h; exact le_refl _

theorem pending_readString (fuel : Nat) (l : Lexer) (out : Token) (l2 : Lexer)
    (h : l.readString fuel = Except.ok (out, l2)) : l2.pending ≤ l.pending :=
  le_trans (pending_readStringLoop fuel _ _ _ _ h) (pending_readRune_le l)

theorem pending_readRawString (fuel : Nat) (l : Lexer) (out : Token) (l2 : Lexer)
    (h : l.readRawString fuel = Except.ok (out, l2)) : l2.pending ≤ l.pending :=
  le_trans (pending_readRawStringLoop fuel _ _ _ _ h) (pending_readRune_le l)

theorem pending_readSingleLineComment (fuel : Nat) (l : Lexer) (out : Token) (l2 : Lexer)
    (h : l.readSingleLineComment fuel = Except.ok (out, l2)) : l2.pending ≤ l.pending :=
  le_trans (pending_readSingleLineCommentLoop fuel _ _ _ _ h) (pending_readRune_le l)

theorem pending_readMultiLineComment (fuel : Nat) (l : Lexer) (out : Token) (l2 : Lexer)
    (h : l.readMultiLineComment fuel = Except.ok (out, l2)) : l2.pending ≤ l.pending :=
  le_trans (pending_readMultiLineCommentLoop fuel _ _ _ _ h) (pending_readRune_le l)

theorem pending_readNumberBody (base : String) (fuel : Nat) (l : Lexer) (out : Token) (l2 : Lexer)
    (h : Lexer.readNumberBody base fuel l = Except.ok (out, l2)) : l2.pending ≤ l.pending := by
  unfold Lexer.readNumberBody at h
  split at h
  · cases h; exact pending_readRune_le l
  · exact pending_readNumberLoop base fuel _ _ _ _ _ h

theorem pending_readNumber (fuel : Nat) (l : Lexer) (out : Token) (l2 : Lexer)
    (h : l.readNumber fuel = Except.ok (out, l2)) : l2.pending ≤ l.pending := by
  unfold Lexer.readNumber at h
  split at h
  · exact le_trans (pending_readNumberBody _ fuel _ _ _ h) (pending_readRune_le l)
  · exact pending_readNumberBody _ fuel _ _ _ h

theorem pending_readIdentifier (host : LexHost) (fuel : Nat) (l : Lexer) (out : String) (l2 : Lexer)
    (h : l.readIdentifier host fuel = Except.ok (out, l2)) : l2.pending ≤ l.pending := by
  unfold Lexer.readIdentifier at h
  obtain ⟨a, ha, hb⟩ := bind_eq_ok _ _ _ h
  cases hb
  exact pending_readIdentifierLoop host fuel _ _ _ _ ha

theorem pending_of_finish_eq (l : Lexer) (tok0 tok : Token) (l2 : Lexer)
    (h : (Except.ok (l.finish tok0) : Except Fault (Token × Lexer)) = Except.ok (tok, l2)) :
    l2.pending ≤ l.pending := by
  simp only [Except.ok.injEq, Lexer.finish, Prod.mk.injEq] at h
  obtain ⟨_, rfl⟩ := h
  exact pending_readRune_le l

theorem pending_of_bind_finish (x : Except Fault (Token × Lexer)) (l : Lexer) (tok : Token)
    (l2 : Lexer)
    (hx : ∀ out l1, x = Except.ok (out, l1) → l1.pending ≤ l.pending)
    (h : (x >>= fun r => Except.ok (r.2.finish r.1)) = Except.ok (tok, l2)) :
    l2.pending ≤ l.pending := by
  obtain ⟨⟨a, b⟩, ha, hb⟩ := bind_eq_ok _ _ _ h
  exact le_trans (pending_of_finish_eq b a tok l2 hb) (hx a b ha)

theorem pending_nextTokenDefault (host : LexHost) (fuel : Nat) (l : Lexer) (tok : Token)
    (l2 : Lexer) (h : l.nextTokenDefault host fuel = Except.ok (tok, l2)) :
    l2.pending ≤ l.pending := by
  unfold Lexer.nextTokenDefault at h
  split at h
  · obtain ⟨⟨a, b⟩, ha, hb⟩ := bind_eq_ok _ _ _ h
    simp only [Except.ok.injEq, Prod.mk.injEq] at hb
    obtain ⟨_, rfl⟩ := hb
    exact pending_readIdentifier host fuel l a b ha
  · split at h
    · obtain ⟨⟨a, b⟩, ha, hb⟩ := bind_eq_ok _ _ _ h
      simp only [Except.ok.injEq, Prod.mk.injEq] at hb
      obtain ⟨_, rfl⟩ := hb
      exact pending_readNumber fuel l a b ha
    · exact pending_of_finish_eq l _ tok l2 h

theorem NUL_eq : NUL = '\x00' := rfl

theorem pending_nextTokenSwitch (host : LexHost) (next : Lexer → Except Fault (Token × Lexer))
    (hnext : ∀ l tok l2, next l = Except.ok (tok, l2) → l2.pending ≤ l.pending)
    (fuel : Nat) (l : Lexer) (tok : Token) (l2 : Lexer)
    (h : l.nextTokenSwitch host next fuel = Except.ok (tok, l2)) : l2.pending ≤ l.pending := by
  by_cases hmem : l.curCh ∈ switchRunes
  · simp only [switchRunes, List.mem_cons, List.mem_singleton, List.not_mem_nil, or_false] at hmem
    rcases hmem with hc | hc | hc | hc | hc | hc | hc | hc | hc | hc | hc | hc | hc | hc | hc | hc | hc | hc | hc | hc | hc | hc | hc | hc
    all_goals
      simp only [Lexer.nextTokenSwitch, hc, NUL_eq, Char.reduceEq, ↓reduceIte] at h
    all_goals try split at h
    all_goals try split at h
    all_goals first
      | exact pending_of_finish_eq l _ tok l2 h
      | exact le_trans (pending_of_finish_eq l.readRune _ tok l2 h) (pending_readRune_le l)
      | exact pending_of_bind_finish _ l tok l2
          (fun out l1 hx => pending_readString fuel l out l1 hx) h
      | exact pending_of_bind_finish _ l tok l2
          (fun out l1 hx => pending_readRawString fuel l out l1 hx) h
      | exact pending_of_bind_finish _ l tok l2
          (fun out l1 hx => pending_readSingleLineComment fuel l out l1 hx) h
      | exact pending_of_bind_finish _ l tok l2
          (fun out l1 hx => le_trans (pending_readSingleLineComment fuel _ out l1 hx)
            (pending_readRune_le l)) h
      | exact pending_of_bind_finish _ l tok l2
          (fun out l1 hx => le_trans (pending_readMultiLineComment fuel _ out l1 hx)
            (pending_readRune_le l)) h
      | exact pending_of_bind_finish _ l tok l2
          (fun out l1 hx => le_trans (pending_readNumber fuel _ out l1 hx)
            (pending_readRune_le l)) h
      | (obtain ⟨a, ha, hb⟩ := bind_eq_ok _ _ _ h
         exact le_trans (hnext a tok l2 hb) (pending_devourWhitespace fuel l a ha))
  · rw [nextTokenSwitch_default host next fuel l hmem] at h
    exact pending_nextTokenDefault host fuel l tok l2 h

theorem lastToken_of_finish_eq (l : Lexer) (tok0 tok : Token) (l2 : Lexer)
    (h : (Except.ok (l.finish tok0) : Except Fault (Token × Lexer)) = Except.ok (tok, l2)) :
    l2.lastToken = tok := by
  simp only [Except.ok.injEq, Lexer.finish, Prod.mk.injEq] at h
  obtain ⟨rfl, rfl⟩ := h
  rfl

theorem lastToken_of_bind_finish (x : Except Fault (Token × Lexer)) (tok : Token) (l2 : Lexer)
    (h : (x >>= fun r => Except.ok (r.2.finish r.1)) = Except.ok (tok, l2)) :
    l2.lastToken = tok := by
  obtain ⟨⟨a, b⟩, _, hb⟩ := bind_eq_ok _ _ _ h
  exact lastToken_of_finish_eq b a tok l2 hb

theorem lastToken_nextTokenDefault (host : LexHost) (fuel : Nat) (l : Lexer) (tok : Token)
    (l2 : Lexer) (h : l.nextTokenDefault host fuel = Except.ok (tok, l2)) :
    l2.lastToken = tok := by
  unfold Lexer.nextTokenDefault at h
  split at h
  · obtain ⟨⟨a, b⟩, _, hb⟩ := bind_eq_ok _ _ _ h
    simp only [Except.ok.injEq, Prod.mk.injEq] at hb
    obtain ⟨rfl, rfl⟩ := hb
    rfl
  · split at h
    · obtain ⟨⟨a, b⟩, _, hb⟩ := bind_eq_ok _ _ _ h
      simp only [Except.ok.injEq, Prod.mk.injEq] at hb
      obtain ⟨rfl, rfl⟩ := hb
      rfl
    · exact lastToken_of_finish_eq l _ tok l2 h

theorem lastToken_nextTokenSwitch (host : LexHost) (next : Lexer → Except Fault (Token × Lexer))
    (hnext : ∀ l tok l2, next l = Except.ok (tok, l2) → l2.lastToken = tok)
    (fuel : Nat) (l : Lexer) (tok : Token) (l2 : Lexer)
    (h : l.nextTokenSwitch host next fuel = Except.ok (tok, l2)) : l2.lastToken = tok := by
  by_cases hmem : l.curCh ∈ switchRunes
  · simp only [switchRunes, List.mem_cons, List.mem_singleton, List.not_mem_nil, or_false] at hmem
    rcases hmem with hc | hc | hc | hc | hc | hc | hc | hc | hc | hc | hc | hc | hc | hc | hc | hc | hc | hc | hc | hc | hc | hc | hc | hc
    all_goals
      simp only [Lexer.nextTokenSwitch, hc, NUL_eq, Char.reduceEq, ↓reduceIte] at h
    all_goals try split at h
    all_goals try split at h
    all_goals first
      | exact lastToken_of_finish_eq _ _ tok l2 h
      | exact lastToken_of_bind_finish _ tok l2 h
      | (obtain ⟨a, _, hb⟩ := bind_eq_ok _ _ _ h
         exact hnext a tok l2 hb)
  · rw [nextTokenSwitch_default host next fuel l hmem] at h
    exact lastToken_nextTokenDefault host fuel l tok l2 h

theorem pending_NextToken (host : LexHost) :
    ∀ (fuel : Nat) (l : Lexer) (tok : Token) (l2 : Lexer),
      l.NextToken host fuel = Except.ok (tok, l2) → l2.pending ≤ l.pending := by
  intro fuel
  induction fuel with
  | zero => intro l tok l2 h; cases h
  | succ n ih =>
    intro l tok l2 h
    unfold Lexer.NextToken at h
    obtain ⟨a, ha, hb⟩ := bind_eq_ok _ _ _ h
    exact le_trans (pending_nextTokenSwitch host _ ih (n + 1) a tok l2 hb)
      (pending_devourWhitespaceNotNewLine (n + 1) l a ha)

theorem lastToken_NextToken (host : LexHost) :
    ∀ (fuel : Nat) (l : Lexer) (tok : Token) (l2 : Lexer),
      l.NextToken host fuel = Except.ok (tok, l2) → l2.lastToken = tok := by
  intro fuel
  induction fuel with
  | zero => intro l tok l2 h; cases h
  | succ n ih =>
    intro l tok l2 h
    unfold Lexer.NextToken at h
    obtain ⟨a, _, hb⟩ := bind_eq_ok _ _ _ h
    exact lastToken_nextTokenSwitch host _ ih (n + 1) a tok l2 hb

theorem pending_run (host : LexHost) (fuel : Nat) :
    ∀ (k : Nat) (l : Lexer) (toks : List Token) (l2 : Lexer),
      Lexer.run host fuel k l = Except.ok (toks, l2) → l2.pending ≤ l.pending := by
  intro k
  induction k with
  | zero =>
    intro l toks l2 h
    simp only [Lexer.run, Except.ok.injEq, Prod.mk.injEq] at h
    obtain ⟨_, rfl⟩ := h
    exact le_refl _
  | succ k ih =>
    intro l toks l2 h
    unfold Lexer.run at h
    obtain ⟨⟨tok, l1⟩, ha, hb⟩ := bind_eq_ok _ _ _ h
    obtain ⟨⟨ts, l3⟩, hc, hd⟩ := bind_eq_ok _ _ _ hb
    simp only [Except.ok.injEq, Prod.mk.injEq] at hd
    obtain ⟨_, rfl⟩ := hd
    exact le_trans (ih l1 ts l3 hc) (pending_NextToken host fuel l tok l1 ha)

theorem pending_ofStream_cons_lt (c : Char) (s : List Char) (t t2 : Token) (hc : c ≠ NUL) :
    (Lexer.ofStream s t).pending < (Lexer.ofStream (c :: s) t2).pending := by
  rcases s with _ | ⟨a, _ | ⟨b, s⟩⟩
  · simp [Lexer.pending, Lexer.ofStream, hc]
  · by_cases ha : a = NUL <;> simp [Lexer.pending, Lexer.ofStream, hc, ha]
  · by_cases ha : a = NUL <;> by_cases hb : b = NUL
    all_goals
      simp only [Lexer.pending, Lexer.ofStream, List.drop_succ_cons, List.drop_zero, List.headD_cons,
        List.length_cons, hc, ha, hb, if_true, if_false]
      omega

/-! ## The lexer: a newline against a semicolon

Two lexers read the same text except at one place, where the first has a newline and the
second a semicolon; `u` is the text before that place and `r` the text after it. -/

theorem isLetter_newline (host : LexHost) : isLetter host '\n' = false := rfl

theorem isLetter_semicolon (host : LexHost) : isLetter host ';' = false := rfl

theorem sim_devourWhitespaceNotNewLine (r : List Char) (t : Token) :
    ∀ (fuel : Nat) (u : List Char) (l1 : Lexer),
      (Lexer.ofStream (u ++ '\n' :: r) t).devourWhitespaceNotNewLine fuel = Except.ok l1 →
      ∃ u2, u2 <:+ u ∧ l1 = Lexer.ofStream (u2 ++ '\n' :: r) t ∧
        (Lexer.ofStream (u ++ ';' :: r) t).devourWhitespaceNotNewLine fuel
          = Except.ok (Lexer.ofStream (u2 ++ ';' :: r) t) := by
  intro fuel
  induction fuel with
  | zero => intro u l1 h; cases h
  | succ n ih =>
    intro u l1 h
    cases u with
    | nil =>
      have e1 : isBlank '\n' = false := by decide
      have e2 : isBlank ';' = false := by decide
      simp only [List.nil_append, Lexer.devourWhitespaceNotNewLine, curCh_ofStream_cons,
        notNewLine_and_isWhitespace, e1, Bool.false_eq_true, if_false, Except.ok.injEq] at h
      refine ⟨[], List.suffix_refl _, h.symm, ?_⟩
      simp only [List.nil_append, Lexer.devourWhitespaceNotNewLine, curCh_ofStream_cons,
        notNewLine_and_isWhitespace, e2, Bool.false_eq_true, if_false]
    | cons c u1 =>
      simp only [List.cons_append, Lexer.devourWhitespaceNotNewLine, curCh_ofStream_cons,
        notNewLine_and_isWhitespace, readRune_ofStream, List.tail_cons] at h ⊢
      cases hc : isBlank c with
      | true =>
        simp only [hc, if_true] at h ⊢
        obtain ⟨u2, hs, h1, h2⟩ := ih u1 l1 h
        exact ⟨u2, hs.trans (List.suffix_cons c u1), h1, h2⟩
      | false =>
        simp only [hc, Bool.false_eq_true, if_false, Except.ok.injEq] at h
        refine ⟨c :: u1, List.suffix_refl _, h.symm, ?_⟩
        simp only [Bool.false_eq_true, if_false, List.cons_append]

theorem sim_readIdentifierLoop (host : LexHost) (r : List Char) (t : Token) :
    ∀ (fuel : Nat) (u acc out : List Char) (l1 : Lexer),
      (Lexer.ofStream (u ++ '\n' :: r) t).readIdentifierLoop host fuel acc = Except.ok (out, l1) →
      ∃ u2, u2 <:+ u ∧ l1 = Lexer.ofStream (u2 ++ '\n' :: r) t ∧
        (Lexer.ofStream (u ++ ';' :: r) t).readIdentifierLoop host fuel acc
          = Except.ok (out, Lexer.ofStream (u2 ++ ';' :: r) t) := by
  intro fuel
  induction fuel with
  | zero => intro u acc out l1 h; cases h
  | succ n ih =>
    intro u acc out l1 h
    cases u with
    | nil =>
      have e1 : (isIdent host '\n' || isDigit '\n') = false := rfl
      have e2 : (isIdent host ';' || isDigit ';') = false := rfl
      simp only [List.nil_append, Lexer.readIdentifierLoop, curCh_ofStream_cons, e1,
        Bool.false_eq_true, if_false, Except.ok.injEq, Prod.mk.injEq] at h
      obtain ⟨rfl, rfl⟩ := h
      refine ⟨[], List.suffix_refl _, rfl, ?_⟩
      simp only [List.nil_append, Lexer.readIdentifierLoop, curCh_ofStream_cons, e2,
        Bool.false_eq_true, if_false]
    | cons c u1 =>
      simp only [List.cons_append, Lexer.readIdentifierLoop, curCh_ofStream_cons,
        readRune_ofStream, List.tail_cons] at h ⊢
      cases hc : (isIdent host c || isDigit c) with
      | true =>
        simp only [hc, if_true] at h ⊢
        obtain ⟨u2, hs, h1, h2⟩ := ih u1 _ out l1 h
        exact ⟨u2, hs.trans (List.suffix_cons c u1), h1, h2⟩
      | false =>
        simp only [hc, Bool.false_eq_true, if_false, Except.ok.injEq, Prod.mk.injEq] at h
        obtain ⟨rfl, rfl⟩ := h
        refine ⟨c :: u1, List.suffix_refl _, rfl, ?_⟩
        simp only [Bool.false_eq_true, if_false, List.cons_append]

theorem sim_readNumberLoop (base : String) (r : List Char) (t : Token) :
    ∀ (fuel : Nat) (u : List Char) (ty : TokenType) (acc : List Char) (out : Token) (l1 : Lexer),
      Lexer.readNumberLoop base fuel (Lexer.ofStream (u ++ '\n' :: r) t) ty acc
        = Except.ok (out, l1) →
      ∃ u2, u2 <:+ u ∧ l1 = Lexer.ofStream (u2 ++ '\n' :: r) t ∧
        Lexer.readNumberLoop base fuel (Lexer.ofStream (u ++ ';' :: r) t) ty acc
          = Except.ok (out, Lexer.ofStream (u2 ++ ';' :: r) t) := by
  intro fuel
  induction fuel with
  | zero => intro u ty acc out l1 h; cases h
  | succ n ih =>
    intro u ty acc out l1 h
    cases u with
    | nil =>
      have e1 : (isDigit '\n' || isHexDigit '\n') = false := rfl
      have e2 : (isDigit ';' || isHexDigit ';') = false := rfl
      simp only [List.nil_append, Lexer.readNumberLoop, curCh_ofStream_cons, e1,
        Bool.false_eq_true, if_false, Except.ok.injEq, Prod.mk.injEq] at h
      obtain ⟨rfl, rfl⟩ := h
      refine ⟨[], List.suffix_refl _, rfl, ?_⟩
      simp only [List.nil_append, Lexer.readNumberLoop, curCh_ofStream_cons, e2,
        Bool.false_eq_true, if_false]
    | cons c u1 =>
      simp only [List.cons_append, Lexer.readNumberLoop, curCh_ofStream_cons,
        readRune_ofStream, List.tail_cons] at h ⊢
      cases hc : (isDigit c || isHexDigit c) with
      | true =>
        simp only [hc, if_true] at h ⊢
        by_cases hdot : c = '.'
        · by_cases hty : ty ≠ TokenType.INT
          · simp only [hdot, hty, if_true, ne_eq, not_false_eq_true, Except.ok.injEq,
              Prod.mk.injEq] at h
            obtain ⟨rfl, rfl⟩ := h
            refine ⟨c :: u1, List.suffix_refl _, by rw [hdot, List.cons_append], ?_⟩
            simp only [hdot, hty, if_true, ne_eq, not_false_eq_true, List.cons_append]
          · simp only [hdot, hty, if_true, if_false] at h ⊢
            obtain ⟨u2, hs, h1, h2⟩ := ih u1 _ _ out l1 h
            exact ⟨u2, hs.trans (List.suffix_cons _ u1), h1, h2⟩
        · simp only [hdot, if_false] at h ⊢
          obtain ⟨u2, hs, h1, h2⟩ := ih u1 _ _ out l1 h
          exact ⟨u2, hs.trans (List.suffix_cons c u1), h1, h2⟩
      | false =>
        simp only [hc, Bool.false_eq_true, if_false, Except.ok.injEq, Prod.mk.injEq] at h
        obtain ⟨rfl, rfl⟩ := h
        refine ⟨c :: u1, List.suffix_refl _, rfl, ?_⟩
        simp only [Bool.false_eq_true, if_false, List.cons_append]

theorem sim_devourWhitespace (r : List Char) (t : Token) :
    ∀ (fuel : Nat) (u : List Char) (l1 : Lexer),
      (Lexer.ofStream (u ++ '\n' :: r) t).devourWhitespace fuel = Except.ok l1 →
      (∃ u2, u2 <:+ u ∧ l1 = Lexer.ofStream (u2 ++ '\n' :: r) t ∧
        (Lexer.ofStream (u ++ ';' :: r) t).devourWhitespace fuel
          = Except.ok (Lexer.ofStream (u2 ++ ';' :: r) t)) ∨
      l1.pending ≤ (Lexer.ofStream r t).pending := by
  intro fuel
  induction fuel with
  | zero => intro u l1 h; cases h
  | succ n ih =>
    intro u l1 h
    cases u with
    | nil =>
      have e1 : isWhitespace '\n' = true := by decide
      simp only [List.nil_append, Lexer.devourWhitespace, curCh_ofStream_cons, e1, if_true,
        readRune_ofStream, List.tail_cons] at h
      exact Or.inr (pending_devourWhitespace n _ l1 h)
    | cons c u1 =>
      simp only [List.cons_append, Lexer.devourWhitespace, curCh_ofStream_cons,
        readRune_ofStream, List.tail_cons] at h ⊢
      cases hc : isWhitespace c with
      | true =>
        simp only [hc, if_true] at h ⊢
        rcases ih u1 l1 h with ⟨u2, hs, h1, h2⟩ | h3
        · exact Or.inl ⟨u2, hs.trans (List.suffix_cons c u1), h1, h2⟩
        · exact Or.inr h3
      | false =>
        simp only [hc, Bool.false_eq_true, if_false, Except.ok.injEq] at h
        refine Or.inl ⟨c :: u1, List.suffix_refl _, h.symm, ?_⟩
        simp only [Bool.false_eq_true, if_false, List.cons_append]

theorem sim_readStringLoop (r : List Char) (t : Token) :
    ∀ (fuel : Nat) (u acc : List Char) (out : Token) (l1 : Lexer),
      (Lexer.ofStream (u ++ '\n' :: r) t).readStringLoop fuel acc = Except.ok (out, l1) →
      (∃ u2, u2 <:+ u ∧ l1 = Lexer.ofStream (u2 ++ '\n' :: r) t ∧
        (Lexer.ofStream (u ++ ';' :: r) t).readStringLoop fuel acc
          = Except.ok (out, Lexer.ofStream (u2 ++ ';' :: r) t)) ∨
      l1 = Lexer.ofStream ('\n' :: r) t ∨
      l1.pending ≤ (Lexer.ofStream r t).pending := by
  intro fuel
  induction fuel with
  | zero => intro u acc out l1 h; cases h
  | succ n ih =>
    intro u acc out l1 h
    cases u with
    | nil =>
      simp only [List.nil_append, Lexer.readStringLoop, curCh_ofStream_cons, Char.reduceEq,
        ↓reduceIte, Except.ok.injEq, Prod.mk.injEq] at h
      exact Or.inr (Or.inl h.2.symm)
    | cons c u1 =>
      simp only [List.cons_append, Lexer.readStringLoop, curCh_ofStream_cons,
        readRune_ofStream, List.tail_cons] at h ⊢
      by_cases hq : c = '"'
      · simp only [hq, ↓reduceIte, Except.ok.injEq, Prod.mk.injEq] at h
        obtain ⟨rfl, rfl⟩ := h
        refine Or.inl ⟨c :: u1, List.suffix_refl _, by rw [hq, List.cons_append], ?_⟩
        simp only [hq, ↓reduceIte, List.cons_append]
      · by_cases hn : c = '\n'
        · simp only [hn, Char.reduceEq, ↓reduceIte, Except.ok.injEq, Prod.mk.injEq] at h
          obtain ⟨rfl, rfl⟩ := h
          refine Or.inl ⟨c :: u1, List.suffix_refl _, by rw [hn, List.cons_append], ?_⟩
          simp only [hn, Char.reduceEq, ↓reduceIte, List.cons_append]
        · by_cases hb : c = '\\'
          · simp only [hq, hn, hb, ↓reduceIte, Char.reduceEq] at h ⊢
            cases u1 with
            | nil =>
              simp only [List.nil_append, curCh_ofStream_cons, List.tail_cons] at h
              exact Or.inr (Or.inr (pending_readStringLoop n _ _ _ _ h))
            | cons d u3 =>
              simp only [List.cons_append, curCh_ofStream_cons, List.tail_cons] at h ⊢
              rcases ih u3 _ out l1 h with ⟨u2, hs, h1, h2⟩ | h3 | h3
              · exact Or.inl ⟨u2, (hs.trans (List.suffix_cons d u3)).trans (List.suffix_cons _ _),
                  h1, h2⟩
              · exact Or.inr (Or.inl h3)
              · exact Or.inr (Or.inr h3)
          · simp only [hq, hn, hb, ↓reduceIte] at h ⊢
            rcases ih u1 _ out l1 h with ⟨u2, hs, h1, h2⟩ | h3 | h3
            · exact Or.inl ⟨u2, hs.trans (List.suffix_cons c u1), h1, h2⟩
            · exact Or.inr (Or.inl h3)
            · exact Or.inr (Or.inr h3)

theorem sim_readRawStringLoop (r : List Char) (t : Token) :
    ∀ (fuel : Nat) (u acc : List Char) (out : Token) (l1 : Lexer),
      (Lexer.ofStream (u ++ '\n' :: r) t).readRawStringLoop fuel acc = Except.ok (out, l1) →
      (∃ u2, u2 <:+ u ∧ l1 = Lexer.ofStream (u2 ++ '\n' :: r) t ∧
        (Lexer.ofStream (u ++ ';' :: r) t).readRawStringLoop fuel acc
          = Except.ok (out, Lexer.ofStream (u2 ++ ';' :: r) t)) ∨
      l1.pending ≤ (Lexer.ofStream r t).pending := by
  intro fuel
  induction fuel with
  | zero => intro u acc out l1 h; cases h
  | succ n ih =>
    intro u acc out l1 h
    cases u with
    | nil =>
      simp only [List.nil_append, Lexer.readRawStringLoop, curCh_ofStream_cons, Char.reduceEq,
        ↓reduceIte, decide_False, Bool.false_and, Bool.false_eq_true, readRune_ofStream,
        List.tail_cons] at h
      exact Or.inr (pending_readRawStringLoop n _ _ _ _ h)
    | cons c u1 =>
      by_cases hq : c = '\''
      · simp only [List.cons_append, Lexer.readRawStringLoop, curCh_ofStream_cons, hq,
          ↓reduceIte, Except.ok.injEq, Prod.mk.injEq] at h
        obtain ⟨rfl, rfl⟩ := h
        refine Or.inl ⟨c :: u1, List.suffix_refl _, by rw [hq, List.cons_append], ?_⟩
        simp only [List.cons_append, Lexer.readRawStringLoop, curCh_ofStream_cons, hq, ↓reduceIte]
      · cases u1 with
        | nil =>
          simp only [List.cons_append, List.nil_append, Lexer.readRawStringLoop,
            curCh_ofStream_cons, peekCh_ofStream_cons, hq, ↓reduceIte, Char.reduceEq,
            decide_False, Bool.and_false, Bool.false_eq_true, readRune_ofStream,
            List.tail_cons] at h ⊢
          rcases ih [] _ out l1 h with ⟨u2, hs, h1, h2⟩ | h3
          · exact Or.inl ⟨u2, hs.trans (List.suffix_cons c []), h1, h2⟩
          · exact Or.inr h3
        | cons d u3 =>
          simp only [List.cons_append, Lexer.readRawStringLoop, curCh_ofStream_cons,
            peekCh_ofStream_cons, hq, ↓reduceIte, readRune_ofStream, List.tail_cons] at h ⊢
          cases hesc : (decide (c = '\\') && decide (d = '\'')) with
          | true =>
            simp only [hesc, if_true] at h ⊢
            rcases ih u3 _ out l1 h with ⟨u2, hs, h1, h2⟩ | h3
            · exact Or.inl ⟨u2, (hs.trans (List.suffix_cons d u3)).trans (List.suffix_cons _ _),
                h1, h2⟩
            · exact Or.inr h3
          | false =>
            simp only [hesc, Bool.false_eq_true, if_false] at h ⊢
            rcases ih (d :: u3) _ out l1 h with ⟨u2, hs, h1, h2⟩ | h3
            · exact Or.inl ⟨u2, hs.trans (List.suffix_cons c _), h1, h2⟩
            · exact Or.inr h3

theorem sim_readSingleLineCommentLoop (r : List Char) (t : Token) :
    ∀ (fuel : Nat) (u acc : List Char) (out : Token) (l1 : Lexer),
      (Lexer.ofStream (u ++ '\n' :: r) t).readSingleLineCommentLoop fuel acc
        = Except.ok (out, l1) →
      (∃ u2, u2 <:+ u ∧ l1 = Lexer.ofStream (u2 ++ '\n' :: r) t ∧
        (Lexer.ofStream (u ++ ';' :: r) t).readSingleLineCommentLoop fuel acc
          = Except.ok (out, Lexer.ofStream (u2 ++ ';' :: r) t)) ∨
      l1 = Lexer.ofStream ('\n' :: r) t := by
  intro fuel
  induction fuel with
  | zero => intro u acc out l1 h; cases h
  | succ n ih =>
    intro u acc out l1 h
    cases u with
    | nil =>
      simp only [List.nil_append, Lexer.readSingleLineCommentLoop, curCh_ofStream_cons, ne_eq,
        not_true_eq_false, ↓reduceIte, Except.ok.injEq, Prod.mk.injEq] at h
      exact Or.inr h.2.symm
    | cons c u1 =>
      simp only [List.cons_append, Lexer.readSingleLineCommentLoop, curCh_ofStream_cons,
        readRune_ofStream, List.tail_cons] at h ⊢
      by_cases hn : c = '\n'
      · simp only [hn, ne_eq, not_true_eq_false, ↓reduceIte, Except.ok.injEq,
          Prod.mk.injEq] at h
        obtain ⟨rfl, rfl⟩ := h
        refine Or.inl ⟨c :: u1, List.suffix_refl _, by rw [hn, List.cons_append], ?_⟩
        simp only [hn, ne_eq, not_true_eq_false, ↓reduceIte, List.cons_append]
      · simp only [hn, ne_eq, not_false_eq_true, ↓reduceIte] at h ⊢
        rcases ih u1 _ out l1 h with ⟨u2, hs, h1, h2⟩ | h3
        · exact Or.inl ⟨u2, hs.trans (List.suffix_cons c u1), h1, h2⟩
        · exact Or.inr h3

theorem sim_readMultiLineCommentLoop (r : List Char) (t : Token) :
    ∀ (fuel : Nat) (u acc : List Char) (out : Token) (l1 : Lexer),
      (Lexer.ofStream (u ++ '\n' :: r) t).readMultiLineCommentLoop fuel acc
        = Except.ok (out, l1) →
      (∃ u2, u2 <:+ u ∧ l1 = Lexer.ofStream (u2 ++ '\n' :: r) t ∧
        (Lexer.ofStream (u ++ ';' :: r) t).readMultiLineCommentLoop fuel acc
          = Except.ok (out, Lexer.ofStream (u2 ++ ';' :: r) t)) ∨
      l1.pending ≤ (Lexer.ofStream r t).pending := by
  intro fuel
  induction fuel with
  | zero => intro u acc out l1 h; cases h
  | succ n ih =>
    intro u acc out l1 h
    cases u with
    | nil =>
      simp only [List.nil_append, Lexer.readMultiLineCommentLoop, curCh_ofStream_cons, NUL_eq,
        ne_eq, Char.reduceEq, not_false_eq_true, ↓reduceIte, decide_False, Bool.false_and,
        Bool.false_eq_true, readRune_ofStream, List.tail_cons] at h
      exact Or.inr (pending_readMultiLineCommentLoop n _ _ _ _ h)
    | cons c u1 =>
      by_cases hz : c = NUL
      · simp only [List.cons_append, Lexer.readMultiLineCommentLoop, curCh_ofStream_cons, hz,
          ne_eq, not_true_eq_false, ↓reduceIte, Except.ok.injEq, Prod.mk.injEq] at h
        obtain ⟨rfl, rfl⟩ := h
        refine Or.inl ⟨c :: u1, List.suffix_refl _, by rw [hz, List.cons_append], ?_⟩
        simp only [List.cons_append, Lexer.readMultiLineCommentLoop, curCh_ofStream_cons, hz,
          ne_eq, not_true_eq_false, ↓reduceIte]
      · cases u1 with
        | nil =>
          simp only [List.cons_append, List.nil_append, Lexer.readMultiLineCommentLoop,
            curCh_ofStream_cons, Lexer.peekChar, peekCh_ofStream_cons, hz, ne_eq,
            not_false_eq_true, ↓reduceIte, Char.reduceEq, decide_False, Bool.and_false,
            Bool.false_eq_true, readRune_ofStream, List.tail_cons] at h ⊢
          rcases ih [] _ out l1 h with ⟨u2, hs, h1, h2⟩ | h3
          · exact Or.inl ⟨u2, hs.trans (List.suffix_cons c []), h1, h2⟩
          · exact Or.inr h3
        | cons d u3 =>
          simp only [List.cons_append, Lexer.readMultiLineCommentLoop, curCh_ofStream_cons,
            Lexer.peekChar, peekCh_ofStream_cons, hz, ne_eq, not_false_eq_true, ↓reduceIte,
            readRune_ofStream, List.tail_cons] at h ⊢
          cases hend : (decide (c = '*') && decide (d = '/')) with
          | true =>
            simp only [hend, if_true, Except.ok.injEq, Prod.mk.injEq] at h
            obtain ⟨rfl, rfl⟩ := h
            refine Or.inl ⟨d :: u3, List.suffix_cons c _, rfl, ?_⟩
            simp only [if_true, List.cons_append]
          | false =>
            simp only [hend, Bool.false_eq_true, if_false] at h ⊢
            rcases ih (d :: u3) _ out l1 h with ⟨u2, hs, h1, h2⟩ | h3
            · exact Or.inl ⟨u2, hs.trans (List.suffix_cons c _), h1, h2⟩
            · exact Or.inr h3

theorem sim_finish (r u2 : List Char) (t tok : Token) :
    (∃ u4, u4 <:+ u2 ∧
      (Lexer.ofStream (u2 ++ '\n' :: r) t).finish tok = (tok, Lexer.ofStream (u4 ++ '\n' :: r) tok) ∧
      (Lexer.ofStream (u2 ++ ';' :: r) t).finish tok = (tok, Lexer.ofStream (u4 ++ ';' :: r) tok)) ∨
    ((Lexer.ofStream (u2 ++ '\n' :: r) t).finish tok).2.pending ≤ (Lexer.ofStream r t).pending := by
  cases u2 with
  | nil =>
    right
    rw [List.nil_append, finish_ofStream]
    exact le_refl _
  | cons e u4 =>
    left
    exact ⟨u4, List.suffix_cons e u4, by rw [List.cons_append, finish_ofStream]; rfl,
      by rw [List.cons_append, finish_ofStream]; rfl⟩

theorem sim_bind_finish (r u : List Char) (t : Token) (x1 x2 : Except Fault (Token × Lexer))
    (hx : ∀ out a, x1 = Except.ok (out, a) →
      (∃ u2, u2 <:+ u ∧ a = Lexer.ofStream (u2 ++ '\n' :: r) t ∧
        x2 = Except.ok (out, Lexer.ofStream (u2 ++ ';' :: r) t)) ∨
      a = Lexer.ofStream ('\n' :: r) t ∨ a.pending ≤ (Lexer.ofStream r t).pending)
    (tok : Token) (l1 : Lexer)
    (h : (x1 >>= fun p => Except.ok (p.2.finish p.1)) = Except.ok (tok, l1)) :
    (∃ u4, u4 <:+ u ∧ l1 = Lexer.ofStream (u4 ++ '\n' :: r) tok ∧
      (x2 >>= fun p => Except.ok (p.2.finish p.1)) = Except.ok (tok, Lexer.ofStream (u4 ++ ';' :: r) tok)) ∨
    l1.pending ≤ (Lexer.ofStream r t).pending := by
  obtain ⟨⟨out, a⟩, ha, hb⟩ := bind_eq_ok _ _ _ h
  simp only [Except.ok.injEq] at hb
  rcases hx out a ha with ⟨u2, hs, h1, h2⟩ | h3 | h3
  · subst h1
    rcases sim_finish r u2 t out with ⟨u4, hs4, hf1, hf2⟩ | hp
    · left
      rw [hf1] at hb
      simp only [Prod.mk.injEq] at hb
      obtain ⟨rfl, rfl⟩ := hb
      refine ⟨u4, hs4.trans hs, rfl, ?_⟩
      rw [h2]
      simp only [bind, Except.bind, hf2]
    · right
      have hl : l1 = ((Lexer.ofStream (u2 ++ '\n' :: r) t).finish out).2 := by rw [hb]
      rw [hl]
      exact hp
  · right
    subst h3
    have hl : l1 = ((Lexer.ofStream ('\n' :: r) t).finish out).2 := by rw [hb]
    rw [hl, finish_ofStream]
    exact le_refl _
  · right
    have hl : l1 = (a.finish out).2 := by rw [hb]
    rw [hl]
    exact le_trans (pending_finish_le a out) h3

theorem sim_readNumber (r : List Char) (t : Token) (fuel : Nat) (u : List Char) (out : Token)
    (l1 : Lexer)
    (h : (Lexer.ofStream (u ++ '\n' :: r) t).readNumber fuel = Except.ok (out, l1)) :
    ∃ u2, u2 <:+ u ∧ l1 = Lexer.ofStream (u2 ++ '\n' :: r) t ∧
      (Lexer.ofStream (u ++ ';' :: r) t).readNumber fuel
        = Except.ok (out, Lexer.ofStream (u2 ++ ';' :: r) t) := by
  have hbody : ∀ (base : String) (v : List Char) (out : Token) (l1 : Lexer),
      Lexer.readNumberBody base fuel (Lexer.ofStream (v ++ '\n' :: r) t) = Except.ok (out, l1) →
      ∃ u2, u2 <:+ v ∧ l1 = Lexer.ofStream (u2 ++ '\n' :: r) t ∧
        Lexer.readNumberBody base fuel (Lexer.ofStream (v ++ ';' :: r) t)
          = Except.ok (out, Lexer.ofStream (u2 ++ ';' :: r) t) := by
    intro base v out l1 hv
    cases v with
    | nil =>
      simp only [List.nil_append, Lexer.readNumberBody, curCh_ofStream_cons, Char.reduceEq,
        ↓reduceIte] at hv ⊢
      exact sim_readNumberLoop base r t fuel [] _ _ out l1 hv
    | cons c v1 =>
      simp only [List.cons_append, Lexer.readNumberBody, curCh_ofStream_cons, readRune_ofStream,
        List.tail_cons] at hv ⊢
      by_cases hdot : c = '.'
      · simp only [hdot, ↓reduceIte, Except.ok.injEq, Prod.mk.injEq] at hv
        obtain ⟨rfl, rfl⟩ := hv
        refine ⟨v1, List.suffix_cons c v1, rfl, ?_⟩
        simp only [hdot, ↓reduceIte]
      · simp only [hdot, ↓reduceIte] at hv ⊢
        have := sim_readNumberLoop base r t fuel (c :: v1) _ _ out l1 hv
        simpa only [List.cons_append] using this
  cases u with
  | nil =>
    simp only [List.nil_append, Lexer.readNumber, curCh_ofStream_cons, Char.reduceEq,
      ↓reduceIte] at h ⊢
    exact hbody "" [] out l1 h
  | cons c u1 =>
    simp only [List.cons_append, Lexer.readNumber, curCh_ofStream_cons, readRune_ofStream,
      List.tail_cons] at h ⊢
    by_cases hx : c = 'x'
    · simp only [hx, ↓reduceIte] at h ⊢
      obtain ⟨u2, hs, h1, h2⟩ := hbody "0x" u1 out l1 h
      exact ⟨u2, hs.trans (List.suffix_cons _ u1), h1, h2⟩
    · simp only [hx, ↓reduceIte] at h ⊢
      have := hbody "" (c :: u1) out l1 h
      simpa only [List.cons_append] using this

theorem sim_nextTokenDefault (host : LexHost) (r : List Char) (t : Token) (fuel : Nat)
    (c : Char) (u1 : List Char) (tok : Token) (l1 : Lexer)
    (h : (Lexer.ofStream (c :: u1 ++ '\n' :: r) t).nextTokenDefault host fuel
      = Except.ok (tok, l1)) :
    (∃ u2, u2 <:+ c :: u1 ∧ l1 = Lexer.ofStream (u2 ++ '\n' :: r) tok ∧
      (Lexer.ofStream (c :: u1 ++ ';' :: r) t).nextTokenDefault host fuel
        = Except.ok (tok, Lexer.ofStream (u2 ++ ';' :: r) tok)) ∨
    l1.pending ≤ (Lexer.ofStream r t).pending := by
  simp only [List.cons_append, Lexer.nextTokenDefault, curCh_ofStream_cons] at h ⊢
  cases hl : isLetter host c with
  | true =>
    simp only [hl, if_true] at h ⊢
    obtain ⟨⟨lit, a⟩, ha, hb⟩ := bind_eq_ok _ _ _ h
    simp only [Lexer.readIdentifier] at ha
    obtain ⟨⟨cs, a2⟩, ha2, hb2⟩ := bind_eq_ok _ _ _ ha
    simp only [Except.ok.injEq, Prod.mk.injEq] at hb2 hb
    obtain ⟨rfl, rfl⟩ := hb2
    obtain ⟨rfl, rfl⟩ := hb
    have := sim_readIdentifierLoop host r t fuel (c :: u1) [] cs a2
      (by simpa only [List.cons_append] using ha2)
    obtain ⟨u2, hs, h1, h2⟩ := this
    subst h1
    left
    refine ⟨u2, hs, rfl, ?_⟩
    simp only [List.cons_append] at h2
    simp only [Lexer.readIdentifier, h2, bind, Except.bind]
    rfl
  | false =>
    simp only [hl, Bool.false_eq_true, if_false] at h ⊢
    cases hd : isDigit c with
    | true =>
      simp only [hd, if_true] at h ⊢
      obtain ⟨⟨out, a⟩, ha, hb⟩ := bind_eq_ok _ _ _ h
      simp only [Except.ok.injEq, Prod.mk.injEq] at hb
      obtain ⟨rfl, rfl⟩ := hb
      have := sim_readNumber r t fuel (c :: u1) out a
        (by simpa only [List.cons_append] using ha)
      obtain ⟨u2, hs, h1, h2⟩ := this
      subst h1
      left
      refine ⟨u2, hs, rfl, ?_⟩
      simp only [List.cons_append] at h2
      simp only [h2, bind, Except.bind]
      rfl
    | false =>
      simp only [hd, Bool.false_eq_true, if_false, finish_ofStream, List.tail_cons,
        Except.ok.injEq, Prod.mk.injEq] at h ⊢
      obtain ⟨rfl, rfl⟩ := h
      exact Or.inl ⟨u1, List.suffix_cons c u1, rfl, rfl, rfl⟩

theorem pending_devourWhitespace_newline (r : List Char) (t : Token) (fuel : Nat) (a : Lexer)
    (h : (Lexer.ofStream ('\n' :: r) t).devourWhitespace fuel = Except.ok a) :
    a.pending ≤ (Lexer.ofStream r t).pending := by
  cases fuel with
  | zero => cases h
  | succ n =>
    simp only [Lexer.devourWhitespace, curCh_ofStream_cons, isWhitespace, Char.reduceEq,
      decide_True, decide_False, Bool.or_true, Bool.or_false, Bool.true_or, if_true,
      readRune_ofStream, List.tail_cons] at h
    exact pending_devourWhitespace n _ _ h

theorem sim_nextTokenSwitch (host : LexHost) (r : List Char)
    (next : Lexer → Except Fault (Token × Lexer)) (fuel : Nat)
    (hnext : ∀ u t tok l1, next (Lexer.ofStream (u ++ '\n' :: r) t) = Except.ok (tok, l1) →
      (∃ u2, u2 <:+ u ∧ l1 = Lexer.ofStream (u2 ++ '\n' :: r) tok ∧
        next (Lexer.ofStream (u ++ ';' :: r) t)
          = Except.ok (tok, Lexer.ofStream (u2 ++ ';' :: r) tok)) ∨
      l1.pending ≤ (Lexer.ofStream r t).pending)
    (hpend : ∀ l tok l2, next l = Except.ok (tok, l2) → l2.pending ≤ l.pending)
    (u : List Char) (t tok : Token) (l1 : Lexer)
    (h : (Lexer.ofStream (u ++ '\n' :: r) t).nextTokenSwitch host next fuel
      = Except.ok (tok, l1)) :
    (∃ u2, u2 <:+ u ∧ l1 = Lexer.ofStream (u2 ++ '\n' :: r) tok ∧
      (Lexer.ofStream (u ++ ';' :: r) t).nextTokenSwitch host next fuel
        = Except.ok (tok, Lexer.ofStream (u2 ++ ';' :: r) tok)) ∨
    l1.pending ≤ (Lexer.ofStream r t).pending := by
  cases u with
  | nil =>
    right
    simp only [List.nil_append, Lexer.nextTokenSwitch, curCh_ofStream_cons, ↓reduceIte,
      needSemicolon_ofStream, finish_ofStream, List.tail_cons] at h
    cases he : endsExpression t.type with
    | true =>
      simp only [he, ↓reduceIte, Except.ok.injEq, Prod.mk.injEq] at h
      obtain ⟨_, rfl⟩ := h
      exact le_refl _
    | false =>
      simp only [he, Bool.false_eq_true, ↓reduceIte] at h
      obtain ⟨a, ha, hb⟩ := bind_eq_ok _ _ _ h
      exact le_trans (hpend _ _ _ hb) (pending_devourWhitespace_newline r t fuel a ha)
  | cons c u1 =>
    by_cases hmem : c ∈ switchRunes
    · simp only [switchRunes, List.mem_cons, List.mem_singleton, List.not_mem_nil, or_false] at hmem
      rcases hmem with rfl | rfl | rfl | rfl | rfl | rfl | rfl | rfl | rfl | rfl | rfl | rfl | rfl | rfl | rfl | rfl | rfl | rfl | rfl | rfl | rfl | rfl | rfl | rfl
      all_goals
        simp only [List.cons_append, Lexer.nextTokenSwitch, curCh_ofStream_cons, NUL_eq,
          Char.reduceEq, ↓reduceIte, needSemicolon_ofStream, finish_ofStream, List.tail_cons,
          readRune_ofStream, Lexer.peekChar] at h ⊢
      all_goals try (
        simp only [Except.ok.injEq, Prod.mk.injEq] at h
        obtain ⟨rfl, rfl⟩ := h
        exact Or.inl ⟨u1, List.suffix_cons _ _, rfl, rfl⟩)
      -- newline
      · cases he : endsExpression t.type with
        | true =>
          simp only [he, ↓reduceIte] at h ⊢
          simp only [Except.ok.injEq, Prod.mk.injEq] at h
          obtain ⟨rfl, rfl⟩ := h
          exact Or.inl ⟨_, List.suffix_cons _ _, rfl, rfl⟩
        | false =>
          simp only [he, Bool.false_eq_true, ↓reduceIte] at h ⊢
          obtain ⟨a, ha, hb⟩ := bind_eq_ok _ _ _ h
          rcases sim_devourWhitespace r t fuel ('\n' :: u1) a
            (by simpa only [List.cons_append] using ha) with ⟨u2, hs, rfl, h2⟩ | hp
          · rcases hnext u2 t tok l1 hb with ⟨u3, hs3, rfl, h3⟩ | hp
            · left
              refine ⟨u3, hs3.trans hs, rfl, ?_⟩
              simp only [List.cons_append] at h2
              rw [h2]
              exact h3
            · exact Or.inr hp
          · exact Or.inr (le_trans (hpend _ _ _ hb) hp)
      -- slash
      · cases u1 with
        | nil =>
          simp only [List.nil_append, peekCh_ofStream_cons, Char.reduceEq, ↓reduceIte] at h ⊢
          simp only [Except.ok.injEq, Prod.mk.injEq] at h
          obtain ⟨rfl, rfl⟩ := h
          exact Or.inl ⟨_, List.suffix_cons _ _, rfl, rfl⟩
        | cons d u3 =>
          simp only [List.cons_append, peekCh_ofStream_cons] at h ⊢
          by_cases h1 : d = '/'
          · subst h1
            simp only [↓reduceIte, Lexer.readSingleLineComment, readRune_ofStream,
              List.tail_cons] at h ⊢
            rcases sim_bind_finish r u3 t _
              (Lexer.readSingleLineCommentLoop fuel (Lexer.ofStream (u3 ++ ';' :: r) t) [])
              (fun out a ha => (sim_readSingleLineCommentLoop r t fuel u3 [] out a ha).imp id Or.inl)
              tok l1 h with ⟨u4, hs4, h41, h42⟩ | hp
            · exact Or.inl ⟨u4, hs4.trans ((List.suffix_cons _ _).trans (List.suffix_cons _ _)),
                h41, h42⟩
            · exact Or.inr hp
          · by_cases h2 : d = '*'
            · subst h2
              simp only [Char.reduceEq, ↓reduceIte, Lexer.readMultiLineComment, readRune_ofStream,
                List.tail_cons] at h ⊢
              rcases sim_bind_finish r u3 t _
                (Lexer.readMultiLineCommentLoop fuel (Lexer.ofStream (u3 ++ ';' :: r) t) [])
                (fun out a ha => (sim_readMultiLineCommentLoop r t fuel u3 [] out a ha).imp id Or.inr)
                tok l1 h with ⟨u4, hs4, h41, h42⟩ | hp
              · exact Or.inl ⟨u4, hs4.trans ((List.suffix_cons _ _).trans (List.suffix_cons _ _)),
                  h41, h42⟩
              · exact Or.inr hp
            · simp only [h1, h2, ↓reduceIte] at h ⊢
              simp only [Except.ok.injEq, Prod.mk.injEq] at h
              obtain ⟨rfl, rfl⟩ := h
              exact Or.inl ⟨_, List.suffix_cons _ _, rfl, rfl⟩
      -- bang
      · cases u1 with
        | nil =>
          simp only [List.nil_append, peekCh_ofStream_cons, Char.reduceEq, ↓reduceIte] at h ⊢
          simp only [Except.ok.injEq, Prod.mk.injEq] at h
          obtain ⟨rfl, rfl⟩ := h
          exact Or.inl ⟨_, List.suffix_cons _ _, rfl, rfl⟩
        | cons d u3 =>
          simp only [List.cons_append, peekCh_ofStream_cons, List.tail_cons] at h ⊢
          by_cases h1 : d = '='
          · subst h1
            simp only [↓reduceIte, Except.ok.injEq, Prod.mk.injEq] at h
            simp only [↓reduceIte]
            obtain ⟨rfl, rfl⟩ := h
            exact Or.inl ⟨u3, (List.suffix_cons _ _).trans (List.suffix_cons _ _), rfl, rfl⟩
          · simp only [h1, ↓reduceIte] at h ⊢
            simp only [Except.ok.injEq, Prod.mk.injEq] at h
            obtain ⟨rfl, rfl⟩ := h
            exact Or.inl ⟨_, List.suffix_cons _ _, rfl, rfl⟩
      -- assign
      · cases u1 with
        | nil =>
          simp only [List.nil_append, peekCh_ofStream_cons, Char.reduceEq, ↓reduceIte] at h ⊢
          simp only [Except.ok.injEq, Prod.mk.injEq] at h
          obtain ⟨rfl, rfl⟩ := h
          exact Or.inl ⟨_, List.suffix_cons _ _, rfl, rfl⟩
        | cons d u3 =>
          simp only [List.cons_append, peekCh_ofStream_cons, List.tail_cons] at h ⊢
          by_cases h1 : d = '='
          · subst h1
            simp only [↓reduceIte, Except.ok.injEq, Prod.mk.injEq] at h
            simp only [↓reduceIte]
            obtain ⟨rfl, rfl⟩ := h
            exact Or.inl ⟨u3, (List.suffix_cons _ _).trans (List.suffix_cons _ _), rfl, rfl⟩
          · simp only [h1, ↓reduceIte] at h ⊢
            simp only [Except.ok.injEq, Prod.mk.injEq] at h
            obtain ⟨rfl, rfl⟩ := h
            exact Or.inl ⟨_, List.suffix_cons _ _, rfl, rfl⟩
      -- double-quoted string
      · simp only [Lexer.readString, readRune_ofStream, List.tail_cons] at h ⊢
        rcases sim_bind_finish r u1 t _
          (Lexer.readStringLoop fuel (Lexer.ofStream (u1 ++ ';' :: r) t) [])
          (fun out a ha => sim_readStringLoop r t fuel u1 [] out a ha)
          tok l1 h with ⟨u4, hs4, h41, h42⟩ | hp
        · exact Or.inl ⟨u4, hs4.trans (List.suffix_cons _ _), h41, h42⟩
        · exact Or.inr hp
      -- raw string
      · simp only [Lexer.readRawString, readRune_ofStream, List.tail_cons] at h ⊢
        rcases sim_bind_finish r u1 t _
          (Lexer.readRawStringLoop fuel (Lexer.ofStream (u1 ++ ';' :: r) t) [])
          (fun out a ha => (sim_readRawStringLoop r t fuel u1 [] out a ha).imp id Or.inr)
          tok l1 h with ⟨u4, hs4, h41, h42⟩ | hp
        · exact Or.inl ⟨u4, hs4.trans (List.suffix_cons _ _), h41, h42⟩
        · exact Or.inr hp
      -- hash comment
      · simp only [Lexer.readSingleLineComment, readRune_ofStream, List.tail_cons] at h ⊢
        rcases sim_bind_finish r u1 t _
          (Lexer.readSingleLineCommentLoop fuel (Lexer.ofStream (u1 ++ ';' :: r) t) [])
          (fun out a ha => (sim_readSingleLineCommentLoop r t fuel u1 [] out a ha).imp id Or.inl)
          tok l1 h with ⟨u4, hs4, h41, h42⟩ | hp
        · exact Or.inl ⟨u4, hs4.trans (List.suffix_cons _ _), h41, h42⟩
        · exact Or.inr hp
      -- backslash
      · cases u1 with
        | nil =>
          simp only [List.nil_append, peekCh_ofStream_cons, Char.reduceEq, ↓reduceIte] at h ⊢
          simp only [Except.ok.injEq, Prod.mk.injEq] at h
          obtain ⟨rfl, rfl⟩ := h
          exact Or.inl ⟨_, List.suffix_cons _ _, rfl, rfl⟩
        | cons d u3 =>
          simp only [List.cons_append, peekCh_ofStream_cons] at h ⊢
          by_cases h1 : d = 'x'
          · subst h1
            simp only [↓reduceIte] at h ⊢
            rcases sim_bind_finish r ('x' :: u3) t _
              (Lexer.readNumber fuel (Lexer.ofStream ('x' :: (u3 ++ ';' :: r)) t))
              (fun out a ha => Or.inl (sim_readNumber r t fuel ('x' :: u3) out a ha))
              tok l1 h with ⟨u4, hs4, h41, h42⟩ | hp
            · exact Or.inl ⟨u4, hs4.trans (List.suffix_cons _ _), h41, h42⟩
            · exact Or.inr hp
          · simp only [h1, ↓reduceIte] at h ⊢
            simp only [Except.ok.injEq, Prod.mk.injEq] at h
            obtain ⟨rfl, rfl⟩ := h
            exact Or.inl ⟨_, List.suffix_cons _ _, rfl, rfl⟩
      -- end of input
      · cases he : endsExpression t.type with
        | true =>
          simp only [he, ↓reduceIte] at h ⊢
          simp only [Except.ok.injEq, Prod.mk.injEq] at h
          obtain ⟨rfl, rfl⟩ := h
          exact Or.inl ⟨_, List.suffix_cons _ _, rfl, rfl⟩
        | false =>
          simp only [he, Bool.false_eq_true, ↓reduceIte] at h ⊢
          simp only [Except.ok.injEq, Prod.mk.injEq] at h
          obtain ⟨rfl, rfl⟩ := h
          exact Or.inl ⟨_, List.suffix_cons _ _, rfl, rfl⟩
    · rw [nextTokenSwitch_default host next fuel _ (by simpa only [List.cons_append, curCh_ofStream_cons] using hmem)] at h
      rw [nextTokenSwitch_default host next fuel _ (by simpa only [List.cons_append, curCh_ofStream_cons] using hmem)]
      exact sim_nextTokenDefault host r t fuel c u1 tok l1 h

theorem sim_NextToken (host : LexHost) (r : List Char) :
    ∀ (fuel : Nat) (u : List Char) (t tok : Token) (l1 : Lexer),
      Lexer.NextToken host fuel (Lexer.ofStream (u ++ '\n' :: r) t) = Except.ok (tok, l1) →
      (∃ u2, u2 <:+ u ∧ l1 = Lexer.ofStream (u2 ++ '\n' :: r) tok ∧
        Lexer.NextToken host fuel (Lexer.ofStream (u ++ ';' :: r) t)
          = Except.ok (tok, Lexer.ofStream (u2 ++ ';' :: r) tok)) ∨
      l1.pending ≤ (Lexer.ofStream r t).pending := by
  intro fuel
  induction fuel with
  | zero => intro u t tok l1 h; cases h
  | succ n ih =>
    intro u t tok l1 h
    unfold Lexer.NextToken at h
    obtain ⟨a, ha, hb⟩ := bind_eq_ok _ _ _ h
    obtain ⟨u2, hs, rfl, h2⟩ := sim_devourWhitespaceNotNewLine r t (n + 1) u a ha
    rcases sim_nextTokenSwitch host r (Lexer.NextToken host n) (n + 1) ih
      (fun l tok l2 => pending_NextToken host n l tok l2) u2 t tok l1 hb with
      ⟨u3, hs3, rfl, h3⟩ | hp
    · left
      refine ⟨u3, hs3.trans hs, rfl, ?_⟩
      unfold Lexer.NextToken
      rw [h2]
      exact h3
    · exact Or.inr hp

theorem isBlank_ne_NUL (c : Char) (hc : isBlank c = true) : c ≠ NUL := by
  intro h
  subst h
  revert hc
  decide

theorem pending_ofStream_blanks_newline_lt (r : List Char) (t t2 : Token) :
    ∀ ws : List Char, (∀ c ∈ ws, isBlank c = true) →
      (Lexer.ofStream r t).pending < (Lexer.ofStream (ws ++ '\n' :: r) t2).pending := by
  intro ws
  induction ws with
  | nil =>
    intro _
    exact pending_ofStream_cons_lt '\n' r t t2 (by decide)
  | cons c ws ih =>
    intro hws
    exact lt_trans (ih (fun d hd => hws d (List.mem_cons_of_mem c hd)))
      (pending_ofStream_cons_lt c (ws ++ '\n' :: r) t2 t2
        (isBlank_ne_NUL c (hws c (List.mem_cons_self c ws))))

theorem ofStream_cons_append_ne (a : Char) (x v r : List Char) (t1 t2 : Token) :
    Lexer.ofStream (a :: x ++ v ++ '\n' :: r) t1 ≠ Lexer.ofStream (v ++ '\n' :: r) t2 := by
  intro h
  have hin := congrArg (fun l => l.input.length) h
  have hpk := congrArg Lexer.peekCh h
  cases v with
  | nil =>
    cases r with
    | nil =>
      cases x with
      | nil =>
        simp only [Lexer.ofStream, List.cons_append, List.nil_append, List.drop_succ_cons,
          List.drop_zero, List.headD_cons, List.headD_nil, NUL_eq, List.append_nil,
          Char.reduceEq] at hpk
      | cons b x =>
        simp only [Lexer.ofStream, List.length_drop, List.length_append, List.length_cons,
          List.length_nil, List.cons_append, List.nil_append] at hin
        omega
    | cons e r =>
      simp only [Lexer.ofStream, List.length_drop, List.length_append, List.length_cons,
        List.length_nil, List.cons_append, List.nil_append] at hin
      omega
  | cons b v =>
    simp only [Lexer.ofStream, List.length_drop, List.length_append, List.length_cons,
      List.length_nil, List.cons_append, List.nil_append] at hin
    omega

theorem ofStream_newline_inj (u ws r : List Char) (t0 t : Token)
    (hcmp : u <:+ ws ∨ ws <:+ u)
    (h : Lexer.ofStream (u ++ '\n' :: r) t0 = Lexer.ofStream (ws ++ '\n' :: r) t) :
    u = ws ∧ t0 = t := by
  refine ⟨?_, congrArg Lexer.lastToken h⟩
  rcases hcmp with ⟨x, hx⟩ | ⟨x, hx⟩
  · cases x with
    | nil => exact hx
    | cons a x =>
      subst hx
      exact absurd h.symm (ofStream_cons_append_ne a x u r t t0)
  · cases x with
    | nil => exact hx.symm
    | cons a x =>
      subst hx
      exact absurd h (ofStream_cons_append_ne a x ws r t0 t)

theorem devourWhitespaceNotNewLine_bind_congr {α : Type} (r : List Char) (t : Token)
    (f : Lexer → Except Fault α)
    (hf : f (Lexer.ofStream ('\n' :: r) t) = f (Lexer.ofStream (';' :: r) t)) :
    ∀ (fuel : Nat) (ws : List Char), (∀ c ∈ ws, isBlank c = true) →
      ((Lexer.ofStream (ws ++ '\n' :: r) t).devourWhitespaceNotNewLine fuel >>= f)
        = ((Lexer.ofStream (ws ++ ';' :: r) t).devourWhitespaceNotNewLine fuel >>= f) := by
  intro fuel
  induction fuel with
  | zero => intro ws _; rfl
  | succ n ih =>
    intro ws hws
    cases ws with
    | nil =>
      have h1 : isBlank '\n' = false := by decide
      have h2 : isBlank ';' = false := by decide
      simp only [List.nil_append, Lexer.devourWhitespaceNotNewLine, curCh_ofStream_cons,
        notNewLine_and_isWhitespace, h1, h2, Bool.false_eq_true, if_false, bind, Except.bind]
      exact hf
    | cons c ws =>
      simp only [List.cons_append, Lexer.devourWhitespaceNotNewLine, curCh_ofStream_cons,
        notNewLine_and_isWhitespace, hws c (List.mem_cons_self c ws), if_true,
        readRune_ofStream, List.tail_cons]
      exact ih ws (fun d hd => hws d (List.mem_cons_of_mem c hd))

theorem NextToken_newline_eq_semicolon (host : LexHost) (fuel : Nat) (ws r : List Char)
    (t : Token) (hws : ∀ c ∈ ws, isBlank c = true) (ht : endsExpression t.type = true) :
    Lexer.NextToken host fuel (Lexer.ofStream (ws ++ '\n' :: r) t)
      = Lexer.NextToken host fuel (Lexer.ofStream (ws ++ ';' :: r) t) := by
  cases fuel with
  | zero => rfl
  | succ n =>
    unfold Lexer.NextToken
    refine devourWhitespaceNotNewLine_bind_congr r t _ ?_ (n + 1) ws hws
    simp only [Lexer.nextTokenSwitch, curCh_ofStream_cons, Char.reduceEq, ↓reduceIte,
      needSemicolon_ofStream, ht, finish_ofStream, List.tail_cons]

theorem lexAll_newline_eq_semicolon (host : LexHost) (fuel : Nat) (ws r : List Char)
    (t : Token) (hws : ∀ c ∈ ws, isBlank c = true) (ht : endsExpression t.type = true)
    (n : Nat) :
    Lexer.lexAll host fuel n (Lexer.ofStream (ws ++ '\n' :: r) t)
      = Lexer.lexAll host fuel n (Lexer.ofStream (ws ++ ';' :: r) t) := by
  cases n with
  | zero => rfl
  | succ n =>
    unfold Lexer.lexAll
    rw [NextToken_newline_eq_semicolon host fuel ws r t hws ht]

theorem lexAll_mirror (host : LexHost) (fuel : Nat) (ws r : List Char) (t : Token)
    (hws : ∀ c ∈ ws, isBlank c = true) (ht : endsExpression t.type = true) :
    ∀ (k : Nat) (u : List Char) (t0 : Token) (toks : List Token),
      (u <:+ ws ∨ ws <:+ u) →
      Lexer.run host fuel k (Lexer.ofStream (u ++ '\n' :: r) t0)
        = Except.ok (toks, Lexer.ofStream (ws ++ '\n' :: r) t) →
      ∀ n, Lexer.lexAll host fuel n (Lexer.ofStream (u ++ '\n' :: r) t0)
        = Lexer.lexAll host fuel n (Lexer.ofStream (u ++ ';' :: r) t0) := by
  intro k
  induction k with
  | zero =>
    intro u t0 toks hcmp h n
    simp only [Lexer.run, Except.ok.injEq, Prod.mk.injEq] at h
    obtain ⟨rfl, rfl⟩ := ofStream_newline_inj u ws r t0 t hcmp h.2
    exact lexAll_newline_eq_semicolon host fuel u r t0 hws ht n
  | succ k ih =>
    intro u t0 toks hcmp h n
    unfold Lexer.run at h
    obtain ⟨⟨tok, l1⟩, h1, hb⟩ := bind_eq_ok _ _ _ h
    obtain ⟨⟨toks2, l2⟩, h2, hb2⟩ := bind_eq_ok _ _ _ hb
    simp only [Except.ok.injEq, Prod.mk.injEq] at hb2
    obtain ⟨_, rfl⟩ := hb2
    rcases sim_NextToken host r fuel u t0 tok l1 h1 with ⟨u2, hs, rfl, h1b⟩ | hp
    · have hcmp2 : u2 <:+ ws ∨ ws <:+ u2 := by
        rcases hcmp with hc | hc
        · exact Or.inl (hs.trans hc)
        · exact List.suffix_or_suffix_of_suffix hs hc
      cases n with
      | zero => rfl
      | succ n =>
        unfold Lexer.lexAll
        rw [h1, h1b]
        simp only [bind, Except.bind]
        rw [ih u2 tok toks2 hcmp2 h2 n]
    · exfalso
      have h3 := pending_run host fuel k l1 toks2 _ h2
      have h4 := pending_ofStream_blanks_newline_lt r t0 t ws hws
      omega

/-- C14: let the source be `q ++ ws ++ "\n" ++ r`, where `ws` holds only blanks (spaces,
tabs, carriage returns), and let the lexer, after some number `k` of calls of `NextToken`,
stand right behind `q` with a last token of kind IDENT, INT, FLOAT, STRING, NULL, RETURN,
RPAREN, RSQUARE or RBRACE.  Then the sequence of tokens produced for this source, up to
the first EOF token, is the one produced for `q ++ ws ++ ";" ++ r`, under every bound on
the number of calls and every fuel: either both runs give the same tokens or neither
gives any. -/
theorem NextToken_newline_as_semicolon (host : LexHost) (fuel k n : Nat) (q ws r : List Char)
    (t : Token) (toks : List Token)
    (hws : ∀ c ∈ ws, isBlank c = true)
    (ht : t.type ∈ [TokenType.IDENT, TokenType.INT, TokenType.FLOAT, TokenType.STRING,
      TokenType.NULL, TokenType.RETURN, TokenType.RPAREN, TokenType.RSQUARE, TokenType.RBRACE])
    (hrun : Lexer.run host fuel k (NewString (q ++ ws ++ '\n' :: r))
      = Except.ok (toks, Lexer.ofStream (ws ++ '\n' :: r) t)) :
    Lexer.lexAll host fuel n (NewString (q ++ ws ++ '\n' :: r))
      = Lexer.lexAll host fuel n (NewString (q ++ ws ++ ';' :: r)) := by
  rw [NewString_eq_ofStream, List.append_assoc] at hrun
  rw [NewString_eq_ofStream, NewString_eq_ofStream, List.append_assoc, List.append_assoc]
  have h := lexAll_mirror host fuel ws r t hws ((endsExpression_iff t.type).2 ht) k
    (q ++ ws) _ toks (Or.inr (List.suffix_append q ws))
    (by rw [List.append_assoc]; exact hrun) n
  rw [List.append_assoc, List.append_assoc] at h
  exact h

/-- C14 (instance): the sources `x \ny` and `x ;y` give the same tokens: the identifier
`x`, a semicolon, the identifier `y`, a semicolon and EOF. -/
theorem NextToken_newline_as_semicolon_witness :
    Lexer.lexAll testLexHost 4 6 (NewString ['x', ' ', '\n', 'y'])
        = Lexer.lexAll testLexHost 4 6 (NewString ['x', ' ', ';', 'y']) ∧
      Lexer.lexAll testLexHost 4 6 (NewString ['x', ' ', '\n', 'y'])
        = Except.ok [⟨TokenType.IDENT, "x"⟩, ⟨TokenType.SEMICOLON, ";"⟩, ⟨TokenType.IDENT, "y"⟩,
            ⟨TokenType.SEMICOLON, ";"⟩, ⟨TokenType.EOF, ""⟩] :=
  ⟨NextToken_newline_as_semicolon testLexHost 4 1 6 ['x'] [' '] ['y'] ⟨TokenType.IDENT, "x"⟩
    [⟨TokenType.IDENT, "x"⟩] (by decide) (by decide) rfl, rfl⟩

/-! ## Array concatenation -/

theorem newArray_arrays_old (h : Heap) (elements : List Object) (c : Nat) (hc : c < h.next) :
    (h.newArray elements).2.arrays c = h.arrays c := by
  have hne : c ≠ h.next := Nat.ne_of_lt hc
  simp only [Heap.newArray, hne, if_false]

theorem newArray_arrays_new (h : Heap) (elements : List Object) :
    (h.newArray elements).2.arrays h.next = elements := by
  simp only [Heap.newArray, if_true]

/-- C24: for two arrays `l` and `r` that are allocated in the heap, `l + r` evaluates to
an array at a fresh address whose elements are those of `l` followed by those of `r`: its
length is `len(l) + len(r)`, its element `i` is element `i` of `l` for `i < len(l)`, and
its element `len(l) + j` is element `j` of `r`.  The elements of every array allocated
before, `l` and `r` among them, are unchanged.  Every operator other than `+` gives the
error `unknown operator` and leaves the heap as it is. -/
theorem evalInfixExpression_array_concat (host : Host) (l r : Nat) (h : Heap)
    (hl : l < h.next) (hr : r < h.next) :
    (∃ h2, evalInfixExpression host "+" (.Array l) (.Array r) h = .ok (.Array h.next, h2) ∧
      l ≠ h.next ∧ r ≠ h.next ∧
      h2.arrays h.next = h.arrays l ++ h.arrays r ∧
      (h2.arrays h.next).length = (h.arrays l).length + (h.arrays r).length ∧
      (∀ i, i < (h.arrays l).length → (h2.arrays h.next)[i]? = (h.arrays l)[i]?) ∧
      (∀ j, j < (h.arrays r).length →
        (h2.arrays h.next)[(h.arrays l).length + j]? = (h.arrays r)[j]?) ∧
      (∀ c, c < h.next → h2.arrays c = h.arrays c)) ∧
    (∀ op : String, op ≠ "+" →
      evalInfixExpression host op (.Array l) (.Array r) h
        = .ok (newError ("unknown operator: " ++ host.typeName .ARRAY_OBJ ++ " " ++ op ++ " "
            ++ host.typeName .ARRAY_OBJ), h)) := by
  constructor
  · refine ⟨(h.newArray (h.arrays l ++ h.arrays r)).2, ?_, Nat.ne_of_lt hl, Nat.ne_of_lt hr,
      newArray_arrays_new h _, ?_, ?_, ?_, ?_⟩
    · rfl
    · rw [newArray_arrays_new, List.length_append]
    · intro i hi
      rw [newArray_arrays_new, List.getElem?_append_left hi]
    · intro j _
      rw [newArray_arrays_new, List.getElem?_append_right (Nat.le_add_right _ _),
        Nat.add_sub_cancel_left]
    · intro c hc
      exact newArray_arrays_old h _ c hc
  · intro op hop
    simp [evalInfixExpression, objectType, typesEqualTo, evalArrayInfixExpression, hop,
      unknownOperator, bind, Except.bind]

/-- C24 (instance): in the heap that holds the array `[1, 2, 3]` at address 1, adding the
array to itself gives the array `[1, 2, 3, 1, 2, 3]` at address 2 and leaves the array at
address 1 as it is; comparing the array with itself by `==` is an error. -/
theorem evalInfixExpression_array_concat_witness :
    (∃ h2, evalInfixExpression testHost "+" (.Array 1) (.Array 1) arrayHeap = .ok (.Array 2, h2) ∧
      h2.arrays 2 = [.Integer 1, .Integer 2, .Integer 3, .Integer 1, .Integer 2, .Integer 3] ∧
      h2.arrays 1 = [.Integer 1, .Integer 2, .Integer 3]) ∧
    evalInfixExpression testHost "==" (.Array 1) (.Array 1) arrayHeap
      = .ok (newError "unknown operator: ARRAY == ARRAY", arrayHeap) := by
  have h := evalInfixExpression_array_concat testHost 1 1 arrayHeap (by decide) (by decide)
  obtain ⟨⟨h2, h21, _, _, h22, _, _, _, h23⟩, h3⟩ := h
  exact ⟨⟨h2, h21, h22, h23 1 (by decide)⟩, h3 "==" (by decide)⟩

/-! ## Constant definitions -/

/-- C25: let `x` be neither a builtin nor a constant, and let `e` evaluate to a value
that is not an error and is of a kind other than integer, float, string, boolean and null
(an array, a hash, a function, a builtin, a return marker).  Then `const x = e` evaluates
to the error `Constants must be int, float, string, bool or null`, and the heap it leaves
is the heap left by the evaluation of `e`: the definition writes no slot, so `x` is bound
in no frame in which it was not bound after the evaluation of `e`. -/
theorem const_definition_rejects_non_scalar (host : Host) (fuel : Nat) (name : String)
    (val : Node) (env : Environment) (h h1 : Heap) (evaled : Object) (t : ObjectType)
    (hb : host.isBuiltin name = false) (hc : env.IsConst h name = false)
    (hev : Eval host fuel val env h = .ok (evaled, h1))
    (ht : objectType evaled = .ok t)
    (hk : t ≠ .INTEGER_OBJ ∧ t ≠ .FLOAT_OBJ ∧ t ≠ .STRING_OBJ ∧ t ≠ .BOOLEAN_OBJ ∧
      t ≠ .NULL_OBJ ∧ t ≠ .ERROR_OBJ) :
    ∃ h2, Eval host (fuel + 1) (.DefStatement name val true) env h
        = .ok (newError "Constants must be int, float, string, bool or null", h2) ∧
      h2 = h1 ∧ ∀ frame n, h2.stores frame n = h1.stores frame n := by
  refine ⟨h1, ?_, rfl, fun _ _ => rfl⟩
  obtain ⟨k1, k2, k3, k4, k5, k6⟩ := hk
  have herr : isError evaled = false := by
    cases evaled <;> first | rfl | (simp only [objectType, Except.ok.injEq] at ht; exact absurd ht.symm k6)
  have hs : objectIsScalar evaled = .ok false := by
    simp [objectIsScalar, ht, bind, Except.bind, k1, k2, k3, k4, k5]
  simp [Eval, evalNode, assignConstIdentValue, hb, hc, hev, herr, hs, bind, Except.bind]

/-- C25 (instance): `const x = [1]` in the root environment gives the error, and the
frame of the root environment afterwards has no slot for `x`. -/
theorem const_definition_rejects_non_scalar_witness :
    ∃ h2, Eval testHost 3 (.DefStatement "x" (.Array [.IntegerLiteral 1]) true) rootEnv rootHeap
        = .ok (newError "Constants must be int, float, string, bool or null", h2) ∧
      h2 = (rootHeap.newArray [.Integer 1]).2 ∧
      ∀ frame n, h2.stores frame n = (rootHeap.newArray [.Integer 1]).2.stores frame n :=
  const_definition_rejects_non_scalar testHost 2 "x" (.Array [.IntegerLiteral 1]) rootEnv
    rootHeap (rootHeap.newArray [.Integer 1]).2 (.Array 1) .ARRAY_OBJ rfl rfl rfl rfl
    (by decide)

/-! ## The script arguments -/

theorem getScriptArgsLoop_spec :
    ∀ (s : List String) (i : Nat) (pre post : List Object),
      pre.length = i + 1 → post.length = s.length →
      getScriptArgsLoop s i (pre ++ post) = .ok (pre ++ s.map Object.Str) := by
  intro s
  induction s with
  | nil =>
    intro i pre post _ hpost
    have : post = [] := List.length_eq_zero.mp hpost
    subst this
    simp [getScriptArgsLoop]
  | cons v rest ih =>
    intro i pre post hpre hpost
    cases post with
    | nil => simp at hpost
    | cons q post =>
      have hlen : i + 1 < (pre ++ q :: post).length := by
        simp only [List.length_append, List.length_cons]
        omega
      have hset : (pre ++ q :: post).set (i + 1) (.Str v) = (pre ++ [.Str v]) ++ post := by
        rw [← hpre, List.set_append_right _ _ (le_refl _), Nat.sub_self]
        simp
      simp only [getScriptArgsLoop, hlen, if_true, hset]
      have := ih (i + 1) (pre ++ [.Str v]) post (by simp [hpre])
        (by simpa using hpost)
      simpa using this

/-- C26: for every script path `p` and every list `[a1, ..., ak]` of further command-line
arguments (`flag.Args()` is the path followed by them), `getScriptArgs(p)` returns a new
array of length `k + 1` whose element 0 is the string `p` and whose element `i` is the
string `ai`, in the given order. -/
theorem getScriptArgs_builds_argv (script p : String) (as : List String) (h : Heap) :
    ∃ h2, getScriptArgs (script :: as) p h = .ok (.Array h.next, h2) ∧
      h2.arrays h.next = .Str p :: as.map Object.Str ∧
      (h2.arrays h.next).length = as.length + 1 ∧
      (h2.arrays h.next)[0]? = some (.Str p) ∧
      ∀ i, i < as.length → (h2.arrays h.next)[i + 1]? = (as[i]?).map Object.Str := by
  have hloop : getScriptArgsLoop as 0
      ((List.replicate (as.length + 1) Object.nil).set 0 (.Str p))
      = .ok (.Str p :: as.map Object.Str) := by
    have := getScriptArgsLoop_spec as 0 [.Str p] (List.replicate as.length Object.nil) rfl
      (by simp)
    simpa [List.replicate_succ] using this
  refine ⟨(h.newArray (.Str p :: as.map Object.Str)).2, ?_, newArray_arrays_new h _, ?_, ?_, ?_⟩
  · simp only [getScriptArgs, hloop, bind, Except.bind]
    rfl
  · rw [newArray_arrays_new]
    simp
  · rw [newArray_arrays_new]
    simp
  · intro i _
    rw [newArray_arrays_new]
    simp

/-! ## The builtin `push` -/

/-- C28: in the model of `push`, for every array `a` allocated in the heap and every value
`x`, `push(a, x)` returns an array at a fresh address whose elements are those of `a`
followed by `x`, of length `len(a) + 1`; a first argument of another kind gives the
error that names its kind; and a number of arguments other than 2 gives the error that
names the number. -/
theorem builtinPush_appends (host : Host) (h : Heap) :
    (∀ (a : Nat) (x : Object),
      ∃ h2, builtinPush host [.Array a, x] h = .ok (.Array h.next, h2) ∧
        h2.arrays h.next = h.arrays a ++ [x] ∧
        (h2.arrays h.next).length = (h.arrays a).length + 1) ∧
    (∀ (first x : Object) (t : ObjectType), objectType first = .ok t → t ≠ .ARRAY_OBJ →
      builtinPush host [first, x] h
        = .ok (newError ("Argument to `push` must be ARRAY, got " ++ host.typeName t), h)) ∧
    (∀ args : List Object, args.length ≠ 2 →
      builtinPush host args h
        = .ok (newError ("Incorrect number of arguments. Got " ++ toString args.length
            ++ ", expected 2"), h)) := by
  refine ⟨?_, ?_, ?_⟩
  · intro a x
    refine ⟨(h.newArray (h.arrays a ++ [x])).2, rfl, newArray_arrays_new h _, ?_⟩
    rw [newArray_arrays_new]
    simp
  · intro first x t ht hne
    cases first <;> simp_all [builtinPush, objectType, bind, Except.bind]
  · intro args hlen
    match args, hlen with
    | [], _ => rfl
    | [_], _ => rfl
    | [_, _], hlen => exact absurd rfl hlen
    | _ :: _ :: _ :: _, _ => rfl

/-- C28 (instance): the rows of `TestBuiltinPushFunction` on evaluated arguments:
`push([1, 2, 3], 4)` is `[1, 2, 3, 4]`, `push("four", "five")` and `push()` and
`push([1])` give the three messages of the test. -/
theorem builtinPush_appends_witness :
    (∃ h2, builtinPush testHost [.Array 1, .Integer 4] arrayHeap = .ok (.Array 2, h2) ∧
      h2.arrays 2 = [.Integer 1, .Integer 2, .Integer 3, .Integer 4]) ∧
    builtinPush testHost [.Str "four", .Str "five"] arrayHeap
      = .ok (newError "Argument to `push` must be ARRAY, got STRING", arrayHeap) ∧
    builtinPush testHost [] arrayHeap
      = .ok (newError "Incorrect number of arguments. Got 0, expected 2", arrayHeap) ∧
    builtinPush testHost [.Array 1] arrayHeap
      = .ok (newError "Incorrect number of arguments. Got 1, expected 2", arrayHeap) := by
  have h := builtinPush_appends testHost arrayHeap
  obtain ⟨h2, h21, h22, _⟩ := h.1 1 (.Integer 4)
  exact ⟨⟨h2, h21, h22⟩, h.2.1 (.Str "four") (.Str "five") .STRING_OBJ rfl (by decide),
    h.2.2 [] (by decide), h.2.2 [.Array 1] (by decide)⟩

/-! ## The order of the arguments of a call -/

theorem evalExpressionsLoop_in_order (ev : Evaluator) (env : Environment) :
    ∀ (exps : List Node) (acc : List Object) (h : Heap) (vs : List Object) (h2 : Heap),
      evalInOrder ev env exps h = .ok (vs, h2) → (∀ v ∈ vs, isError v = false) →
      evalExpressionsLoop ev env exps acc h = .ok (acc ++ vs, h2) := by
  intro exps
  induction exps with
  | nil =>
    intro acc h vs h2 hin _
    simp only [evalInOrder, Except.ok.injEq, Prod.mk.injEq] at hin
    obtain ⟨rfl, rfl⟩ := hin
    simp [evalExpressionsLoop]
  | cons e rest ih =>
    intro acc h vs h2 hin hok
    simp only [evalInOrder] at hin
    obtain ⟨⟨v, h1⟩, hv, hb⟩ := bind_eq_ok _ _ _ hin
    obtain ⟨⟨ws, h3⟩, hws, hc⟩ := bind_eq_ok _ _ _ hb
    simp only [Except.ok.injEq, Prod.mk.injEq] at hc
    obtain ⟨rfl, rfl⟩ := hc
    have hv0 : isError v = false := hok v (List.mem_cons_self v ws)
    have := ih (acc ++ [v]) h1 ws h3 hws (fun w hw => hok w (List.mem_cons_of_mem v hw))
    simp only [evalExpressionsLoop, hv, bind, Except.bind, hv0, Bool.false_eq_true, if_false]
    simpa using this

theorem evalExpressionsLoop_leftmost_error (ev : Evaluator) (env : Environment) :
    ∀ (pre : List Node) (e : Node) (post : List Node) (acc : List Object) (h : Heap)
      (vs : List Object) (h1 : Heap) (err : Object) (h2 : Heap),
      evalInOrder ev env pre h = .ok (vs, h1) → (∀ v ∈ vs, isError v = false) →
      ev e env h1 = .ok (err, h2) → isError err = true →
      evalExpressionsLoop ev env (pre ++ e :: post) acc h = .ok ([err], h2) := by
  intro pre
  induction pre with
  | nil =>
    intro e post acc h vs h1 err h2 hin _ he herr
    simp only [evalInOrder, Except.ok.injEq, Prod.mk.injEq] at hin
    obtain ⟨_, rfl⟩ := hin
    simp only [List.nil_append, evalExpressionsLoop, he, bind, Except.bind, herr, if_true]
  | cons p rest ih =>
    intro e post acc h vs h1 err h2 hin hok he herr
    simp only [evalInOrder] at hin
    obtain ⟨⟨v, h3⟩, hv, hb⟩ := bind_eq_ok _ _ _ hin
    obtain ⟨⟨ws, h4⟩, hws, hc⟩ := bind_eq_ok _ _ _ hb
    simp only [Except.ok.injEq, Prod.mk.injEq] at hc
    obtain ⟨rfl, rfl⟩ := hc
    have hv0 : isError v = false := hok v (List.mem_cons_self v ws)
    simp only [List.cons_append, evalExpressionsLoop, hv, bind, Except.bind, hv0,
      Bool.false_eq_true, if_false]
    exact ih e post (acc ++ [v]) h3 ws h4 err h2 hws
      (fun w hw => hok w (List.mem_cons_of_mem v hw)) he herr

theorem compileEach_append (comp : Compiler) :
    ∀ (xs ys : List Node) (ccb : codeBlockCompiler),
      compileEach comp (xs ++ ys) ccb = compileEach comp xs ccb >>= compileEach comp ys := by
  intro xs
  induction xs with
  | nil => intro ys ccb; rfl
  | cons x xs ih =>
    intro ys ccb
    simp only [List.cons_append, compileEach]
    cases hx : comp x ccb with
    | error e => rfl
    | ok c =>
      simp only [bind, Except.bind]
      exact ih ys c

theorem compileArguments_eq_reverse (comp : Compiler) (arguments : List Node) :
    ∀ (i : Nat) (ccb : codeBlockCompiler), i ≤ arguments.length →
      compileArguments comp arguments i ccb = compileEach comp (arguments.take i).reverse ccb := by
  intro i
  induction i with
  | zero => intro ccb _; rfl
  | succ n ih =>
    intro ccb hn
    have hlt : n < arguments.length := hn
    have hget : arguments[n]? = some arguments[n] := List.getElem?_eq_getElem hlt
    have htake : (arguments.take (n + 1)).reverse = arguments[n] :: (arguments.take n).reverse := by
      rw [List.take_succ, hget]
      simp
    rw [htake]
    simp only [compileArguments, hget, compileEach]
    cases hx : comp arguments[n] ccb with
    | error e => rfl
    | ok c =>
      simp only [bind, Except.bind]
      exact ih c (Nat.le_of_lt hlt)

/-- C23, as the code has it: `evalExpressions` evaluates the expressions in source order,
each in the heap left by the one before: when none of the values is an error it returns
the values in that order, and when an expression gives an error after error-free ones it
returns that error alone and evaluates none of the later expressions.  The compiler
writes the code of the arguments of a call from the last argument to the first, then the
code of the called expression, then `Call` with the number of arguments. -/
theorem call_arguments_order (ev : Evaluator) (env : Environment) (host : CompHost)
    (fuel : Nat) :
    (∀ (exps : List Node) (h : Heap) (vs : List Object) (h2 : Heap),
      evalInOrder ev env exps h = .ok (vs, h2) → (∀ v ∈ vs, isError v = false) →
      evalExpressions ev exps env h = .ok (vs, h2)) ∧
    (∀ (pre : List Node) (e : Node) (post : List Node) (h : Heap) (vs : List Object)
      (h1 : Heap) (err : Object) (h2 : Heap),
      evalInOrder ev env pre h = .ok (vs, h1) → (∀ v ∈ vs, isError v = false) →
      ev e env h1 = .ok (err, h2) → isError err = true →
      evalExpressions ev (pre ++ e :: post) env h = .ok ([err], h2)) ∧
    (∀ (function : Node) (arguments : List Node) (ccb : codeBlockCompiler),
      compile host (fuel + 1) (.CallExpression function arguments) ccb
        = (compileEach (compile host fuel) (arguments.reverse ++ [function]) ccb).map
            (fun c => (c.WriteByte host.opcode.Call).Write
              (host.bytes (toUint16 (arguments.length : Int))))) := by
  refine ⟨?_, ?_, ?_⟩
  · intro exps h vs h2 hin hok
    have := evalExpressionsLoop_in_order ev env exps [] h vs h2 hin hok
    simpa [evalExpressions] using this
  · intro pre e post h vs h1 err h2 hin hok he herr
    exact evalExpressionsLoop_leftmost_error ev env pre e post [] h vs h1 err h2 hin hok he herr
  · intro function arguments ccb
    have h1 := compileArguments_eq_reverse (compile host fuel) arguments arguments.length ccb
      (le_refl _)
    rw [List.take_length] at h1
    rw [compileEach_append]
    simp only [compile, compileNode, h1]
    cases hx : compileEach (compile host fuel) arguments.reverse ccb with
    | error e => rfl
    | ok c =>
      simp only [bind, Except.bind, compileEach]
      cases hy : compile host fuel function c with
      | error e => rfl
      | ok c2 => rfl

/-- C23 (instance): of the expressions `1`, `y`, `3` with `y` unbound, the error of `y`
is returned; `1`, `2` give the values 1, 2 in this order; and the code of the call
`f(1, x)` loads `x`, then the constant 1, then `f`. -/
theorem call_arguments_order_witness :
    evalExpressions (Eval testHost 1) [.IntegerLiteral 1, .Identifier "y", .IntegerLiteral 3]
        rootEnv rootHeap = .ok ([newError "identifier not found: y"], rootHeap) ∧
    evalExpressions (Eval testHost 1) [.IntegerLiteral 1, .IntegerLiteral 2] rootEnv rootHeap
        = .ok ([.Integer 1, .Integer 2], rootHeap) ∧
    codeOf (compile testCompHost 2
        (.CallExpression (.Identifier "f") [.IntegerLiteral 1, .Identifier "x"]) emptyCompiler)
      = some [testCompHost.opcode.LoadGlobal, 0, 0, testCompHost.opcode.LoadConst, 0, 0,
          testCompHost.opcode.LoadGlobal, 0, 1, testCompHost.opcode.Call, 0, 2] := by
  have h := call_arguments_order (Eval testHost 1) rootEnv testCompHost 1
  refine ⟨h.2.1 [.IntegerLiteral 1] (.Identifier "y") [.IntegerLiteral 3] rootHeap [.Integer 1]
      rootHeap (newError "identifier not found: y") rootHeap rfl ?_ rfl rfl,
    h.1 [.IntegerLiteral 1, .IntegerLiteral 2] rootHeap [.Integer 1, .Integer 2] rootHeap rfl ?_,
    ?_⟩
  · intro v hv
    simp only [List.mem_singleton] at hv
    subst hv
    rfl
  · intro v hv
    simp only [List.mem_cons, List.mem_singleton, List.not_mem_nil, or_false] at hv
    rcases hv with rfl | rfl <;> rfl
  · rw [h.2.2]
    rfl

/-- C23 (counterexample): for the call `f(1, x)` the code that the compiler writes is not
the code of the arguments in source order followed by the code of `f` and `Call`: it
starts with the load of `x`, the second argument, where the code in source order starts
with the load of the constant 1. -/
theorem compile_call_arguments_not_in_source_order :
    codeOf (compile testCompHost 2
        (.CallExpression (.Identifier "f") [.IntegerLiteral 1, .Identifier "x"]) emptyCompiler)
      = some [testCompHost.opcode.LoadGlobal, 0, 0, testCompHost.opcode.LoadConst, 0, 0,
          testCompHost.opcode.LoadGlobal, 0, 1, testCompHost.opcode.Call, 0, 2] ∧
    codeOf ((compileEach (compile testCompHost 1)
        [.IntegerLiteral 1, .Identifier "x", .Identifier "f"] emptyCompiler).map
          (fun c => (c.WriteByte testCompHost.opcode.Call).Write (testCompHost.bytes 2)))
      = some [testCompHost.opcode.LoadConst, 0, 0, testCompHost.opcode.LoadGlobal, 0, 0,
          testCompHost.opcode.LoadGlobal, 0, 1, testCompHost.opcode.Call, 0, 2] ∧
    codeOf (compile testCompHost 2
        (.CallExpression (.Identifier "f") [.IntegerLiteral 1, .Identifier "x"]) emptyCompiler)
      ≠ codeOf ((compileEach (compile testCompHost 1)
        [.IntegerLiteral 1, .Identifier "x", .Identifier "f"] emptyCompiler).map
          (fun c => (c.WriteByte testCompHost.opcode.Call).Write (testCompHost.bytes 2))) := by
  refine ⟨rfl, rfl, ?_⟩
  intro h
  have h1 : codeOf (compile testCompHost 2
      (.CallExpression (.Identifier "f") [.IntegerLiteral 1, .Identifier "x"]) emptyCompiler)
      = some [testCompHost.opcode.LoadGlobal, 0, 0, testCompHost.opcode.LoadConst, 0, 0,
          testCompHost.opcode.LoadGlobal, 0, 1, testCompHost.opcode.Call, 0, 2] := rfl
  have h2 : codeOf ((compileEach (compile testCompHost 1)
        [.IntegerLiteral 1, .Identifier "x", .Identifier "f"] emptyCompiler).map
          (fun c => (c.WriteByte testCompHost.opcode.Call).Write (testCompHost.bytes 2)))
      = some [testCompHost.opcode.LoadConst, 0, 0, testCompHost.opcode.LoadGlobal, 0, 0,
          testCompHost.opcode.LoadGlobal, 0, 1, testCompHost.opcode.Call, 0, 2] := rfl
  rw [h1, h2] at h
  revert h
  decide

/-! ## The compiler: what a call of `compile` leaves in place -/

theorem continues_refl (ccb : codeBlockCompiler) : ccb.continues ccb :=
  ⟨rfl, [], (List.append_nil _).symm⟩

theorem continues_trans {a b c : codeBlockCompiler} (h1 : a.continues b) (h2 : b.continues c) :
    a.continues c := by
  obtain ⟨o1, s1, e1⟩ := h1
  obtain ⟨o2, s2, e2⟩ := h2
  exact ⟨o2.trans o1, s1 ++ s2, by rw [e2, e1, List.append_assoc]⟩

theorem continues_WriteByte (ccb : codeBlockCompiler) (b : Nat) : ccb.continues (ccb.WriteByte b) :=
  ⟨rfl, [b], rfl⟩

theorem continues_Write (ccb : codeBlockCompiler) (p : List Nat) : ccb.continues (ccb.Write p) :=
  ⟨rfl, p, rfl⟩

theorem continues_writeLoadConst (host : CompHost) (ccb : codeBlockCompiler) (o : Object) :
    ccb.continues (writeLoadConst host ccb o) :=
  ⟨rfl, [host.opcode.LoadConst] ++ host.bytes (host.constantIndexOf ccb.constants o).1, by
    simp [writeLoadConst, codeBlockCompiler.Write, codeBlockCompiler.WriteByte]⟩

theorem continues_writeLocal (host : CompHost) (ccb : codeBlockCompiler) (op : Nat)
    (name : String) : ccb.continues (writeLocal host ccb op name) :=
  ⟨rfl, [op] ++ host.bytes (host.stringIndexOf ccb.locals name).1, by
    simp [writeLocal, codeBlockCompiler.Write, codeBlockCompiler.WriteByte]⟩

theorem continues_writeName (host : CompHost) (ccb : codeBlockCompiler) (op : Nat)
    (name : String) : ccb.continues (writeName host ccb op name) :=
  ⟨rfl, [op] ++ host.bytes (host.stringIndexOf ccb.names name).1, by
    simp [writeName, codeBlockCompiler.Write, codeBlockCompiler.WriteByte]⟩

theorem continues_ite (c : Prop) [Decidable c] (ccb a b : codeBlockCompiler)
    (ha : ccb.continues a) (hb : ccb.continues b) : ccb.continues (if c then a else b) := by
  split
  · exact ha
  · exact hb

theorem continues_writePrefixOperator (host : CompHost) (operator : String)
    (ccb : codeBlockCompiler) : ccb.continues (writePrefixOperator host operator ccb) := by
  unfold writePrefixOperator
  split
  · exact continues_WriteByte _ _
  · split
    · exact continues_WriteByte _ _
    · exact continues_refl _

theorem continues_writeInfixOperator (host : CompHost) (operator : String)
    (ccb : codeBlockCompiler) : ccb.continues (writeInfixOperator host operator ccb) := by
  unfold writeInfixOperator
  repeat' (apply continues_ite)
  all_goals
    first
    | exact continues_refl _
    | exact continues_WriteByte _ _
    | exact continues_trans (continues_WriteByte _ _) (continues_WriteByte _ _)

theorem compileEach_continues (comp : Compiler)
    (hcomp : ∀ n c o, comp n c = .ok o → c.continues o) :
    ∀ (xs : List Node) (ccb out : codeBlockCompiler),
      compileEach comp xs ccb = .ok out → ccb.continues out := by
  intro xs
  induction xs with
  | nil =>
    intro ccb out h
    simp only [compileEach, Except.ok.injEq] at h
    subst h
    exact continues_refl _
  | cons x xs ih =>
    intro ccb out h
    simp only [compileEach] at h
    obtain ⟨c, hc, hb⟩ := bind_eq_ok _ _ _ h
    exact continues_trans (hcomp _ _ _ hc) (ih _ _ hb)

theorem compilePairs_continues (comp : Compiler)
    (hcomp : ∀ n c o, comp n c = .ok o → c.continues o) :
    ∀ (xs : List (Node × Node)) (ccb out : codeBlockCompiler),
      compilePairs comp xs ccb = .ok out → ccb.continues out := by
  intro xs
  induction xs with
  | nil =>
    intro ccb out h
    simp only [compilePairs, Except.ok.injEq] at h
    subst h
    exact continues_refl _
  | cons x xs ih =>
    intro ccb out h
    obtain ⟨k, v⟩ := x
    simp only [compilePairs] at h
    obtain ⟨c, hc, hb⟩ := bind_eq_ok _ _ _ h
    obtain ⟨c2, hc2, hb2⟩ := bind_eq_ok _ _ _ hb
    exact continues_trans (hcomp _ _ _ hc) (continues_trans (hcomp _ _ _ hc2) (ih _ _ hb2))

theorem compileArguments_continues (comp : Compiler)
    (hcomp : ∀ n c o, comp n c = .ok o → c.continues o) (arguments : List Node) :
    ∀ (i : Nat) (ccb out : codeBlockCompiler),
      compileArguments comp arguments i ccb = .ok out → ccb.continues out := by
  intro i
  induction i with
  | zero =>
    intro ccb out h
    simp only [compileArguments, Except.ok.injEq] at h
    subst h
    exact continues_refl _
  | succ n ih =>
    intro ccb out h
    simp only [compileArguments] at h
    cases hg : arguments[n]? with
    | none => simp only [hg] at h; cases h
    | some a =>
      simp only [hg] at h
      obtain ⟨c, hc, hb⟩ := bind_eq_ok _ _ _ h
      exact continues_trans (hcomp _ _ _ hc) (ih _ _ hb)

theorem compileIfStatement_continues (host : CompHost) (comp : Compiler)
    (hcomp : ∀ n c o, comp n c = .ok o → c.continues o)
    (condition consequence : Node) (alternative : Option Node) (ccb out : codeBlockCompiler)
    (h : compileIfStatement host comp condition consequence alternative ccb = .ok out) :
    ccb.continues out := by
  unfold compileIfStatement at h
  obtain ⟨c1, hc1, hb⟩ := bind_eq_ok _ _ _ h
  obtain ⟨c2, _, hb2⟩ := bind_eq_ok _ _ _ hb
  obtain ⟨c3, _, hb3⟩ := bind_eq_ok _ _ _ hb2
  simp only [Except.ok.injEq] at hb3
  subst hb3
  refine continues_trans (hcomp _ _ _ hc1) ⟨rfl, ?_⟩
  simp only [codeBlockCompiler.Write, codeBlockCompiler.WriteByte, List.append_assoc]
  exact ⟨_, rfl⟩

theorem compileCompareExpression_continues (host : CompHost) (comp : Compiler)
    (hcomp : ∀ n c o, comp n c = .ok o → c.continues o)
    (left : Node) (isLAnd : Bool) (right : Node) (ccb out : codeBlockCompiler)
    (h : compileCompareExpression host comp left isLAnd right ccb = .ok out) :
    ccb.continues out := by
  unfold compileCompareExpression at h
  obtain ⟨c1, hc1, hb⟩ := bind_eq_ok _ _ _ h
  refine continues_trans (hcomp _ _ _ hc1) (continues_trans ?_ (hcomp _ _ _ hb))
  refine continues_trans ?_ (continues_Write _ _)
  split
  · exact continues_WriteByte _ _
  · exact continues_WriteByte _ _

theorem compileNode_continues (host : CompHost) (comp : Compiler)
    (hcomp : ∀ n c o, comp n c = .ok o → c.continues o)
    (node : Node) (ccb out : codeBlockCompiler)
    (h : compileNode host comp node ccb = .ok out) : ccb.continues out := by
  cases node with
  | ExpressionStatement e => exact hcomp _ _ _ h
  | BlockStatement stmts => exact compileEach_continues comp hcomp _ _ _ h
  | IntegerLiteral v =>
    simp only [compileNode, Except.ok.injEq] at h
    subst h
    exact continues_writeLoadConst _ _ _
  | NullLiteral =>
    simp only [compileNode, Except.ok.injEq] at h
    subst h
    exact continues_writeLoadConst _ _ _
  | StringLiteral v =>
    simp only [compileNode, Except.ok.injEq] at h
    subst h
    exact continues_writeLoadConst _ _ _
  | FloatLiteral v =>
    simp only [compileNode, Except.ok.injEq] at h
    subst h
    exact continues_writeLoadConst _ _ _
  | Boolean v =>
    simp only [compileNode, Except.ok.injEq] at h
    subst h
    exact continues_writeLoadConst _ _ _
  | Array elements =>
    simp only [compileNode] at h
    obtain ⟨c, hc, hb⟩ := bind_eq_ok _ _ _ h
    simp only [Except.ok.injEq] at hb
    subst hb
    exact continues_trans (compileEach_continues comp hcomp _ _ _ hc)
      (continues_trans (continues_WriteByte _ _) (continues_Write _ _))
  | HashLiteral pairs =>
    simp only [compileNode] at h
    obtain ⟨c, hc, hb⟩ := bind_eq_ok _ _ _ h
    simp only [Except.ok.injEq] at hb
    subst hb
    exact continues_trans (compilePairs_continues comp hcomp _ _ _ hc)
      (continues_trans (continues_WriteByte _ _) (continues_Write _ _))
  | Identifier v =>
    simp only [compileNode] at h
    split at h
    · simp only [Except.ok.injEq] at h
      subst h
      exact continues_writeLocal _ _ _ _
    · simp only [Except.ok.injEq] at h
      subst h
      exact continues_writeName _ _ _ _
  | PrefixExpression op right =>
    simp only [compileNode] at h
    obtain ⟨c, hc, hb⟩ := bind_eq_ok _ _ _ h
    simp only [Except.ok.injEq] at hb
    subst hb
    exact continues_trans (hcomp _ _ _ hc) (continues_writePrefixOperator _ _ _)
  | InfixExpression left op right =>
    simp only [compileNode] at h
    obtain ⟨c, hc, hb⟩ := bind_eq_ok _ _ _ h
    obtain ⟨c2, hc2, hb2⟩ := bind_eq_ok _ _ _ hb
    simp only [Except.ok.injEq] at hb2
    subst hb2
    exact continues_trans (hcomp _ _ _ hc)
      (continues_trans (hcomp _ _ _ hc2) (continues_writeInfixOperator _ _ _))
  | CallExpression f args =>
    simp only [compileNode] at h
    obtain ⟨c, hc, hb⟩ := bind_eq_ok _ _ _ h
    obtain ⟨c2, hc2, hb2⟩ := bind_eq_ok _ _ _ hb
    simp only [Except.ok.injEq] at hb2
    subst hb2
    exact continues_trans (compileArguments_continues comp hcomp _ _ _ _ hc)
      (continues_trans (hcomp _ _ _ hc2)
        (continues_trans (continues_WriteByte _ _) (continues_Write _ _)))
  | ReturnStatement v =>
    simp only [compileNode] at h
    obtain ⟨c, hc, hb⟩ := bind_eq_ok _ _ _ h
    simp only [Except.ok.injEq] at hb
    subst hb
    exact continues_trans (hcomp _ _ _ hc) (continues_WriteByte _ _)
  | DefStatement name v c =>
    simp only [compileNode] at h
    obtain ⟨c, hc, hb⟩ := bind_eq_ok _ _ _ h
    simp only [Except.ok.injEq] at hb
    subst hb
    exact continues_trans (hcomp _ _ _ hc) (continues_writeLocal _ _ _ _)
  | AssignStatement left v =>
    simp only [compileNode] at h
    obtain ⟨c, hc, hb⟩ := bind_eq_ok _ _ _ h
    cases left
    case Identifier ident =>
      simp only [Except.ok.injEq] at hb
      subst hb
      exact continues_trans (hcomp _ _ _ hc) (continues_writeLocal _ _ _ _)
    all_goals cases hb
  | IfExpression c t e => exact compileIfStatement_continues host comp hcomp _ _ _ _ _ h
  | CompareExpression l a r => exact compileCompareExpression_continues host comp hcomp _ _ _ _ _ h
  | FunctionLiteral ps body =>
    simp only [compileNode, compileFunction, Except.ok.injEq] at h
    subst h
    exact continues_refl _
  | Other =>
    simp only [compileNode, Except.ok.injEq] at h
    subst h
    exact continues_refl _
  | Program _ => cases h
  | IndexExpression _ _ => cases h
  | ThrowStatement => cases h
  | ForLoopStatement => cases h
  | ContinueStatement => cases h
  | BreakStatement => cases h
  | TryCatchExpression => cases h
  | ClassLiteral => cases h
  | MakeInstance => cases h

theorem compile_continues (host : CompHost) :
    ∀ (fuel : Nat) (node : Node) (ccb out : codeBlockCompiler),
      compile host fuel node ccb = .ok out → ccb.continues out := by
  intro fuel
  induction fuel with
  | zero => intro node ccb out h; cases h
  | succ n ih =>
    intro node ccb out h
    exact compileNode_continues host (compile host n) ih node ccb out h

/-! ## The compiler: constructs that are passed over in silence -/

/-- C22 (the code at the failing input): for a function literal `compile` returns
normally and leaves the code buffer, the tables and the offset as they were: no
instruction is written and nothing fails.  So the program `def f = func(x) { x }`
compiles, to the code of a store with no value before it. -/
theorem compile_FunctionLiteral_emits_nothing (host : CompHost) (fuel : Nat)
    (parameters : List String) (body : Node) (ccb : codeBlockCompiler) :
    compile host (fuel + 1) (.FunctionLiteral parameters body) ccb = .ok ccb ∧
    (Compile testCompHost 3
        [.DefStatement "f" (.FunctionLiteral ["x"] (.BlockStatement
          [.ExpressionStatement (.Identifier "x")])) false]).toOption.map CodeBlock.Code
      = some [testCompHost.opcode.StoreFast, 0, 0, testCompHost.opcode.LoadConst, 0, 0,
          testCompHost.opcode.Return] :=
  ⟨rfl, rfl⟩

/-! ## The compiler: the jump of an `if` -/

/-- C29 (the code, in general): let the condition, the consequence and the alternative of
an `if` compile; let `m` be the length of the code buffer after the condition, `T` the
length of the code of the consequence and `F` that of the alternative.  Then the buffer
after the `if` is: the `m` bytes, `PopJumpIfFalse` with the operand
`m + 2 * T + offset - 2`, the consequence, `Pop`, `JumpForward` with the operand `F`,
and the alternative, whose first byte is therefore at `m + T + 7`.  The operand is the
place of the alternative, counted from the offset of the buffer, only if `T = 9`. -/
theorem compileIfStatement_jump_operand (host : CompHost) (fuel : Nat)
    (condition consequence alternative : Node) (ccb c1 c2 c3 : codeBlockCompiler)
    (h1 : compile host fuel condition ccb = .ok c1)
    (h2 : compile host fuel consequence
      { c1 with offset := (c1.code.length : Int) + c1.offset, code := [] } = .ok c2)
    (h3 : compile host fuel alternative
      { c2 with offset := (c2.code.length : Int) + (c2.code.length : Int) + c2.offset - 2,
                code := [] } = .ok c3) :
    ∃ out, compile host (fuel + 1) (.IfExpression condition consequence (some alternative)) ccb
        = .ok out ∧
      out.code = c1.code ++ [host.opcode.PopJumpIfFalse]
        ++ host.bytes (toUint16 ((c1.code.length : Int) + 2 * (c2.code.length : Int) + ccb.offset - 2))
        ++ c2.code ++ [host.opcode.Pop, host.opcode.JumpForward]
        ++ host.bytes (toUint16 (c3.code.length : Int)) ++ c3.code ∧
      out.code.drop (c1.code.length + c2.code.length + 7) = c3.code ∧
      ((c1.code.length : Int) + 2 * (c2.code.length : Int) + ccb.offset - 2
          = ccb.offset + ((c1.code.length + c2.code.length + 7 : Nat) : Int)
        ↔ c2.code.length = 9) := by
  have o1 : c1.offset = ccb.offset := (compile_continues host fuel _ _ _ h1).1
  have o2 : c2.offset = (c1.code.length : Int) + c1.offset :=
    (compile_continues host fuel _ _ _ h2).1
  have hloc : (c2.code.length : Int) + (c2.code.length : Int) + c2.offset - 2
      = (c1.code.length : Int) + 2 * (c2.code.length : Int) + ccb.offset - 2 := by
    rw [o2, o1]
    ring
  have hdrop : ∀ (a b : List Nat) (x y z u v w t : Nat) (c : List Nat),
      (a ++ [x] ++ [y, z] ++ b ++ [u, v] ++ [w, t] ++ c).drop (a.length + b.length + 7) = c := by
    intro a b x y z u v w t c
    have e : (a ++ [x] ++ [y, z] ++ b ++ [u, v] ++ [w, t]).length = a.length + b.length + 7 := by
      simp only [List.length_append, List.length_cons, List.length_nil]
      omega
    rw [← e, List.drop_left]
  refine ⟨{ c3 with
      code := c1.code ++ [host.opcode.PopJumpIfFalse]
        ++ host.bytes (toUint16 ((c1.code.length : Int) + 2 * (c2.code.length : Int) + ccb.offset - 2))
        ++ c2.code ++ [host.opcode.Pop, host.opcode.JumpForward]
        ++ host.bytes (toUint16 (c3.code.length : Int)) ++ c3.code,
      offset := c1.offset }, ?_, rfl, ?_, ?_⟩
  · rw [hloc] at h3
    simp only [compile, compileNode, compileIfStatement, h1, h2, hloc, h3, bind, Except.bind,
      codeBlockCompiler.Write, codeBlockCompiler.WriteByte, List.append_assoc,
      List.singleton_append, List.cons_append, List.nil_append]
  · exact hdrop _ _ _ _ _ _ _ _ _ _
  · constructor
    · intro h
      omega
    · intro h
      omega

/-- C29 (the failing input): for `if (true) { 1 } else { 2 }` at the start of a frame the
code is 16 bytes: the operand of `PopJumpIfFalse` is 7, which is the second operand byte
of the load in the consequence, and the code of the alternative starts at byte 13. -/
theorem compileIfStatement_jump_operand_witness :
    ∃ out, compile testCompHost 4 (.IfExpression (.Boolean true)
        (.BlockStatement [.ExpressionStatement (.IntegerLiteral 1)])
        (some (.BlockStatement [.ExpressionStatement (.IntegerLiteral 2)]))) emptyCompiler
        = .ok out ∧
      out.code = [testCompHost.opcode.LoadConst, 0, 0] ++ [testCompHost.opcode.PopJumpIfFalse]
        ++ [0, 7] ++ [testCompHost.opcode.LoadConst, 0, 1]
        ++ [testCompHost.opcode.Pop, testCompHost.opcode.JumpForward] ++ [0, 3]
        ++ [testCompHost.opcode.LoadConst, 0, 2] ∧
      out.code.drop 13 = [testCompHost.opcode.LoadConst, 0, 2] ∧
      (((3 : Nat) : Int) + 2 * ((3 : Nat) : Int) + 0 - 2 = 0 + ((3 + 3 + 7 : Nat) : Int)
        ↔ 3 = 9) :=
  compileIfStatement_jump_operand testCompHost 3 (.Boolean true)
    (.BlockStatement [.ExpressionStatement (.IntegerLiteral 1)])
    (.BlockStatement [.ExpressionStatement (.IntegerLiteral 2)]) emptyCompiler
    ⟨[TRUE], [], [], [testCompHost.opcode.LoadConst, 0, 0], 0⟩
    ⟨[TRUE, .Integer 1], [], [], [testCompHost.opcode.LoadConst, 0, 1], 3⟩
    ⟨[TRUE, .Integer 1, .Integer 2], [], [], [testCompHost.opcode.LoadConst, 0, 2], 7⟩
    rfl rfl rfl

/-! ## The compiler: the jump of a short-circuit expression -/

/-- C30 (the code, in general): let both operands of `a && b` or `a || b` compile, and let
`m` be the length of the code buffer after the code of `a`.  Then the buffer afterwards
is: the `m` bytes, `JumpIfFalseOrPop` (for `&&`) or `JumpIfTrueOrPop` (for `||`) with
the operand `m + 3`, and the code of `b`.  The operand is the place of the first byte of
the code of `b`; the place right after the code of `b` is `m + 3` plus the length of
that code, so the two agree only if `b` has no code. -/
theorem compileCompareExpression_jump_operand (host : CompHost) (fuel : Nat)
    (left : Node) (isLAnd : Bool) (right : Node) (ccb c1 c2 : codeBlockCompiler)
    (h1 : compile host fuel left ccb = .ok c1)
    (h2 : compile host fuel right
      ((if isLAnd then c1.WriteByte host.opcode.JumpIfFalseOrPop
        else c1.WriteByte host.opcode.JumpIfTrueOrPop).Write
          (host.bytes (toUint16 ((c1.code.length : Int) + 3)))) = .ok c2) :
    compile host (fuel + 1) (.CompareExpression left isLAnd right) ccb = .ok c2 ∧
    ∃ codeB, c2.code = c1.code
        ++ [if isLAnd then host.opcode.JumpIfFalseOrPop else host.opcode.JumpIfTrueOrPop]
        ++ host.bytes (toUint16 ((c1.code.length : Int) + 3)) ++ codeB ∧
      c2.code.drop (c1.code.length + 3) = codeB ∧
      c2.code.length = c1.code.length + 3 + codeB.length ∧
      (c1.code.length + 3 = c2.code.length ↔ codeB = []) := by
  constructor
  · simp only [compile, compileNode, compileCompareExpression, h1, bind, Except.bind]
    exact h2
  · obtain ⟨_, s, hs⟩ := compile_continues host fuel _ _ _ h2
    have hcode : c2.code = c1.code
        ++ [if isLAnd then host.opcode.JumpIfFalseOrPop else host.opcode.JumpIfTrueOrPop]
        ++ host.bytes (toUint16 ((c1.code.length : Int) + 3)) ++ s := by
      rw [hs]
      cases isLAnd <;> simp [codeBlockCompiler.Write, codeBlockCompiler.WriteByte]
    have hlen : c2.code.length = c1.code.length + 3 + s.length := by
      rw [hcode]
      simp [CompHost.bytes]
      omega
    refine ⟨s, hcode, ?_, hlen, ?_⟩
    · rw [hcode]
      have e : (c1.code
          ++ [if isLAnd then host.opcode.JumpIfFalseOrPop else host.opcode.JumpIfTrueOrPop]
          ++ host.bytes (toUint16 ((c1.code.length : Int) + 3))).length
          = c1.code.length + 3 := by
        simp [CompHost.bytes]
      rw [← e, List.drop_left]
    · rw [hlen]
      constructor
      · intro h
        exact List.length_eq_zero.mp (by omega)
      · intro h
        rw [h]
        rfl

/-- C30 (the failing input): for `false && true` at the start of a frame the code is 9
bytes: the load of `false`, `JumpIfFalseOrPop` with the operand 6, and the load of
`true` in the bytes 6 to 8.  The jump taken for the false left operand leads to the
load of the right operand, not behind it. -/
theorem compileCompareExpression_jump_operand_witness :
    compile testCompHost 2 (.CompareExpression (.Boolean false) true (.Boolean true))
        emptyCompiler
      = .ok ⟨[FALSE, TRUE], [], [], [testCompHost.opcode.LoadConst, 0, 0,
          testCompHost.opcode.JumpIfFalseOrPop, 0, 6, testCompHost.opcode.LoadConst, 0, 1], 0⟩ ∧
    ∃ codeB, [testCompHost.opcode.LoadConst, 0, 0, testCompHost.opcode.JumpIfFalseOrPop, 0, 6,
          testCompHost.opcode.LoadConst, 0, 1]
        = [testCompHost.opcode.LoadConst, 0, 0] ++ [testCompHost.opcode.JumpIfFalseOrPop]
          ++ [0, 6] ++ codeB ∧
      [testCompHost.opcode.LoadConst, 0, 0, testCompHost.opcode.JumpIfFalseOrPop, 0, 6,
          testCompHost.opcode.LoadConst, 0, 1].drop (3 + 3) = codeB ∧
      9 = 3 + 3 + codeB.length ∧
      (3 + 3 = 9 ↔ codeB = []) :=
  compileCompareExpression_jump_operand testCompHost 1 (.Boolean false) true (.Boolean true)
    emptyCompiler ⟨[FALSE], [], [], [testCompHost.opcode.LoadConst, 0, 0], 0⟩
    ⟨[FALSE, TRUE], [], [], [testCompHost.opcode.LoadConst, 0, 0,
      testCompHost.opcode.JumpIfFalseOrPop, 0, 6, testCompHost.opcode.LoadConst, 0, 1], 0⟩
    rfl rfl

/-! ## The lexer: comments -/

theorem readSingleLineCommentLoop_line (r : List Char) (t0 : Token) :
    ∀ (fuel : Nat) (t acc : List Char), (∀ c ∈ t, c ≠ '\n') → t.length < fuel →
      Lexer.readSingleLineCommentLoop fuel (Lexer.ofStream (t ++ '\n' :: r) t0) acc
        = .ok (⟨.COMMENT, String.mk (TrimSpace (acc ++ t))⟩, Lexer.ofStream ('\n' :: r) t0) := by
  intro fuel
  induction fuel with
  | zero => intro t acc _ hf; exact absurd hf (Nat.not_lt_zero _)
  | succ n ih =>
    intro t acc ht hf
    cases t with
    | nil =>
      simp only [List.nil_append, Lexer.readSingleLineCommentLoop, curCh_ofStream_cons, ne_eq,
        not_true_eq_false, if_false, List.append_nil]
    | cons c t =>
      have h1 := ht c (List.mem_cons_self c t)
      simp only [List.cons_append, Lexer.readSingleLineCommentLoop, curCh_ofStream_cons, h1,
        ne_eq, not_false_eq_true, if_true, readRune_ofStream, List.tail_cons]
      have := ih t (acc ++ [c]) (fun d hd => ht d (List.mem_cons_of_mem c hd))
        (by simp only [List.length_cons] at hf; omega)
      simpa using this

theorem readMultiLineCommentLoop_body (r : List Char) (t0 : Token) :
    ∀ (fuel : Nat) (t acc : List Char), (∀ c ∈ t, c ≠ NUL) → ¬ ['*', '/'] <:+: t →
      t.length < fuel →
      Lexer.readMultiLineCommentLoop fuel (Lexer.ofStream (t ++ '*' :: '/' :: r) t0) acc
        = .ok (⟨.COMMENT, String.mk (acc ++ t)⟩, Lexer.ofStream ('/' :: r) t0) := by
  intro fuel
  induction fuel with
  | zero => intro t acc _ _ hf; exact absurd hf (Nat.not_lt_zero _)
  | succ n ih =>
    intro t acc ht hin hf
    cases t with
    | nil =>
      simp only [List.nil_append, Lexer.readMultiLineCommentLoop, curCh_ofStream_cons,
        Lexer.peekChar, peekCh_ofStream_cons, NUL_eq, Char.reduceEq, ne_eq, not_false_eq_true,
        if_true, decide_True, Bool.and_self, readRune_ofStream, List.tail_cons, List.append_nil]
    | cons c t =>
      have h1 : c ≠ NUL := ht c (List.mem_cons_self c t)
      have hnot : (decide (c = '*') && decide ((Lexer.ofStream (c :: (t ++ '*' :: '/' :: r)) t0).peekCh = '/')) = false := by
        rw [Bool.and_eq_false_iff]
        by_cases hc : c = '*'
        · right
          cases t with
          | nil =>
            simp only [List.nil_append, peekCh_ofStream_cons, Char.reduceEq, decide_False]
          | cons d t =>
            have hd : d ≠ '/' := by
              intro hd
              apply hin
              rw [hc, hd]
              exact ⟨[], t, rfl⟩
            simp only [List.cons_append, peekCh_ofStream_cons, hd, decide_False]
        · left
          simp only [hc, decide_False]
      have hin2 : ¬ ['*', '/'] <:+: t := by
        intro h
        apply hin
        obtain ⟨a, b, hab⟩ := h
        exact ⟨c :: a, b, by rw [← hab]; rfl⟩
      simp only [List.cons_append, Lexer.readMultiLineCommentLoop, curCh_ofStream_cons,
        Lexer.peekChar, h1, ne_eq, not_false_eq_true, if_true, hnot, Bool.false_eq_true,
        if_false, readRune_ofStream, List.tail_cons]
      have := ih t (acc ++ [c]) (fun d hd => ht d (List.mem_cons_of_mem c hd)) hin2
        (by simp only [List.length_cons] at hf; omega)
      simpa using this

/-- C21 (amended): let the lexer stand at `#t` or `//t` followed by a newline, for a text
`t` without newline: then `NextToken` returns the token COMMENT whose literal is `t`
without the whitespace at its two ends, and the lexer stands behind the newline.  Let it
stand at `/*t*/` for a text `t` that contains neither `*/` nor the rune 0: then
`NextToken` returns the token COMMENT with the literal `t`, and the lexer stands at the
rune right after the closing `*/`. -/
theorem NextToken_comments (host : LexHost) (n : Nat) (t r : List Char) (t0 : Token)
    (hfuel : t.length < n + 1) :
    ((∀ c ∈ t, c ≠ '\n') →
      Lexer.NextToken host (n + 1) (Lexer.ofStream ('#' :: t ++ '\n' :: r) t0)
        = .ok (⟨.COMMENT, String.mk (TrimSpace t)⟩,
            Lexer.ofStream r ⟨.COMMENT, String.mk (TrimSpace t)⟩) ∧
      Lexer.NextToken host (n + 1) (Lexer.ofStream ('/' :: '/' :: t ++ '\n' :: r) t0)
        = .ok (⟨.COMMENT, String.mk (TrimSpace t)⟩,
            Lexer.ofStream r ⟨.COMMENT, String.mk (TrimSpace t)⟩)) ∧
    ((∀ c ∈ t, c ≠ NUL) → ¬ ['*', '/'] <:+: t →
      Lexer.NextToken host (n + 1) (Lexer.ofStream ('/' :: '*' :: t ++ '*' :: '/' :: r) t0)
        = .ok (⟨.COMMENT, String.mk t⟩, Lexer.ofStream r ⟨.COMMENT, String.mk t⟩)) := by
  refine ⟨fun ht => ⟨?_, ?_⟩, fun ht hin => ?_⟩
  · rw [NextToken_of_not_blank host n _ t0 (by rfl)]
    have := readSingleLineCommentLoop_line r t0 (n + 1) t [] ht hfuel
    simp only [List.cons_append, Lexer.nextTokenSwitch, curCh_ofStream_cons, Char.reduceEq,
      ↓reduceIte, Lexer.readSingleLineComment, readRune_ofStream, List.tail_cons, this, bind,
      Except.bind, finish_ofStream, List.nil_append]
  · rw [NextToken_of_not_blank host n _ t0 (by rfl)]
    have := readSingleLineCommentLoop_line r t0 (n + 1) t [] ht hfuel
    simp only [List.cons_append, Lexer.nextTokenSwitch, curCh_ofStream_cons, Char.reduceEq,
      ↓reduceIte, Lexer.peekChar, peekCh_ofStream_cons, Lexer.readSingleLineComment,
      readRune_ofStream, List.tail_cons, this, bind, Except.bind, finish_ofStream,
      List.nil_append]
  · rw [NextToken_of_not_blank host n _ t0 (by rfl)]
    have := readMultiLineCommentLoop_body r t0 (n + 1) t [] ht hin hfuel
    simp only [List.cons_append, Lexer.nextTokenSwitch, curCh_ofStream_cons, Char.reduceEq,
      ↓reduceIte, Lexer.peekChar, peekCh_ofStream_cons, Lexer.readMultiLineComment,
      readRune_ofStream, List.tail_cons, this, bind, Except.bind, finish_ofStream,
      List.nil_append]

/-- C21 (instance): `# a b ` and `// a b ` before a newline and `x` give the comment
`a b`, and `/* a**/` before `x` gives the comment ` a*`; the lexer then stands at `x`. -/
theorem NextToken_comments_witness :
    (Lexer.NextToken testLexHost 7 (Lexer.ofStream "# a b \nx".toList ⟨.SEMICOLON, ";"⟩)
        = .ok (⟨.COMMENT, "a b"⟩, Lexer.ofStream ['x'] ⟨.COMMENT, "a b"⟩) ∧
      Lexer.NextToken testLexHost 7 (Lexer.ofStream "// a b \nx".toList ⟨.SEMICOLON, ";"⟩)
        = .ok (⟨.COMMENT, "a b"⟩, Lexer.ofStream ['x'] ⟨.COMMENT, "a b"⟩)) ∧
    Lexer.NextToken testLexHost 4 (Lexer.ofStream "/* a**/x".toList ⟨.SEMICOLON, ";"⟩)
        = .ok (⟨.COMMENT, " a*"⟩, Lexer.ofStream ['x'] ⟨.COMMENT, " a*"⟩) :=
  ⟨(NextToken_comments testLexHost 6 " a b ".toList ['x'] ⟨.SEMICOLON, ";"⟩ (by decide)).1
      (by decide),
    (NextToken_comments testLexHost 3 " a*".toList ['x'] ⟨.SEMICOLON, ";"⟩ (by decide)).2
      (by decide) (by decide)⟩

/-- C21 (counterexample): the text `a`, rune 0, `b` does not contain `*/`, yet the source
`/*` text `*/` does not lex to a comment with that text: the comment ends at the rune 0,
its literal is `a`, and the lexer goes on at `b*/`. -/
theorem NextToken_comment_ends_at_rune_zero :
    ¬ ['*', '/'] <:+: ['a', NUL, 'b'] ∧
    Lexer.NextToken testLexHost 9 (NewString ['/', '*', 'a', NUL, 'b', '*', '/'])
      = .ok (⟨.COMMENT, "a"⟩, Lexer.ofStream ['b', '*', '/'] ⟨.COMMENT, "a"⟩) ∧
    (⟨.COMMENT, "a"⟩ : Token) ≠ ⟨.COMMENT, String.mk ['a', NUL, 'b']⟩ := by
  refine ⟨by decide, rfl, by decide⟩

/-! ## The lexer on the input of `TestNextToken` -/

set_option maxRecDepth 100000 in
theorem lexAll_TestNextToken_input :
    Lexer.lexAll testLexHost 300 100 (NewString TestNextToken_input)
      = .ok (TestNextToken_tests.take 38
          ++ [⟨.COMMENT, String.mk (TestNextToken_input.drop 115)⟩, ⟨.EOF, ""⟩]) := by
  rfl

/-- C27 (the code at the failing input): on the input of `TestNextToken` the lexer does
not return the table of the test.  It returns 40 tokens where the table has 82: the first
38 entries of the table, in order (the tokens up to BANG and MINUS), then one COMMENT
token whose literal is the rest of the input behind `/*`, then EOF.  The line of the four
operators `!`, `-`, `/`, `*` before `5;`, lexed alone, gives BANG, MINUS, COMMENT and EOF, since
`/*` opens a comment that nothing closes; the table expects BANG, MINUS, SLASH, ASTERISK,
INT and SEMICOLON.  On the two lines of the string literals alone the lexer returns STRING,
SEMICOLON, STRING, SEMICOLON and EOF, and on `}` followed by an empty line and `10 == 10;`
it returns RBRACE, SEMICOLON, INT, EQ, INT, SEMICOLON and EOF, where the table has no
SEMICOLON behind a string literal or behind `}`. -/
theorem TestNextToken_lexes_to_comment :
    Lexer.lexAll testLexHost 300 100 (NewString TestNextToken_input)
      = .ok (TestNextToken_tests.take 38
          ++ [⟨.COMMENT, String.mk (TestNextToken_input.drop 115)⟩, ⟨.EOF, ""⟩]) ∧
    Lexer.lexAll testLexHost 300 100 (NewString TestNextToken_input)
      ≠ .ok TestNextToken_tests ∧
    TestNextToken_tests.length = 82 ∧
    (TestNextToken_tests.drop 36).take 6
      = [⟨.BANG, "!"⟩, ⟨.MINUS, "-"⟩, ⟨.SLASH, "/"⟩, ⟨.ASTERISK, "*"⟩, ⟨.INT, "5"⟩,
          ⟨.SEMICOLON, ";"⟩] ∧
    TestNextToken_input.take 115 = TestNextToken_input.take 113 ++ ['/', '*'] ∧
    Lexer.lexAll testLexHost 30 10 (NewString "\t\t!-/*5;\n".toList)
      = .ok [⟨.BANG, "!"⟩, ⟨.MINUS, "-"⟩, ⟨.COMMENT, "5;\n"⟩, ⟨.EOF, ""⟩] ∧
    Lexer.lexAll testLexHost 30 10 (NewString "\t\t\"foobar\"\n\t\t\"foo bar\"\n".toList)
      = .ok [⟨.STRING, "foobar"⟩, ⟨.SEMICOLON, ";"⟩, ⟨.STRING, "foo bar"⟩, ⟨.SEMICOLON, ";"⟩,
          ⟨.EOF, ""⟩] ∧
    Lexer.lexAll testLexHost 30 10 (NewString "\t\t\x7d\n\n\t\t10 == 10;\n".toList)
      = .ok [⟨.RBRACE, "\x7d"⟩, ⟨.SEMICOLON, ";"⟩, ⟨.INT, "10"⟩, ⟨.EQ, "=="⟩, ⟨.INT, "10"⟩,
          ⟨.SEMICOLON, ";"⟩, ⟨.EOF, ""⟩] := by
  refine ⟨lexAll_TestNextToken_input, ?_, by decide, by decide, by decide, rfl, rfl, rfl⟩
  rw [lexAll_TestNextToken_input]
  intro h
  have hlen := congrArg List.length (Except.ok.inj h)
  revert hlen
  decide

/-! ## The prefix operator `!` -/

/-- C33 (the code, in general and at the failing inputs): `evalBangOpExpression` gives
the boolean true for exactly three values, the boolean false, null and the integer 0.
For the empty string, the float `0.0` and an array it gives false, although `isTruthy`
is false for each of them; so `!""` evaluates to false. -/
theorem evalBangOpExpression_is_not_negated_truthiness :
    (∀ v : Object, evalBangOpExpression v = .ok TRUE ↔ (v = FALSE ∨ v = NULL ∨ v = .Integer 0)) ∧
    (evalBangOpExpression (.Str "") = .ok FALSE ∧ isTruthy (.Str "") = .ok false) ∧
    (evalBangOpExpression (.Float 0) = .ok FALSE ∧ isTruthy (.Float 0) = .ok false) ∧
    (evalBangOpExpression (.Array 0) = .ok FALSE ∧ isTruthy (.Array 0) = .ok false) ∧
    valueOf (Eval testHost 2 (.PrefixExpression "!" (.StringLiteral "")) rootEnv rootHeap)
      = .ok FALSE := by
  refine ⟨?_, ⟨rfl, rfl⟩, ⟨rfl, rfl⟩, ⟨rfl, rfl⟩, rfl⟩
  intro v
  cases v with
  | Integer value =>
    by_cases hv : value = 0
    · subst hv
      simp [evalBangOpExpression, ptrEq, FALSE, NULL, TRUE, objectType, bind, Except.bind]
    · simp [evalBangOpExpression, ptrEq, FALSE, NULL, TRUE, objectType, bind, Except.bind, hv]
  | Boolean value =>
    cases value <;>
      simp [evalBangOpExpression, ptrEq, FALSE, NULL, TRUE, objectType, bind, Except.bind]
  | _ => simp [evalBangOpExpression, ptrEq, FALSE, NULL, TRUE, objectType, bind, Except.bind]

/-! ## Indexed assignment -/

/-- C34 (the code, in general): when the target of an indexed assignment evaluates to a
value that is not an error, `assignIndexedValue` either does not return or returns null:
whatever `assignArrayIndex` or `assignHashMapIndex` return is dropped, an error of the
index is not looked at, and a target that is neither an array nor a hash is passed
over. -/
theorem assignIndexedValue_returns_null (host : Host) (ev : Evaluator) (left index val : Node)
    (env : Environment) (h h1 : Heap) (indexed : Object)
    (hl : ev left env h = .ok (indexed, h1)) (hne : isError indexed = false) :
    valueOf (assignIndexedValue host ev left index val env h) = .ok NULL ∨
    ∃ e, assignIndexedValue host ev left index val env h = .error e := by
  cases hr : assignIndexedValue host ev left index val env h with
  | error e => exact Or.inr ⟨e, rfl⟩
  | ok p =>
    left
    obtain ⟨r, h2⟩ := p
    suffices hnull : r = NULL by rw [hnull]; rfl
    simp only [assignIndexedValue, hl, bind, Except.bind, hne, Bool.false_eq_true, if_false] at hr
    cases hi : ev index env h1 with
    | error e => simp only [hi] at hr; cases hr
    | ok p =>
      obtain ⟨idx, h3⟩ := p
      simp only [hi] at hr
      cases ht : objectType indexed with
      | error e => simp only [ht] at hr; cases hr
      | ok t =>
        simp only [ht] at hr
        split at hr
        · obtain ⟨q, _, hb⟩ := bind_eq_ok _ _ _ hr
          simp only [Except.ok.injEq, Prod.mk.injEq] at hb
          exact hb.1.symm
        · obtain ⟨q, _, hb⟩ := bind_eq_ok _ _ _ hr
          simp only [Except.ok.injEq, Prod.mk.injEq] at hb
          exact hb.1.symm
        · simp only [Except.ok.injEq, Prod.mk.injEq] at hr
          exact hr.1.symm

/-- C34 (the failing inputs): in the heap with the array `[1, 2, 3]` at address 1, the
call of `assignArrayIndex` for the string index `"x"` gives the error
`Invalid array index type STRING`, yet the assignment with that index evaluates to null;
so do the assignments `[1, 2, 3][0] = y` and `[1, 2, 3][y] = 9` with `y` unbound, and
`5[0] = 9`. -/
theorem assignIndexedValue_returns_null_witness :
    valueOf (assignArrayIndex testHost (Eval testHost 1) 1 (.Str "x") (.IntegerLiteral 9)
        rootEnv arrayHeap)
      = .ok (newError "Invalid array index type STRING") ∧
    valueOf (assignIndexedValue testHost (Eval testHost 2)
        (.Array [.IntegerLiteral 1, .IntegerLiteral 2, .IntegerLiteral 3]) (.StringLiteral "x")
        (.IntegerLiteral 9) rootEnv rootHeap) = .ok NULL ∧
    valueOf (assignIndexedValue testHost (Eval testHost 2)
        (.Array [.IntegerLiteral 1, .IntegerLiteral 2, .IntegerLiteral 3]) (.IntegerLiteral 0)
        (.Identifier "y") rootEnv rootHeap) = .ok NULL ∧
    valueOf (assignIndexedValue testHost (Eval testHost 2)
        (.Array [.IntegerLiteral 1, .IntegerLiteral 2, .IntegerLiteral 3]) (.Identifier "y")
        (.IntegerLiteral 9) rootEnv rootHeap) = .ok NULL ∧
    valueOf (assignIndexedValue testHost (Eval testHost 2) (.IntegerLiteral 5)
        (.IntegerLiteral 0) (.IntegerLiteral 9) rootEnv rootHeap) = .ok NULL := by
  refine ⟨rfl, ?_, ?_, ?_, ?_⟩
  · exact (assignIndexedValue_returns_null testHost (Eval testHost 2)
      (.Array [.IntegerLiteral 1, .IntegerLiteral 2, .IntegerLiteral 3]) (.StringLiteral "x")
      (.IntegerLiteral 9) rootEnv rootHeap arrayHeap (.Array 1) rfl rfl).resolve_right
      (fun ⟨_, he⟩ => by cases he)
  · exact (assignIndexedValue_returns_null testHost (Eval testHost 2)
      (.Array [.IntegerLiteral 1, .IntegerLiteral 2, .IntegerLiteral 3]) (.IntegerLiteral 0)
      (.Identifier "y") rootEnv rootHeap arrayHeap (.Array 1) rfl rfl).resolve_right
      (fun ⟨_, he⟩ => by cases he)
  · exact (assignIndexedValue_returns_null testHost (Eval testHost 2)
      (.Array [.IntegerLiteral 1, .IntegerLiteral 2, .IntegerLiteral 3]) (.Identifier "y")
      (.IntegerLiteral 9) rootEnv rootHeap arrayHeap (.Array 1) rfl rfl).resolve_right
      (fun ⟨_, he⟩ => by cases he)
  · exact (assignIndexedValue_returns_null testHost (Eval testHost 2) (.IntegerLiteral 5)
      (.IntegerLiteral 0) (.IntegerLiteral 9) rootEnv rootHeap rootHeap (.Integer 5) rfl
      rfl).resolve_right (fun ⟨_, he⟩ => by cases he)

/-! ## Calls with too few arguments -/

theorem extendFunctionEnvLoop_too_few (env : Environment) (args : List Object) :
    ∀ (parameters : List String) (i : Nat) (h : Heap), i ≤ args.length →
      args.length < i + parameters.length →
      extendFunctionEnvLoop env parameters i args h = .error .indexOutOfRange := by
  intro parameters
  induction parameters with
  | nil =>
    intro i h hle hlt
    simp only [List.length_nil, Nat.add_zero] at hlt
    exact absurd hlt (by omega)
  | cons p rest ih =>
    intro i h hle hlt
    simp only [extendFunctionEnvLoop]
    cases hg : args[i]? with
    | none => rfl
    | some a =>
      have hi : i < args.length := by
        by_contra hcon
        rw [List.getElem?_eq_none (by omega)] at hg
        cases hg
      simp only
      exact ih (i + 1) _ hi (by simp only [List.length_cons] at hlt; omega)

/-- C35 (the code, in general): a call of a user function with fewer arguments than
parameters does not return: `extendFunctionEnv` reads `args[i]` for every parameter, and
the read beyond the last argument is an index out of range. -/
theorem applyFunction_too_few_arguments_panics (host : Host) (ev : Evaluator) (id : Nat)
    (parameters : List String) (body : Node) (fnEnv : Environment) (args : List Object)
    (h : Heap) (hlt : args.length < parameters.length) :
    applyFunction host ev (.Function id parameters body fnEnv) args h
      = .error .indexOutOfRange := by
  have := extendFunctionEnvLoop_too_few (NewEnclosedEnv h fnEnv).1 args parameters 0
    (NewEnclosedEnv h fnEnv).2 (Nat.zero_le _) (by omega)
  simp only [applyFunction, extendFunctionEnv, this, bind, Except.bind]

/-- C35 (the failing input): the function `func(x) { x }` called without argument. -/
theorem applyFunction_too_few_arguments_panics_witness :
    applyFunction testHost (Eval testHost 3)
        (.Function 1 ["x"] (.BlockStatement [.ExpressionStatement (.Identifier "x")]) rootEnv)
        [] rootHeap
      = .error .indexOutOfRange :=
  applyFunction_too_few_arguments_panics testHost (Eval testHost 3) 1 ["x"]
    (.BlockStatement [.ExpressionStatement (.Identifier "x")]) rootEnv [] rootHeap (by decide)

/-! ## Identifiers with a period, and the rune after a hexadecimal literal -/

/-- C32 (the code at the failing input): for every keyword table and every
classification of letters, the three runes `a.b` lex to a single token whose literal is
`a.b`, with the kind that `LookupIdent` gives to `a.b`, and the lexer then stands at
the end of the input; with the table of the closed instances that kind is IDENT, and the
sequence of tokens of `a.b` is that identifier, the semicolon of the end of the input and
EOF.  The loop of `readIdentifier` goes on while `isIdent` or `isDigit` holds, and
`isDigit` holds for the period, which `isIdent` alone leaves out. -/
theorem NextToken_identifier_with_period (host : LexHost) :
    Lexer.NextToken host 5 (NewString ['a', '.', 'b'])
      = Except.ok (⟨host.LookupIdent "a.b", "a.b"⟩,
          Lexer.ofStream [] ⟨host.LookupIdent "a.b", "a.b"⟩) ∧
    isIdent host '.' = false ∧ isDigit '.' = true ∧
    Lexer.lexAll testLexHost 5 5 (NewString ['a', '.', 'b'])
      = Except.ok [⟨TokenType.IDENT, "a.b"⟩, ⟨TokenType.SEMICOLON, ";"⟩, ⟨TokenType.EOF, ""⟩] ∧
    Lexer.lexAll testLexHost 8 5 (NewString ['x', '.', '.', '1', '.'])
      = Except.ok [⟨TokenType.IDENT, "x..1."⟩, ⟨TokenType.SEMICOLON, ";"⟩,
          ⟨TokenType.EOF, ""⟩] :=
  ⟨rfl, rfl, rfl, rfl, rfl⟩

/-- C36 (the code at the failing inputs): the source backslash, `x1F`, `;`, `2` lexes to
INT `0x1F`, INT `2`, the semicolon of the end of the input and EOF: the `;` that follows
the hexadecimal literal gives no token, while the decimal source `31;2` lexes to INT `31`,
SEMICOLON, INT `2`, the semicolon of the end and EOF.  Likewise backslash, `x1F`, `+`, `1`
lexes to INT `0x1F`, INT `1` with no PLUS in between.  After the hexadecimal literal the
lexer stands at the `2`, after the decimal literal at the `;`. -/
theorem NextToken_drops_rune_after_hexadecimal_literal :
    Lexer.lexAll testLexHost 6 6 (NewString ['\\', 'x', '1', 'F', ';', '2'])
      = Except.ok [⟨TokenType.INT, "0x1F"⟩, ⟨TokenType.INT, "2"⟩, ⟨TokenType.SEMICOLON, ";"⟩,
          ⟨TokenType.EOF, ""⟩] ∧
    Lexer.lexAll testLexHost 6 6 (NewString ['3', '1', ';', '2'])
      = Except.ok [⟨TokenType.INT, "31"⟩, ⟨TokenType.SEMICOLON, ";"⟩, ⟨TokenType.INT, "2"⟩,
          ⟨TokenType.SEMICOLON, ";"⟩, ⟨TokenType.EOF, ""⟩] ∧
    Lexer.lexAll testLexHost 6 6 (NewString ['\\', 'x', '1', 'F', '+', '1'])
      = Except.ok [⟨TokenType.INT, "0x1F"⟩, ⟨TokenType.INT, "1"⟩, ⟨TokenType.SEMICOLON, ";"⟩,
          ⟨TokenType.EOF, ""⟩] ∧
    Lexer.NextToken testLexHost 6 (NewString ['\\', 'x', '1', 'F', ';', '2'])
      = Except.ok (⟨TokenType.INT, "0x1F"⟩, Lexer.ofStream ['2'] ⟨TokenType.INT, "0x1F"⟩) ∧
    Lexer.NextToken testLexHost 6 (NewString ['3', '1', ';', '2'])
      = Except.ok (⟨TokenType.INT, "31"⟩, Lexer.ofStream [';', '2'] ⟨TokenType.INT, "31"⟩) :=
  ⟨rfl, rfl, rfl, rfl, rfl⟩

/-! ## The string functions `dedupString` and `format` -/

theorem dedupLoop_eq_collapseAfter {α : Type} [DecidableEq α] (c : α) (s : List α) :
    ∀ (lastc : α) (newstr : List α),
      dedupLoop c s lastc newstr = newstr ++ collapseAfter c (decide (lastc = c)) s := by
  induction s with
  | nil => intro lastc newstr; simp [dedupLoop, collapseAfter]
  | cons char rest ih =>
    intro lastc newstr
    by_cases hc : char = c
    · by_cases hl : char = lastc
      · have hlc : lastc = c := hl ▸ hc
        simp [dedupLoop, collapseAfter, hc, hlc, ih]
      · have hlc : ¬ lastc = c := fun h => hl (hc.trans h.symm)
        have hcl : ¬ c = lastc := fun h => hlc h.symm
        simp [dedupLoop, collapseAfter, hc, hlc, hcl, ih]
    · simp [dedupLoop, collapseAfter, hc, ih]

theorem dedupLoop_map {α β : Type} [DecidableEq α] [DecidableEq β] (f : α → β)
    (hf : Function.Injective f) (c : α) (s : List α) :
    ∀ (lastc : α) (newstr : List α),
      (dedupLoop c s lastc newstr).map f = dedupLoop (f c) (s.map f) (f lastc) (newstr.map f) := by
  induction s with
  | nil => intro lastc newstr; rfl
  | cons char rest ih =>
    intro lastc newstr
    by_cases h : char = c ∧ char = lastc
    · have h2 : f char = f c ∧ f char = f lastc := ⟨congrArg f h.1, congrArg f h.2⟩
      simp only [dedupLoop, List.map_cons]
      rw [if_pos h, if_pos h2]
      exact ih _ _
    · have h2 : ¬ (f char = f c ∧ f char = f lastc) := fun h3 => h ⟨hf h3.1, hf h3.2⟩
      simp only [dedupLoop, List.map_cons]
      rw [if_neg h, if_neg h2, ih]
      simp only [List.map_append, List.map_cons, List.map_nil]

theorem Char_toNat_injective : Function.Injective Char.toNat := by
  intro a b h
  apply Char.ext
  apply UInt32.ext
  exact h

theorem hasAdjacent_collapseAfter {α : Type} [DecidableEq α] (c : α) (s : List α) :
    ∀ prev : Bool, hasAdjacent c (collapseAfter c prev s) = false ∧
      ∀ x, x = c → hasAdjacent c (x :: collapseAfter c true s) = false := by
  induction s with
  | nil => intro prev; simp [collapseAfter, hasAdjacent]
  | cons y rest ih =>
    intro prev
    by_cases hy : y = c
    · constructor
      · cases prev
        · simpa [collapseAfter, hy] using (ih true).2 c rfl
        · simpa [collapseAfter, hy] using (ih true).1
      · intro x hx
        simpa [collapseAfter, hy] using (ih true).2 x hx
    · constructor
      · cases hr : collapseAfter c false rest with
        | nil => simp [collapseAfter, hy, hr, hasAdjacent]
        | cons z zs =>
          have := (ih false).1
          rw [hr] at this
          simp [collapseAfter, hy, hr, hasAdjacent, this]
      · intro x hx
        have h1 : hasAdjacent c (y :: collapseAfter c false rest) = false := by
          cases hr : collapseAfter c false rest with
          | nil => simp [hasAdjacent]
          | cons z zs =>
            have := (ih false).1
            rw [hr] at this
            simp [hasAdjacent, hy, this]
        simp [collapseAfter, hy, hasAdjacent, h1]

/-- The reference notion is sound: a collapsed string has no two adjacent `c`. -/
theorem hasAdjacent_collapseRuns {α : Type} [DecidableEq α] (c : α) (s : List α) :
    hasAdjacent c (collapseRuns c s) = false :=
  (hasAdjacent_collapseAfter c s false).1

theorem collapseAfter_of_no_adjacent {α : Type} [DecidableEq α] (c : α) (s : List α) :
    ∀ prev : Bool, hasAdjacent c s = false → (prev = true → s.head? ≠ some c) →
      collapseAfter c prev s = s := by
  induction s with
  | nil => intro prev _ _; rfl
  | cons y rest ih =>
    intro prev hadj hprev
    have hrest : hasAdjacent c rest = false := by
      cases rest with
      | nil => rfl
      | cons z zs =>
        simp only [hasAdjacent, Bool.or_eq_false_iff] at hadj
        exact hadj.2
    by_cases hy : y = c
    · have hp : prev = false := by
        cases prev
        · rfl
        · exact absurd (by simp [hy]) (hprev rfl)
      have hnext : rest.head? ≠ some c := by
        cases rest with
        | nil => simp
        | cons z zs =>
          simp only [hasAdjacent, Bool.or_eq_false_iff, Bool.and_eq_false_imp,
            decide_eq_true_eq, decide_eq_false_iff_not] at hadj
          simpa using hadj.1 hy
      simp [collapseAfter, hy, hp]
      simpa [hy] using ih true hrest (fun _ => hnext)
    · simp [collapseAfter, hy]
      exact ih false hrest (fun h => by cases h)

/-- The reference notion is sound: a string without two adjacent `c` is left as it
is. -/
theorem collapseRuns_of_no_adjacent {α : Type} [DecidableEq α] (c : α) (s : List α)
    (h : hasAdjacent c s = false) : collapseRuns c s = s :=
  collapseAfter_of_no_adjacent c s false h (fun h => by cases h)

/-- C37 (the code, in general, and at the failing input): `dedupString` collapses the
runs of `c` as if the string were preceded by the rune 0 (the byte 0 in the module), the
initial value of `lastc`: for every string and every `c` the result is `collapseAfter`
started with the flag `c = 0`.  So for `c` other than 0 it is the string with each
maximal run of `c` replaced by a single `c`, while for `c = 0` a run of `c` at the very
start is dropped whole: the string of the rune 0 followed by `a`, which has no two
adjacent `c`, comes back as `a`, and a leading run of two is dropped where one of the two
should stay.  The two versions agree on the code points of the string, which for ASCII
are its bytes. -/
theorem dedupString_drops_leading_zero_run :
    (∀ (s : List Char) (c : Char),
      StringBuiltin.dedupString s c = collapseAfter c (decide (NUL = c)) s) ∧
    (∀ (s : List Nat) (c : Nat),
      StringsModule.dedupString s c = collapseAfter c (decide (0 = c)) s) ∧
    StringBuiltin.dedupString [NUL, 'a'] NUL = ['a'] ∧
    collapseRuns NUL [NUL, 'a'] = [NUL, 'a'] ∧
    hasAdjacent NUL [NUL, 'a'] = false ∧
    StringBuiltin.dedupString [NUL, NUL, 'a', NUL, NUL] NUL = ['a', NUL] ∧
    collapseRuns NUL [NUL, NUL, 'a', NUL, NUL] = [NUL, 'a', NUL] ∧
    StringsModule.dedupString [0, 97] 0 = [97] ∧
    collapseRuns 0 [0, 97] = [0, 97] ∧
    StringBuiltin.dedupString "aa//b///c/".toList '/' = "aa/b/c/".toList ∧
    (∀ (s : List Char) (c : Char),
      (StringBuiltin.dedupString s c).map Char.toNat
        = StringsModule.dedupString (s.map Char.toNat) c.toNat) := by
  refine ⟨fun s c => ?_, fun s c => ?_, by decide, by decide, by decide, by decide, by decide,
    by decide, by decide, by decide, fun s c => ?_⟩
  · simpa using dedupLoop_eq_collapseAfter c s NUL []
  · simpa using dedupLoop_eq_collapseAfter c s 0 []
  · exact dedupLoop_map Char.toNat Char_toNat_injective c s NUL []

/-- C38 (the code at the failing inputs): `vmStrFormat` looks for the first `{}` of
the text so far, the inserted arguments included.  For the template `{} {}` and the
arguments rendered as `{}` and `x` it returns `x {}`, where the substitution by position
gives `{} x`: the second argument lands inside the text of the first, and the second
placeholder of the template stays.  For the template `{{}}` and the arguments rendered as
the empty string and `22` it returns `22`, where the substitution by position gives `{}`.
On arguments without braces the two agree, as for `a{}b{}c{}` with `1` and `22`. -/
theorem vmStrFormat_rescans_inserted_text :
    vmStrFormat "\x7b\x7d \x7b\x7d".toList ["\x7b\x7d".toList, "x".toList]
      = "x \x7b\x7d".toList ∧
    formatPositional "\x7b\x7d \x7b\x7d".toList ["\x7b\x7d".toList, "x".toList]
      = "\x7b\x7d x".toList ∧
    vmStrFormat "\x7b\x7b\x7d\x7d".toList ["".toList, "22".toList] = "22".toList ∧
    formatPositional "\x7b\x7b\x7d\x7d".toList ["".toList, "22".toList] = "\x7b\x7d".toList ∧
    vmStrFormat "a\x7b\x7db\x7b\x7dc\x7b\x7d".toList ["1".toList, "22".toList]
      = "a1b22c\x7b\x7d".toList ∧
    formatPositional "a\x7b\x7db\x7b\x7dc\x7b\x7d".toList ["1".toList, "22".toList]
      = "a1b22c\x7b\x7d".toList := by
  refine ⟨by decide, by decide, by decide, by decide, by decide, by decide⟩

/-! ## The instruction buffer -/

theorem LenLoop_eq (host : InstHost) (is : List Instruction) :
    ∀ size, InstSet.LenLoop host is size
      = size + (is.map (fun i => 1 + host.width i.Instr)).sum := by
  induction is with
  | nil => intro size; simp [InstSet.LenLoop]
  | cons i rest ih =>
    intro size
    have hw : host.width i.Instr = if host.HasOneByteArg i.Instr then 1
        else if host.HasTwoByteArg i.Instr then 2
        else if host.HasFourByteArg i.Instr then 4 else 0 := rfl
    simp only [InstSet.LenLoop, List.map_cons, List.sum_cons]
    rw [hw]
    split_ifs <;> rw [ih] <;> omega

theorem length_encode (host : InstHost) (i : Instruction) :
    (host.encode i).length = 1 + host.width i.Instr := by
  unfold InstHost.encode InstHost.width
  split_ifs <;> rfl

theorem encodeAll_cons_label (host : InstHost) (i : Instruction) (rest : List Instruction)
    (h : i.Is host.Label = true) : host.encodeAll (i :: rest) = host.encodeAll rest := by
  simp [InstHost.encodeAll, InstHost.nonLabels, List.filter_cons, h]

theorem encodeAll_cons_nonLabel (host : InstHost) (i : Instruction) (rest : List Instruction)
    (h : i.Is host.Label = false) :
    host.encodeAll (i :: rest) = host.encode i ++ host.encodeAll rest := by
  simp [InstHost.encodeAll, InstHost.nonLabels, List.filter_cons, h]

theorem sum_sizes_eq (host : InstHost) (is : List Instruction) :
    (is.map (fun i => 1 + host.width i.Instr)).sum
      = (host.encodeAll is).length + host.labelCount is * (1 + host.width host.Label) := by
  induction is with
  | nil => simp [InstHost.encodeAll, InstHost.nonLabels, InstHost.labelCount]
  | cons i rest ih =>
    cases hl : i.Is host.Label with
    | true =>
      have hi : i.Instr = host.Label := by simpa [Instruction.Is] using hl
      rw [encodeAll_cons_label host i rest hl]
      simp only [List.map_cons, List.sum_cons, ih, InstHost.labelCount, List.filter_cons, hl,
        if_true, List.length_cons, hi]
      ring
    | false =>
      rw [encodeAll_cons_nonLabel host i rest hl]
      simp only [List.map_cons, List.sum_cons, ih, InstHost.labelCount, List.filter_cons, hl,
        List.length_append, length_encode, Bool.false_eq_true, if_false]
      ring

/-- The count of `InstSet.Len`: the bytes of the instructions that are not labels, and
for every label one byte and the argument bytes of the opcode `Label`. -/
theorem Len_eq (host : InstHost) (is : List Instruction) :
    InstSet.Len host is
      = (host.encodeAll is).length + host.labelCount is * (1 + host.width host.Label) := by
  rw [InstSet.Len, LenLoop_eq, sum_sizes_eq]
  omega

theorem storeByte_append (p : List Nat) (k o b : Nat) (ho : o = p.length) :
    storeByte (p ++ List.replicate (k + 1) 0) o b = .ok ((p ++ [b]) ++ List.replicate k 0) := by
  subst ho
  simp [storeByte, List.replicate_succ]

theorem indexSlice_zero (l : List Nat) (h : 1 ≤ l.length) :
    indexSlice l 0 = .ok (l.headD 0) := by
  cases l with
  | nil => simp at h
  | cons x xs => simp [indexSlice]

theorem indexSlice_one (l : List Nat) (h : 2 ≤ l.length) :
    indexSlice l 1 = .ok (l.tail.headD 0) := by
  cases l with
  | nil => simp at h
  | cons x xs =>
    cases xs with
    | nil => simp at h
    | cons y ys => simp [indexSlice]

theorem encode_oneByte (host : InstHost) (i : Instruction) (h1 : host.HasOneByteArg i.Instr = true) :
    host.encode i = [i.Instr, i.Args.headD 0 % 256] := by
  simp [InstHost.encode, h1]

theorem encode_twoByte (host : InstHost) (i : Instruction) (h1 : host.HasOneByteArg i.Instr = false)
    (h2 : host.HasTwoByteArg i.Instr = true) :
    host.encode i = [i.Instr, (host.uint16ToBytes (i.Args.headD 0)).1,
      (host.uint16ToBytes (i.Args.headD 0)).2] := by
  simp [InstHost.encode, h1, h2]

theorem encode_fourByte (host : InstHost) (i : Instruction) (h1 : host.HasOneByteArg i.Instr = false)
    (h2 : host.HasTwoByteArg i.Instr = false) (h4 : host.HasFourByteArg i.Instr = true) :
    host.encode i = [i.Instr, (host.uint16ToBytes (i.Args.headD 0)).1,
      (host.uint16ToBytes (i.Args.headD 0)).2, (host.uint16ToBytes (i.Args.tail.headD 0)).1,
      (host.uint16ToBytes (i.Args.tail.headD 0)).2] := by
  simp [InstHost.encode, h1, h2, h4]

theorem encode_noArg (host : InstHost) (i : Instruction) (h1 : host.HasOneByteArg i.Instr = false)
    (h2 : host.HasTwoByteArg i.Instr = false) (h4 : host.HasFourByteArg i.Instr = false) :
    host.encode i = [i.Instr] := by
  simp [InstHost.encode, h1, h2, h4]

/-- The invariant of the loop of `Assemble`: on a buffer that holds `pre` and then `n`
zero bytes, with the offset at the end of `pre`, the loop writes the encodings of the
instructions that are not labels and leaves the zero bytes it does not reach. -/
theorem AssembleLoop_spec (host : InstHost) (is : List Instruction) :
    ∀ (pre : List Nat) (n : Nat),
      (∀ i ∈ host.nonLabels is, host.argCount i.Instr ≤ i.Args.length) →
      (host.encodeAll is).length ≤ n →
      InstSet.AssembleLoop host is (pre ++ List.replicate n 0) pre.length
        = .ok (pre ++ host.encodeAll is
            ++ List.replicate (n - (host.encodeAll is).length) 0) := by
  induction is with
  | nil =>
    intro pre n _ _
    simp [InstSet.AssembleLoop, InstHost.encodeAll, InstHost.nonLabels]
  | cons i rest ih =>
    intro pre n hargs hn
    cases hl : i.Is host.Label with
    | true =>
      rw [encodeAll_cons_label host i rest hl] at hn ⊢
      simp only [InstSet.AssembleLoop, hl, if_true]
      apply ih pre n _ hn
      intro j hj
      apply hargs
      simpa [InstHost.nonLabels, List.filter_cons, hl] using hj
    | false =>
      have hmem : i ∈ host.nonLabels (i :: rest) := by
        simp [InstHost.nonLabels, List.filter_cons, hl]
      have hrest : ∀ j ∈ host.nonLabels rest, host.argCount j.Instr ≤ j.Args.length := by
        intro j hj
        apply hargs
        simp only [InstHost.nonLabels, List.filter_cons, hl, Bool.not_false, if_true,
          List.mem_cons]
        exact Or.inr hj
      have hi := hargs i hmem
      rw [encodeAll_cons_nonLabel host i rest hl] at hn ⊢
      rw [List.length_append] at hn
      simp only [InstSet.AssembleLoop, hl, Bool.false_eq_true, if_false]
      cases h1 : host.HasOneByteArg i.Instr with
      | true =>
        rw [encode_oneByte host i h1] at hn ⊢
        simp only [InstHost.argCount, h1, if_true] at hi
        obtain ⟨m, rfl⟩ : ∃ m, n = m + 2 := ⟨n - 2, by simp at hn; omega⟩
        have e := ih (pre ++ [i.Instr] ++ [i.Args.headD 0 % 256]) m hrest
          (by simp at hn; omega)
        simp only [List.length_append, List.length_singleton] at e
        simp only [storeByte_append pre (m + 1) pre.length i.Instr rfl, indexSlice_zero _ hi,
          storeByte_append (pre ++ [i.Instr]) m (pre.length + 1) _ (by simp), bind, Except.bind,
          if_true, e]
        simp [List.append_assoc]
      | false =>
        cases h2 : host.HasTwoByteArg i.Instr with
        | true =>
          rw [encode_twoByte host i h1 h2] at hn ⊢
          simp only [InstHost.argCount, h1, h2, Bool.false_eq_true, if_false, if_true] at hi
          obtain ⟨m, rfl⟩ : ∃ m, n = m + 3 := ⟨n - 3, by simp at hn; omega⟩
          have e := ih (pre ++ [i.Instr] ++ [(host.uint16ToBytes (i.Args.headD 0)).1]
            ++ [(host.uint16ToBytes (i.Args.headD 0)).2]) m hrest (by simp at hn; omega)
          simp only [List.length_append, List.length_singleton] at e
          simp only [storeByte_append pre (m + 2) pre.length i.Instr rfl, indexSlice_zero _ hi,
            storeByte_append (pre ++ [i.Instr]) (m + 1) (pre.length + 1) _ (by simp),
            storeByte_append (pre ++ [i.Instr] ++ [(host.uint16ToBytes (i.Args.headD 0)).1]) m
              (pre.length + 1 + 1) _ (by simp),
            bind, Except.bind, if_true, Bool.false_eq_true, if_false, e]
          simp [List.append_assoc]
        | false =>
          cases h4 : host.HasFourByteArg i.Instr with
          | true =>
            rw [encode_fourByte host i h1 h2 h4] at hn ⊢
            simp only [InstHost.argCount, h1, h2, h4, Bool.false_eq_true, if_false, if_true] at hi
            obtain ⟨m, rfl⟩ : ∃ m, n = m + 5 := ⟨n - 5, by simp at hn; omega⟩
            have e := ih (pre ++ [i.Instr] ++ [(host.uint16ToBytes (i.Args.headD 0)).1]
              ++ [(host.uint16ToBytes (i.Args.headD 0)).2]
              ++ [(host.uint16ToBytes (i.Args.tail.headD 0)).1]
              ++ [(host.uint16ToBytes (i.Args.tail.headD 0)).2]) m hrest (by simp at hn; omega)
            simp only [List.length_append, List.length_singleton] at e
            simp only [storeByte_append pre (m + 4) pre.length i.Instr rfl,
              indexSlice_zero _ (Nat.le_of_succ_le hi), indexSlice_one _ hi,
              storeByte_append (pre ++ [i.Instr]) (m + 3) (pre.length + 1) _ (by simp),
              storeByte_append (pre ++ [i.Instr] ++ [(host.uint16ToBytes (i.Args.headD 0)).1])
                (m + 2) (pre.length + 1 + 1) _ (by simp),
              storeByte_append (pre ++ [i.Instr] ++ [(host.uint16ToBytes (i.Args.headD 0)).1]
                ++ [(host.uint16ToBytes (i.Args.headD 0)).2]) (m + 1) (pre.length + 1 + 2) _
                (by simp),
              storeByte_append (pre ++ [i.Instr] ++ [(host.uint16ToBytes (i.Args.headD 0)).1]
                ++ [(host.uint16ToBytes (i.Args.headD 0)).2]
                ++ [(host.uint16ToBytes (i.Args.tail.headD 0)).1]) m (pre.length + 1 + 3) _
                (by simp),
              bind, Except.bind, if_true, Bool.false_eq_true, if_false]
            have e2 : pre.length + 1 + 4 = pre.length + 1 + 1 + 1 + 1 + 1 := by omega
            rw [e2, e]
            simp [List.append_assoc]
          | false =>
            rw [encode_noArg host i h1 h2 h4] at hn ⊢
            obtain ⟨m, rfl⟩ : ∃ m, n = m + 1 := ⟨n - 1, by simp at hn; omega⟩
            have e := ih (pre ++ [i.Instr]) m hrest (by simp at hn; omega)
            simp only [List.length_append, List.length_singleton] at e
            simp only [storeByte_append pre m pre.length i.Instr rfl, bind, Except.bind,
              Bool.false_eq_true, if_false, e]
            simp [List.append_assoc]

/-- What `Assemble` returns for a set whose instructions carry the arguments that
their opcodes need: the encodings of the instructions that are not labels, and then the
zero bytes that `Len` counted for the labels. -/
theorem Assemble_eq (host : InstHost) (is : List Instruction)
    (hargs : ∀ i ∈ host.nonLabels is, host.argCount i.Instr ≤ i.Args.length) :
    InstSet.Assemble host is
      = .ok (host.encodeAll is
          ++ List.replicate (host.labelCount is * (1 + host.width host.Label)) 0) := by
  have h := AssembleLoop_spec host is [] (InstSet.Len host is) hargs (by rw [Len_eq]; omega)
  simpa [InstSet.Assemble, Len_eq] using h

theorem LenLoop_relabel (host : InstHost) (al : Instruction → List String)
    (lb : Instruction → String) (is : List Instruction) :
    ∀ size, InstSet.LenLoop host (is.map (fun i => ⟨i.Instr, i.Args, al i, lb i⟩)) size
      = InstSet.LenLoop host is size := by
  induction is with
  | nil => intro size; rfl
  | cons i rest ih =>
    intro size
    simp only [List.map_cons, InstSet.LenLoop, ih]

theorem AssembleLoop_relabel (host : InstHost) (al : Instruction → List String)
    (lb : Instruction → String) (is : List Instruction) :
    ∀ bytes offset,
      InstSet.AssembleLoop host (is.map (fun i => ⟨i.Instr, i.Args, al i, lb i⟩)) bytes offset
        = InstSet.AssembleLoop host is bytes offset := by
  induction is with
  | nil => intro bytes offset; rfl
  | cons i rest ih =>
    intro bytes offset
    simp only [List.map_cons, InstSet.AssembleLoop, Instruction.Is, ih]

/-- C31 (the code, in general, and at the failing inputs): `Assemble` reads neither
`ArgLabels` nor `Label`: a set assembles to the same bytes whatever these two fields
hold in each of its instructions, so no argument is resolved from a label.  For the jump
(opcode 20, a two-byte argument) with the argument 0 and the argument label `end`, the
label `end` and the opcode 1, the bytes are `20 0 0 1 0`: the argument written is the 0
of `Args`, not the offset 3 of the instruction that follows the label; with the argument
9 and the label further on, the 9 is written as it stands. -/
theorem Assemble_ignores_labels :
    (∀ (host : InstHost) (al : Instruction → List String) (lb : Instruction → String)
      (is : List Instruction),
      InstSet.Assemble host (is.map (fun i => ⟨i.Instr, i.Args, al i, lb i⟩))
        = InstSet.Assemble host is) ∧
    InstSet.Assemble testInstHost [⟨20, [0], ["end"], ""⟩, ⟨0, [], [], "end"⟩, ⟨1, [], [], ""⟩]
      = .ok [20, 0, 0, 1, 0] ∧
    InstSet.Assemble testInstHost
        [⟨20, [9], ["end"], ""⟩, ⟨1, [], [], ""⟩, ⟨0, [], [], "end"⟩, ⟨2, [], [], ""⟩]
      = .ok [20, 0, 9, 1, 2, 0] := by
  refine ⟨fun host al lb is => ?_, rfl, rfl⟩
  simp only [InstSet.Assemble, InstSet.Len, LenLoop_relabel, AssembleLoop_relabel]

/-- C39 (the code, in general): for a set whose instructions other than labels carry
the arguments that their opcodes need, `Assemble` returns the encodings of these
instructions followed by zero bytes: for every Label pseudo-instruction one byte and the
argument bytes of the opcode `Label`, which is what `Len` counts for it while the loop
of `Assemble` writes nothing for it.  The length of the result is `Len`, and is the
number of bytes written plus that padding. -/
theorem Assemble_pads_for_labels (host : InstHost) (is : List Instruction)
    (hargs : ∀ i ∈ host.nonLabels is, host.argCount i.Instr ≤ i.Args.length) :
    InstSet.Assemble host is
      = .ok (host.encodeAll is
          ++ List.replicate (host.labelCount is * (1 + host.width host.Label)) 0) ∧
    InstSet.Len host is
      = (host.encodeAll is).length + host.labelCount is * (1 + host.width host.Label) :=
  ⟨Assemble_eq host is hargs, Len_eq host is⟩

/-- C39 (the failing inputs): the set that holds only the label `L` assembles to the one
byte 0, though it has no instruction other than the label; the set of the opcode 1, the
label `L` and the opcode 2 assembles to `1 2 0`, three bytes for two instructions of one
byte each. -/
theorem Assemble_pads_for_labels_witness :
    (InstSet.Assemble testInstHost [⟨1, [], [], ""⟩, ⟨0, [], [], "L"⟩, ⟨2, [], [], ""⟩]
      = .ok (testInstHost.encodeAll [⟨1, [], [], ""⟩, ⟨0, [], [], "L"⟩, ⟨2, [], [], ""⟩]
          ++ List.replicate (testInstHost.labelCount
              [⟨1, [], [], ""⟩, ⟨0, [], [], "L"⟩, ⟨2, [], [], ""⟩]
            * (1 + testInstHost.width testInstHost.Label)) 0) ∧
    InstSet.Len testInstHost [⟨1, [], [], ""⟩, ⟨0, [], [], "L"⟩, ⟨2, [], [], ""⟩]
      = (testInstHost.encodeAll [⟨1, [], [], ""⟩, ⟨0, [], [], "L"⟩, ⟨2, [], [], ""⟩]).length
        + testInstHost.labelCount [⟨1, [], [], ""⟩, ⟨0, [], [], "L"⟩, ⟨2, [], [], ""⟩]
          * (1 + testInstHost.width testInstHost.Label)) ∧
    InstSet.Assemble testInstHost [⟨1, [], [], ""⟩, ⟨0, [], [], "L"⟩, ⟨2, [], [], ""⟩]
      = .ok [1, 2, 0] ∧
    testInstHost.encodeAll [⟨1, [], [], ""⟩, ⟨0, [], [], "L"⟩, ⟨2, [], [], ""⟩] = [1, 2] ∧
    InstSet.Assemble testInstHost [⟨0, [], [], "L"⟩] = .ok [0] ∧
    testInstHost.encodeAll [⟨0, [], [], "L"⟩] = [] :=
  ⟨Assemble_pads_for_labels testInstHost [⟨1, [], [], ""⟩, ⟨0, [], [], "L"⟩, ⟨2, [], [], ""⟩]
    (by decide), rfl, rfl, rfl, rfl⟩

/-! ## Decoding what `Assemble` wrote -/

theorem indexSlice_append_right (pre l : List Nat) (k : Nat) :
    indexSlice (pre ++ l) (pre.length + k) = indexSlice l k := by
  simp [indexSlice, List.getElem?_append_right]

theorem indexSlice_at0 (pre r : List Nat) (x : Nat) :
    indexSlice (pre ++ x :: r) pre.length = .ok x := by
  have h := indexSlice_append_right pre (x :: r) 0
  rw [Nat.add_zero] at h
  rw [h]
  simp [indexSlice]

theorem indexSlice_at1 (pre r : List Nat) (x0 x1 : Nat) :
    indexSlice (pre ++ x0 :: x1 :: r) (pre.length + 1) = .ok x1 := by
  rw [indexSlice_append_right]
  simp [indexSlice]

theorem indexSlice_at2 (pre r : List Nat) (x0 x1 x2 : Nat) :
    indexSlice (pre ++ x0 :: x1 :: x2 :: r) (pre.length + 1 + 1) = .ok x2 := by
  rw [Nat.add_assoc, indexSlice_append_right]
  simp [indexSlice]

theorem indexSlice_at3 (pre r : List Nat) (x0 x1 x2 x3 : Nat) :
    indexSlice (pre ++ x0 :: x1 :: x2 :: x3 :: r) (pre.length + 1 + 2) = .ok x3 := by
  rw [Nat.add_assoc, indexSlice_append_right]
  simp [indexSlice]

theorem indexSlice_at4 (pre r : List Nat) (x0 x1 x2 x3 x4 : Nat) :
    indexSlice (pre ++ x0 :: x1 :: x2 :: x3 :: x4 :: r) (pre.length + 1 + 3) = .ok x4 := by
  rw [Nat.add_assoc, indexSlice_append_right]
  simp [indexSlice]

theorem not_at_end (pre r : List Nat) (x : Nat) : ¬ pre.length ≥ (pre ++ x :: r).length := by
  simp

/-- One call of `NextInstruction` at the start of the encoding of an instruction gives
the instruction back and moves the position behind the encoding. -/
theorem NextInstruction_encode (host : InstHost)
    (hhost : ∀ x, x < 65536 →
      host.bytesToUint16 (host.uint16ToBytes x).1 (host.uint16ToBytes x).2 = x)
    (i : Instruction) (hargs : i.Args.length = host.argCount i.Instr)
    (hone : host.HasOneByteArg i.Instr = true → ∀ a ∈ i.Args, a < 256)
    (h16 : ∀ a ∈ i.Args, a < 65536) (pre post : List Nat) :
    Code.NextInstruction host ⟨pre ++ (host.encode i ++ post), pre.length⟩
      = .ok (some ⟨i.Instr, i.Args, [], ""⟩,
          ⟨pre ++ (host.encode i ++ post), (pre ++ host.encode i).length⟩) := by
  obtain ⟨op, args, al, lb⟩ := i
  simp only at hargs hone h16 ⊢
  cases h1 : host.HasOneByteArg op with
  | true =>
    simp only [InstHost.argCount, h1, if_true] at hargs
    obtain ⟨a, rfl⟩ := List.length_eq_one.mp hargs
    have ha : a < 256 := hone h1 a (List.mem_singleton_self a)
    have hmod : a % 256 = a := Nat.mod_eq_of_lt ha
    simp only [Code.NextInstruction, InstHost.encode, h1, if_true, List.headD_cons, hmod,
      List.cons_append, List.nil_append, if_neg (not_at_end _ _ _), indexSlice_at0,
      indexSlice_at1, bind, Except.bind, List.length_append, List.length_cons, List.length_nil]
    rw [if_neg (by omega)]
  | false =>
    cases h2 : host.HasTwoByteArg op with
    | true =>
      simp only [InstHost.argCount, h1, h2, Bool.false_eq_true, if_false, if_true] at hargs
      obtain ⟨a, rfl⟩ := List.length_eq_one.mp hargs
      have ha := hhost a (h16 a (List.mem_singleton_self a))
      simp only [Code.NextInstruction, InstHost.encode, h1, h2, Bool.false_eq_true, if_false,
        if_true, List.headD_cons, List.cons_append, List.nil_append,
        if_neg (not_at_end _ _ _), indexSlice_at0, indexSlice_at1, indexSlice_at2, bind,
        Except.bind, ha, List.length_append, List.length_cons, List.length_nil]
      rw [if_neg (by omega)]
    | false =>
      cases h4 : host.HasFourByteArg op with
      | true =>
        simp only [InstHost.argCount, h1, h2, h4, Bool.false_eq_true, if_false, if_true] at hargs
        obtain ⟨a, b, rfl⟩ := List.length_eq_two.mp hargs
        have ha := hhost a (h16 a (List.mem_cons_self a [b]))
        have hb := hhost b (h16 b (List.mem_cons_of_mem a (List.mem_singleton_self b)))
        simp only [Code.NextInstruction, InstHost.encode, h1, h2, h4, Bool.false_eq_true,
          if_false, if_true, List.headD_cons, List.tail_cons, List.cons_append, List.nil_append,
          if_neg (not_at_end _ _ _), indexSlice_at0, indexSlice_at1, indexSlice_at2,
          indexSlice_at3, indexSlice_at4, bind, Except.bind, ha, hb, List.length_append,
          List.length_cons, List.length_nil]
        rw [if_neg (by omega)]
      | false =>
        simp only [InstHost.argCount, h1, h2, h4, Bool.false_eq_true, if_false] at hargs
        have hnil : args = [] := List.length_eq_zero.mp hargs
        subst hnil
        simp only [Code.NextInstruction, InstHost.encode, h1, h2, h4, Bool.false_eq_true,
          if_false, List.cons_append, List.nil_append, if_neg (not_at_end _ _ _),
          indexSlice_at0, bind, Except.bind, List.length_append, List.length_cons,
          List.length_nil]
        rw [if_neg (by omega)]

/-- Successive calls of `NextInstruction` on the encodings of a list of instructions
give the instructions back, one for each call, and end behind the last encoding. -/
theorem readN_encode (host : InstHost)
    (hhost : ∀ x, x < 65536 →
      host.bytesToUint16 (host.uint16ToBytes x).1 (host.uint16ToBytes x).2 = x)
    (is : List Instruction) :
    ∀ pre : List Nat,
      (∀ i ∈ is, i.Args.length = host.argCount i.Instr) →
      (∀ i ∈ is, host.HasOneByteArg i.Instr = true → ∀ a ∈ i.Args, a < 256) →
      (∀ i ∈ is, ∀ a ∈ i.Args, a < 65536) →
      Code.readN host is.length ⟨pre ++ (is.map host.encode).flatten, pre.length⟩
        = .ok (is.map (fun i => ⟨i.Instr, i.Args, [], ""⟩),
            ⟨pre ++ (is.map host.encode).flatten,
              (pre ++ (is.map host.encode).flatten).length⟩) := by
  induction is with
  | nil =>
    intro pre _ _ _
    simp [Code.readN]
  | cons i rest ih =>
    intro pre hargs hone h16
    have hstep := NextInstruction_encode host hhost i (hargs i (List.mem_cons_self i rest))
      (hone i (List.mem_cons_self i rest)) (h16 i (List.mem_cons_self i rest)) pre
      ((rest.map host.encode).flatten)
    have hrest := ih (pre ++ host.encode i)
      (fun j hj => hargs j (List.mem_cons_of_mem i hj))
      (fun j hj => hone j (List.mem_cons_of_mem i hj))
      (fun j hj => h16 j (List.mem_cons_of_mem i hj))
    rw [List.append_assoc] at hrest
    simp only [List.length_cons, Code.readN, List.map_cons, List.flatten_cons, hstep, hrest,
      bind, Except.bind, List.append_assoc]

theorem encodeAll_of_no_label (host : InstHost) (is : List Instruction)
    (hlabel : ∀ i ∈ is, i.Is host.Label = false) :
    host.encodeAll is = (is.map host.encode).flatten ∧ host.labelCount is = 0 ∧
    host.nonLabels is = is := by
  have hnl : host.nonLabels is = is := by
    unfold InstHost.nonLabels
    rw [List.filter_eq_self]
    intro i hi
    simp [hlabel i hi]
  refine ⟨by rw [InstHost.encodeAll, hnl], ?_, hnl⟩
  unfold InstHost.labelCount
  rw [List.length_eq_zero, List.filter_eq_nil_iff]
  intro i hi
  simp [hlabel i hi]

/-- C40: let the two helpers be inverse on 16-bit values, `bytesToUint16` undoing
`uint16ToBytes`.  For every list of instructions without a label in which each
instruction carries the number of arguments that its opcode requires, each argument is a
16-bit value and each one-byte argument is below 256, `Assemble` returns the encodings
of the instructions; as many calls of `NextInstruction` on `NewCode` of these bytes as
the list has instructions return the instructions with the same opcodes and the same
arguments in the same order and stop at the end of the bytes; the next call returns nil.
No call faults, so none reads past the end of the bytes. -/
theorem NextInstruction_undoes_Assemble (host : InstHost) (is : List Instruction)
    (hhost : ∀ x, x < 65536 →
      host.bytesToUint16 (host.uint16ToBytes x).1 (host.uint16ToBytes x).2 = x)
    (hlabel : ∀ i ∈ is, i.Is host.Label = false)
    (hargs : ∀ i ∈ is, i.Args.length = host.argCount i.Instr)
    (hone : ∀ i ∈ is, host.HasOneByteArg i.Instr = true → ∀ a ∈ i.Args, a < 256)
    (h16 : ∀ i ∈ is, ∀ a ∈ i.Args, a < 65536) :
    InstSet.Assemble host is = .ok (host.encodeAll is) ∧
    Code.readN host is.length (NewCode (host.encodeAll is))
      = .ok (is.map (fun i => ⟨i.Instr, i.Args, [], ""⟩),
          ⟨host.encodeAll is, (host.encodeAll is).length⟩) ∧
    Code.NextInstruction host ⟨host.encodeAll is, (host.encodeAll is).length⟩
      = .ok (none, ⟨host.encodeAll is, (host.encodeAll is).length⟩) := by
  obtain ⟨henc, hcount, hnl⟩ := encodeAll_of_no_label host is hlabel
  refine ⟨?_, ?_, ?_⟩
  · have h := Assemble_eq host is (by
      intro i hi
      rw [hnl] at hi
      exact le_of_eq (hargs i hi).symm)
    rw [hcount] at h
    simpa using h
  · have h := readN_encode host hhost is [] hargs hone h16
    simpa [NewCode, henc] using h
  · simp [Code.NextInstruction]

/-- C40 (instance): the list of the opcode 20 with the argument 300, the opcode 10 with
the argument 7, the opcode 1 without argument and the opcode 30 with the arguments 1 and
515 assembles to the eleven bytes `20 1 44 10 7 1 30 0 1 2 3`, which decode to the same
four instructions; the fifth call returns nil. -/
theorem NextInstruction_undoes_Assemble_witness :
    (InstSet.Assemble testInstHost
        [⟨20, [300], [], ""⟩, ⟨10, [7], [], ""⟩, ⟨1, [], [], ""⟩, ⟨30, [1, 515], [], ""⟩]
      = .ok (testInstHost.encodeAll
          [⟨20, [300], [], ""⟩, ⟨10, [7], [], ""⟩, ⟨1, [], [], ""⟩, ⟨30, [1, 515], [], ""⟩]) ∧
    Code.readN testInstHost
        [(⟨20, [300], [], ""⟩ : Instruction), ⟨10, [7], [], ""⟩, ⟨1, [], [], ""⟩,
          ⟨30, [1, 515], [], ""⟩].length
        (NewCode (testInstHost.encodeAll
          [⟨20, [300], [], ""⟩, ⟨10, [7], [], ""⟩, ⟨1, [], [], ""⟩, ⟨30, [1, 515], [], ""⟩]))
      = .ok ([(⟨20, [300], [], ""⟩ : Instruction), ⟨10, [7], [], ""⟩, ⟨1, [], [], ""⟩,
            ⟨30, [1, 515], [], ""⟩].map (fun i => ⟨i.Instr, i.Args, [], ""⟩),
          ⟨testInstHost.encodeAll
            [⟨20, [300], [], ""⟩, ⟨10, [7], [], ""⟩, ⟨1, [], [], ""⟩, ⟨30, [1, 515], [], ""⟩],
            (testInstHost.encodeAll
              [⟨20, [300], [], ""⟩, ⟨10, [7], [], ""⟩, ⟨1, [], [], ""⟩,
                ⟨30, [1, 515], [], ""⟩]).length⟩) ∧
    Code.NextInstruction testInstHost ⟨testInstHost.encodeAll
        [⟨20, [300], [], ""⟩, ⟨10, [7], [], ""⟩, ⟨1, [], [], ""⟩, ⟨30, [1, 515], [], ""⟩],
        (testInstHost.encodeAll
          [⟨20, [300], [], ""⟩, ⟨10, [7], [], ""⟩, ⟨1, [], [], ""⟩,
            ⟨30, [1, 515], [], ""⟩]).length⟩
      = .ok (none, ⟨testInstHost.encodeAll
          [⟨20, [300], [], ""⟩, ⟨10, [7], [], ""⟩, ⟨1, [], [], ""⟩, ⟨30, [1, 515], [], ""⟩],
          (testInstHost.encodeAll
            [⟨20, [300], [], ""⟩, ⟨10, [7], [], ""⟩, ⟨1, [], [], ""⟩,
              ⟨30, [1, 515], [], ""⟩]).length⟩)) ∧
    InstSet.Assemble testInstHost
        [⟨20, [300], [], ""⟩, ⟨10, [7], [], ""⟩, ⟨1, [], [], ""⟩, ⟨30, [1, 515], [], ""⟩]
      = .ok [20, 1, 44, 10, 7, 1, 30, 0, 1, 2, 3] ∧
    Code.readN testInstHost 5 (NewCode [20, 1, 44, 10, 7, 1, 30, 0, 1, 2, 3])
      = .ok ([⟨20, [300], [], ""⟩, ⟨10, [7], [], ""⟩, ⟨1, [], [], ""⟩, ⟨30, [1, 515], [], ""⟩],
          ⟨[20, 1, 44, 10, 7, 1, 30, 0, 1, 2, 3], 11⟩) :=
  ⟨NextInstruction_undoes_Assemble testInstHost
    [⟨20, [300], [], ""⟩, ⟨10, [7], [], ""⟩, ⟨1, [], [], ""⟩, ⟨30, [1, 515], [], ""⟩]
    (by intro x hx; simp only [testInstHost]; omega) (by decide) (by decide) (by decide)
    (by decide), rfl, rfl⟩

end Nitrogen
